import Mathlib

/-!
# A verification model of the dice_box build-scheduler simulator

This file gives a shallow embedding, in Lean, of the core of the
`dice_box` crate: artifacts, the timing store, the dependency queue, the
hint providers and the discrete-event runner, together with theorems about
the embedded definitions.

Modelling conventions used throughout:

* `BTreeMap` / `BTreeSet` are modelled as association lists / lists kept in
  ascending key order, so that iteration of the model matches the ordered
  iteration of the Rust containers.
* Panics (`unwrap`, `assert!`, `unreachable!`, indexing a missing key) are
  modelled by returning `none` from an `Option`-valued function.
* `f64` durations are modelled as exact integers: the code only ever orders
  durations, adds and subtracts them, and truncates `duration * 1000.0`.
* Loops whose termination depends on data invariants take an explicit fuel
  argument and return `none` when the fuel runs out.
-/

namespace DiceBox

/-- Code-point lexicographic strict order on character lists, mirroring the
standard strict order on Rust strings. -/
def charListLt : List Char → List Char → Bool
  | [], [] => false
  | [], _ :: _ => true
  | _ :: _, [] => false
  | a :: as, b :: bs => a.val < b.val || (a.val == b.val && charListLt as bs)

/-- Strict order on package identifiers (the order of Rust `String`). -/
def pkgLt (a b : String) : Bool := charListLt a.data b.data

/-- `ArtifactType` from artifact.rs; the derived Rust `Ord` compares by
declaration order. -/
inductive ArtifactType where
  | BuildScriptBuild
  | BuildScriptRun
  | Metadata
  | Codegen
  | Link
deriving DecidableEq, Repr

/-- Position of an `ArtifactType` constructor in the Rust declaration order. -/
def ArtifactType.rank : ArtifactType → ℕ
  | .BuildScriptBuild => 0
  | .BuildScriptRun => 1
  | .Metadata => 2
  | .Codegen => 3
  | .Link => 4

/-- `Artifact` from artifact.rs: a `(kind, package id)` value pair. -/
structure Artifact where
  typ : ArtifactType
  package_id : String
deriving DecidableEq, Repr

/-- The derived lexicographic `Ord` on `Artifact` (field order: `typ`, then
`package_id`). -/
def Artifact.blt (a b : Artifact) : Bool :=
  a.typ.rank < b.typ.rank ||
    (a.typ.rank == b.typ.rank && pkgLt a.package_id b.package_id)

/-- A `BTreeMap<Artifact, V>`, as an association list in ascending key
order. -/
abbrev AMap (V : Type) := List (Artifact × V)

/-- `BTreeMap` lookup. -/
def alookup {V : Type} (k : Artifact) : AMap V → Option V
  | [] => none
  | (k2, v) :: rest => if k2 = k then some v else alookup k rest

/-- `BTreeMap` insert (overwrite an existing binding, else keep the list
sorted). -/
def ainsert {V : Type} (k : Artifact) (v : V) : AMap V → AMap V
  | [] => [(k, v)]
  | (k2, v2) :: rest =>
    if k = k2 then (k, v) :: rest
    else if Artifact.blt k k2 then (k, v) :: (k2, v2) :: rest
    else (k2, v2) :: ainsert k v rest

/-- `BTreeMap` remove of every binding of `k` (a `BTreeMap` has at most
one). -/
def aerase {V : Type} (k : Artifact) (m : AMap V) : AMap V :=
  m.filter (fun p => p.1 ≠ k)

/-- In-place overwrite of the value bound to `k` (`get_mut` semantics: the
key set of the map is unchanged). -/
def aupdate {V : Type} (k : Artifact) (v : V) (m : AMap V) : AMap V :=
  m.map (fun p => if p.1 = k then (k, v) else p)

/-- A `BTreeSet<Artifact>`, as a list in ascending order. -/
abbrev ASet := List Artifact

/-- `BTreeSet` insert. -/
def sinsert (k : Artifact) : ASet → ASet
  | [] => [k]
  | k2 :: rest =>
    if k = k2 then k2 :: rest
    else if Artifact.blt k k2 then k :: k2 :: rest
    else k2 :: sinsert k rest

/-- `BTreeSet::extend`: insert every element of `t` into `s`. -/
def sunion (s t : ASet) : ASet := t.foldl (fun acc x => sinsert x acc) s

/-- Rust `Iterator::max_by_key` semantics: of several maximal elements the
last one is returned. -/
def maxByLast {α : Type} (le : α → α → Bool) : List α → Option α
  | [] => none
  | x :: xs => some (xs.foldl (fun acc y => if le acc y then y else acc) x)

/-- Rust `Iterator::min_by_key` semantics: of several minimal elements the
first one is returned. -/
def minByFirst {α : Type} (lt : α → α → Bool) : List α → Option α
  | [] => none
  | x :: xs => some (xs.foldl (fun acc y => if lt y acc then y else acc) x)

/-- `BuildMode` from timings.rs. -/
inductive BuildMode where
  | RunCustomBuild
  | Build
deriving DecidableEq, Repr

/-- `CrateType` from timings.rs. -/
inductive CrateType where
  | Lib
  | ProcMacro
  | Rlib
  | Cdylib
  | Bin
deriving DecidableEq, Repr

/-- `Target` from timings.rs. -/
structure Target where
  name : String
  crate_types : List CrateType
deriving DecidableEq, Repr

/-- `TimingInfo` from timings.rs (`duration` and `rmeta_time` are `f64`
seconds in the source, modelled as exact integers). -/
structure TimingInfo where
  mode : BuildMode
  duration : ℤ
  rmeta_time : Option ℤ
  package_id : String
  target : Target
deriving DecidableEq, Repr

/-- `Target::is_build_script`. -/
def Target.isBuildScript (t : Target) : Bool :=
  t.name == "build-script-build" || t.name == "build-script-main"

/-- timings.rs `node_type`; the `(RunCustomBuild, non-script)` arm is
`unreachable!` in the source, modelled as `none`. -/
def node_type (mode : BuildMode) (target : Target) : Option ArtifactType :=
  match mode, target.isBuildScript with
  | .Build, true => some .BuildScriptBuild
  | .RunCustomBuild, true => some .BuildScriptRun
  | .Build, false =>
    if target.crate_types.any
        (fun typ => [CrateType.Bin, .ProcMacro, .Rlib, .Cdylib].contains typ)
    then some .Link
    else some .Metadata
  | .RunCustomBuild, false => none

/-- The insertions performed for one record of the timings stream by
timings.rs `parse`.  A record resolving to `Metadata` without an
`rmeta_time` hits the `assert!` (modelled as `none`). -/
def parseRecord (timing : TimingInfo) : Option (List (Artifact × TimingInfo)) :=
  match node_type timing.mode timing.target with
  | none => none
  | some typ =>
    if typ = .Metadata then
      match timing.rmeta_time with
      | none => none
      | some r =>
        some [(⟨.Codegen, timing.package_id⟩,
                { timing with duration := timing.duration - r, rmeta_time := none }),
              (⟨typ, timing.package_id⟩,
                { timing with duration := r, rmeta_time := none })]
    else some [(⟨typ, timing.package_id⟩, timing)]

/-- timings.rs `parse`, over the already-deserialized record stream (JSON
decoding and the skipping of lines that do not start with a brace are out
of scope). -/
def parse (records : List TimingInfo) : Option (AMap TimingInfo) :=
  records.foldlM
    (fun out timing =>
      (parseRecord timing).map (fun es => es.foldl (fun m p => ainsert p.1 p.2 m) out))
    []

/-- `DependencyQueueBuilder` from dependency_queue.rs. -/
structure DependencyQueueBuilder where
  dep_map : AMap ASet
  reverse_dep_map : AMap ASet
deriving DecidableEq, Repr

/-- `DependencyQueueBuilder::new`. -/
def DependencyQueueBuilder.new : DependencyQueueBuilder := ⟨[], []⟩

/-- `DependencyQueueBuilder::queue`: insert a node with its dependency set;
a repeated key is ignored.  Every dependency is also recorded in
`reverse_dep_map`. -/
def DependencyQueueBuilder.queue (b : DependencyQueueBuilder) (key : Artifact)
    (dependencies : List Artifact) : DependencyQueueBuilder :=
  if (alookup key b.dep_map).isSome then b
  else
    let st := dependencies.foldl
      (fun (acc : ASet × AMap ASet) dep =>
        (sinsert dep acc.1, ainsert dep (sinsert key ((alookup dep acc.2).getD [])) acc.2))
      ([], b.reverse_dep_map)
    { dep_map := ainsert key st.1 b.dep_map, reverse_dep_map := st.2 }

/-- dependency_queue.rs `depth`, with explicit fuel: the memoised DFS that
computes, for `key`, the set of nodes reachable through `map` from `key`
(`key` included).  `none` models fuel exhaustion and the
`"cycle in DependencyQueue"` assertion (an entry that is still the empty
in-progress placeholder). -/
def depth : ℕ → Artifact → AMap ASet → AMap ASet → Option (AMap ASet × ASet)
  | 0, _, _, _ => none
  | fuel + 1, key, map, results =>
    match alookup key results with
    | some s => if s = [] then none else some (results, s)
    | none =>
      (((alookup key map).getD []).foldlM
          (fun (acc : AMap ASet × ASet) dep =>
            (depth fuel dep map acc.1).map (fun r => (r.1, sunion acc.2 r.2)))
          (ainsert key [] results, [key])).map
        (fun r => (aupdate key r.2 r.1, r.2))

/-- dependency_queue.rs `reverse_dependencies`: the flattened (reflexive and
transitive) reverse-dependency sets of every key of the builder. -/
def reverse_dependencies (fuel : ℕ) (deps : DependencyQueueBuilder) : Option (AMap ASet) :=
  deps.dep_map.foldlM
    (fun out p => (depth fuel p.1 deps.reverse_dep_map out).map Prod.fst) []

/-- `dependent_cost` from `CargoHints::new`. -/
def dependent_cost (typ : ArtifactType) : ℕ := if typ = .Codegen then 0 else 10

/-- The closed sum of hint-provider implementations present in the source
(`CargoHints`, `NHintsProvider`, `RepeatSchedule`). -/
inductive HintProvider where
  | cargo (priority : AMap ℕ) (separate_codegen : Bool)
  | nHints (n_hints : List Artifact) (reverse_dependencies : AMap ASet)
      (timings : AMap TimingInfo) (inner : HintProvider)
  | repeatSchedule (schedule : List Artifact)
deriving DecidableEq, Repr

/-- `CargoHints::new`: priority of `n` is
`dependent_cost(n) + Σ dependent_cost(d)` over the flattened
reverse-dependency set of `n` (which contains `n` itself). -/
def CargoHints.new (fuel : ℕ) (deps : DependencyQueueBuilder)
    (separate_codegen : Bool) : Option HintProvider :=
  (reverse_dependencies fuel deps).map (fun out =>
    .cargo
      (out.map (fun p =>
        (p.1, dependent_cost p.1.typ + (p.2.map (fun d => dependent_cost d.typ)).sum)))
      separate_codegen)

/-- The lexicographic key of `CargoHints::suggest_next`. -/
def cargoKey (priority : AMap ℕ) (separate_codegen : Bool) (a : Artifact) : Bool × ℕ :=
  (separate_codegen || a.typ == ArtifactType.Codegen, (alookup a priority).getD 0)

/-- `≤` on `(Bool, usize)` keys (Rust `Ord`: `false < true`, then the
number). -/
def boolNatLe (x y : Bool × ℕ) : Bool := (!x.1 && y.1) || (x.1 == y.1 && x.2 ≤ y.2)

/-- The per-entry transformation of the `iter_mut` loop of
`NHintsProvider::new`: a `Metadata` entry gains the duration of its
`Codegen` sibling, read from `old_timings`. -/
def nhFoldVal (old_timings : AMap TimingInfo) (k : Artifact) (v : TimingInfo) : TimingInfo :=
  if k.typ = .Metadata then
    match alookup ⟨.Codegen, k.package_id⟩ old_timings with
    | some codegen_timing => { v with duration := v.duration + codegen_timing.duration }
    | none => v
  else v

/-- First pass of `NHintsProvider::new` (the `iter_mut` loop): add the
duration of the `Codegen` sibling, read from `old_timings`, to every
`Metadata` entry. -/
def nhFoldPass (old_timings : AMap TimingInfo) (m : AMap TimingInfo) : AMap TimingInfo :=
  m.map (fun p => (p.1, nhFoldVal old_timings p.1 p.2))

/-- The `retain` pass of `NHintsProvider::new`: its closure adds the
`Codegen` sibling duration to `Metadata` entries a second time, then every
`Codegen` entry is dropped. -/
def nhRetainPass (old_timings : AMap TimingInfo) (m : AMap TimingInfo) : AMap TimingInfo :=
  (nhFoldPass old_timings m).filter (fun p => p.1.typ ≠ .Codegen)

/-- The folded timing map `timings` held by the finished `NHintsProvider`. -/
def nhFoldedTimings (timings : AMap TimingInfo) : AMap TimingInfo :=
  nhRetainPass timings (nhFoldPass timings timings)

/-- Candidate selection of `NHintsProvider::new`: sort ascending by duration
(stably — `sort_by_key` is a stable sort, modelled by the stable
`insertionSort`), reverse, take 75. -/
def nhCandidates (timings2 : AMap TimingInfo) : List Artifact :=
  (((List.insertionSort (fun a b => a.1.duration ≤ b.1.duration)
      (timings2.map (fun p => (p.2, p.1)))).map Prod.snd).reverse).take 75

/-- `reverse_dep_map.get(n).map(|d| d.len()).unwrap_or_default()`. -/
def nhRevDepCount (deps : DependencyQueueBuilder) (n : Artifact) : ℕ :=
  ((alookup n deps.reverse_dep_map).map List.length).getD 0

/-- The insertion order of `NHintsProvider::new`: the candidates, stably
re-sorted by ascending direct reverse-dependency count
(`sort_by_cached_key`, a stable sort, modelled by the stable
`insertionSort`). -/
def nhTopN (deps : DependencyQueueBuilder) (timings2 : AMap TimingInfo) : List Artifact :=
  List.insertionSort (fun a b => nhRevDepCount deps a ≤ nhRevDepCount deps b)
    (nhCandidates timings2)

/-- Panic-aware `Iterator::position` where the predicate itself may panic
(`none`); `some none` means no element matched. -/
def findIdxPanic {α : Type} (f : α → Option Bool) : List α → Option (Option ℕ)
  | [] => some none
  | x :: xs =>
    match f x with
    | none => none
    | some true => some (some 0)
    | some false => (findIdxPanic f xs).map (fun o => o.map (· + 1))

/-- `n_hints.iter().rposition(|entry| reverse_dependencies[&entry].contains(&item))`:
scan from the right, panicking on a missing map entry. -/
def rposLastDependency (revd : AMap ASet) (item : Artifact)
    (l : List Artifact) : Option (Option ℕ) :=
  (findIdxPanic (fun e => (alookup e revd).map (fun s => decide (item ∈ s))) l.reverse).map
    (fun o => o.map (fun i => l.length - 1 - i))

/-- The window search of the insertion-index closure: first position in
`n_hints[lo..hi]` whose occupant has a duration below `self_time`, shifted
by `lo`, defaulting to `hi`. -/
def nhWindowIndex (tm2 : AMap TimingInfo) (self_time : ℤ) (n_hints : List Artifact)
    (lo hi : ℕ) : Option ℕ :=
  (findIdxPanic
      (fun e => (alookup e tm2).map (fun ti => decide (ti.duration < self_time)))
      ((n_hints.drop lo).take (hi - lo))).map
    (fun o => (o.map (· + lo)).getD hi)

/-- The insertion-index closure of `NHintsProvider::new` (hints.rs
lines 74–114); `none` models the panics, including the ordering
`assert!(my_last_dependency < my_first_dependant)`. -/
def nhInsertionIndex (revd : AMap ASet) (tm2 : AMap TimingInfo) (self_time : ℤ)
    (my_dependants : ASet) (n_hints : List Artifact) (item : Artifact) : Option ℕ :=
  if n_hints = [] then some 0
  else
    match rposLastDependency revd item n_hints with
    | none => none
    | some my_last_dependency =>
      let my_first_dependant := n_hints.findIdx? (fun e => decide (e ∈ my_dependants))
      match my_last_dependency, my_first_dependant with
      | some ld, some fd =>
        if ld < fd then
          if ld + 1 = fd then some fd
          else nhWindowIndex tm2 self_time n_hints (ld + 1) fd
        else none
      | some ld, none => nhWindowIndex tm2 self_time n_hints (ld + 1) n_hints.length
      | none, some fd => nhWindowIndex tm2 self_time n_hints 0 fd
      | none, none => nhWindowIndex tm2 self_time n_hints 0 n_hints.length

/-- One iteration of the `n_hints` build loop: look up the (folded) duration
and the flattened reverse-dependency set of `item`, compute the insertion
index and insert. -/
def nhInsertStep (revd : AMap ASet) (tm2 : AMap TimingInfo)
    (n_hints : List Artifact) (item : Artifact) : Option (List Artifact) :=
  match alookup item tm2, alookup item revd with
  | some ti, some my_dependants =>
    (nhInsertionIndex revd tm2 ti.duration my_dependants n_hints item).map
      (fun idx => n_hints.insertIdx idx item)
  | _, _ => none

/-- hints.rs `NHintsProvider::new`.  The source snapshot passes only the
builder to `CargoHints::new`; the inner provider is built with
`separate_codegen = false` here (it is never consulted by `suggest_next`). -/
def NHintsProvider.new (fuel : ℕ) (dependencies : DependencyQueueBuilder)
    (timings : AMap TimingInfo) : Option HintProvider :=
  let timings2 := nhFoldedTimings timings
  let top_n_entries := nhTopN dependencies timings2
  match reverse_dependencies fuel dependencies with
  | none => none
  | some revd =>
    match top_n_entries.foldlM (nhInsertStep revd timings2) [] with
    | none => none
    | some n_hints =>
      match CargoHints.new fuel dependencies false with
      | none => none
      | some inner => some (.nHints n_hints revd timings2 inner)

/-- `itertools::unique`: keep the first occurrence of every element. -/
def dedupFirstAux (seen : List Artifact) : List Artifact → List Artifact
  | [] => []
  | x :: xs => if x ∈ seen then dedupFirstAux seen xs else x :: dedupFirstAux (x :: seen) xs

/-- repeat_schedule.rs `RepeatSchedule::new`. -/
def RepeatSchedule.new (artifacts : List Artifact) : HintProvider :=
  .repeatSchedule (dedupFirstAux [] artifacts)

/-- The duration key of the direct-hit branch of
`NHintsProvider::suggest_next` (`self.timings.get(artifact)` defaulted to
zero). -/
def nhDurKey (tm : AMap TimingInfo) (a : Artifact) : ℤ :=
  ((alookup a tm).map TimingInfo.duration).getD 0

/-- The position key of the fallback branch of
`NHintsProvider::suggest_next`. -/
def nhPos (n_hints : List Artifact) (revd : AMap ASet) (a : Artifact) : ℕ :=
  (n_hints.findIdx? (fun h => decide (h ∈ (alookup a revd).getD []))).getD n_hints.length

/-- One `suggest_next` call of a hint provider.  Rust takes `&mut self`, so
the possibly updated provider state is returned with the choice; the outer
`Option` models panics inside the call. -/
def suggestNextP : HintProvider → List Artifact → Option (Option Artifact × HintProvider)
  | .cargo priority separate_codegen, timings =>
    if timings.all (fun a => (alookup a priority).isSome) then
      some
        (maxByLast
          (fun a b =>
            boolNatLe (cargoKey priority separate_codegen a) (cargoKey priority separate_codegen b))
          timings,
         .cargo priority separate_codegen)
    else none
  | .nHints n_hints revd tm inner, timings =>
    match timings.find? (fun t => t.typ == ArtifactType.Codegen) with
    | some codegen => some (some codegen, .nHints n_hints revd tm inner)
    | none =>
      match maxByLast (fun a b => decide (nhDurKey tm a ≤ nhDurKey tm b))
          (timings.filter (fun a => n_hints.contains a)) with
      | some direct_hit => some (some direct_hit, .nHints n_hints revd tm inner)
      | none =>
        if timings.all (fun a => (alookup a revd).isSome) then
          some
            (minByFirst (fun a b => decide (nhPos n_hints revd a < nhPos n_hints revd b)) timings,
             .nHints n_hints revd tm inner)
        else none
  | .repeatSchedule schedule, timings =>
    match schedule with
    | [] => some (none, .repeatSchedule [])
    | next :: rest =>
      match timings.find? (fun item => item == next) with
      | none => some (none, .repeatSchedule (next :: rest))
      | some item => some (some item, .repeatSchedule rest)

/-- `DependencyQueue` from dependency_queue.rs. -/
structure DependencyQueue where
  dep_map : AMap ASet
  reverse_dep_map : AMap ASet
  hints : HintProvider
deriving DecidableEq, Repr

/-- `DependencyQueueBuilder::finish`. -/
def DependencyQueueBuilder.finish (b : DependencyQueueBuilder) (hints : HintProvider) :
    DependencyQueue :=
  ⟨b.dep_map, b.reverse_dep_map, hints⟩

/-- The candidate (ready) list computed inside `DependencyQueue::dequeue`:
the keys whose remaining dependency set is empty, in key order. -/
def DependencyQueue.candidates (q : DependencyQueue) : List Artifact :=
  q.dep_map.filterMap (fun p => if p.2 = [] then some p.1 else none)

/-- `DependencyQueue::dequeue`.  `some (none, _)` is Rust `None` (the `?` on
the provider's answer), the outer `none` models the `unwrap` panic on
removing a key the provider invented. -/
def DependencyQueue.dequeue (q : DependencyQueue) :
    Option (Option Artifact × DependencyQueue) :=
  match suggestNextP q.hints q.candidates with
  | none => none
  | some (none, h) => some (none, { q with hints := h })
  | some (some key, h) =>
    if (alookup key q.dep_map).isSome then
      some (some key, { q with dep_map := aerase key q.dep_map, hints := h })
    else none

/-- `DependencyQueue::is_empty`. -/
def DependencyQueue.is_empty (q : DependencyQueue) : Bool := q.dep_map.isEmpty

/-- `DependencyQueue::len`. -/
def DependencyQueue.len (q : DependencyQueue) : ℕ := q.dep_map.length

/-- One iteration of the loop of `DependencyQueue::finish`: remove `node`
from the dependency set of the successor `dep`; `none` models the `unwrap`
on a missing `dep_map` entry and the `assert!` that `node` was present. -/
def DependencyQueue.finishStep (node : Artifact) (st : List Artifact × AMap ASet)
    (dep : Artifact) : Option (List Artifact × AMap ASet) :=
  match alookup dep st.2 with
  | none => none
  | some edges =>
    if node ∈ edges then
      let edges2 := edges.erase node
      some (if edges2 = [] then st.1 ++ [dep] else st.1, aupdate dep edges2 st.2)
    else none

/-- `DependencyQueue::finish`: returns the newly ready successors together
with the updated queue; an artifact without recorded successors yields the
empty list and an unchanged queue. -/
def DependencyQueue.finish (q : DependencyQueue) (node : Artifact) :
    Option (List Artifact × DependencyQueue) :=
  match alookup node q.reverse_dep_map with
  | none => some ([], q)
  | some reverse_deps =>
    (reverse_deps.foldlM (DependencyQueue.finishStep node) ([], q.dep_map)).map
      (fun st => (st.1, { q with dep_map := st.2 }))

/-- `Task` from runner.rs. -/
structure Task where
  artifact : Artifact
  end_time : ℕ
deriving DecidableEq, Repr

/-- `Runner` from runner.rs.  The `trace` of `(start time, artifact)` pairs
is modelled from the spec (§4.5 "optional trace"): the source runner only
logs scheduling events. -/
structure Runner where
  current_time : ℕ
  queue : DependencyQueue
  timings : AMap TimingInfo
  running_tasks : List (Option Task)
  running_tasks_count : ℕ
  trace : List (ℕ × Artifact)
deriving DecidableEq, Repr

/-- `(self.timings[&new_task].duration * 1000.) as u64`: truncation toward
zero, negatives clamped at zero. -/
def msOf (d : ℤ) : ℕ := (d * 1000).toNat

/-- `Runner::new`. -/
def Runner.new (queue : DependencyQueue) (timings : AMap TimingInfo)
    (num_threads : ℕ) : Runner :=
  { current_time := 0, queue, timings,
    running_tasks := List.replicate num_threads none,
    running_tasks_count := 0, trace := [] }

/-- `Runner::busy_slots`. -/
def Runner.busy_slots (S : Runner) : ℕ := S.running_tasks_count

/-- `Runner::free_slots`. -/
def Runner.free_slots (S : Runner) : ℕ := S.running_tasks.length - S.busy_slots

/-- The running tasks of a slot list. -/
def occupied (slots : List (Option Task)) : List Task := slots.filterMap id

/-- The `retain_mut` loop of `run_next_task_to_completion`: clear every task
ending at `endT` in slot order, telling the queue about each finish. -/
def finishRound (endT : ℕ) :
    List (Option Task) → DependencyQueue → ℕ →
      Option (List (Option Task) × DependencyQueue × ℕ)
  | [], q, cnt => some ([], q, cnt)
  | none :: rest, q, cnt =>
    (finishRound endT rest q cnt).map (fun r => (none :: r.1, r.2))
  | some t :: rest, q, cnt =>
    if t.end_time = endT then
      match q.finish t.artifact with
      | none => none
      | some (_, q2) =>
        (finishRound endT rest q2 (cnt - 1)).map (fun r => (none :: r.1, r.2))
    else (finishRound endT rest q cnt).map (fun r => (some t :: r.1, r.2))

/-- runner.rs `run_next_task_to_completion`. -/
def Runner.run_next_task_to_completion (S : Runner) : Option Runner :=
  match minByFirst (fun t u => decide (t.end_time < u.end_time)) (occupied S.running_tasks) with
  | none => some S
  | some task_to_remove =>
    (finishRound task_to_remove.end_time S.running_tasks S.queue S.running_tasks_count).map
      (fun r =>
        { S with running_tasks := r.1, queue := r.2.1, running_tasks_count := r.2.2,
                 current_time := task_to_remove.end_time })

/-- Place a task in the first empty slot (the `expect` on a full slot list
is modelled as `none`). -/
def replaceFirstNone (t : Task) : List (Option Task) → Option (List (Option Task))
  | [] => none
  | none :: rest => some (some t :: rest)
  | some u :: rest => (replaceFirstNone t rest).map (fun r => some u :: r)

/-- runner.rs `schedule_new_tasks`, as a fuelled loop (each iteration fills
one slot, so the slot count bounds the iterations). -/
def scheduleAux : ℕ → Runner → Option Runner
  | 0, S => some S
  | f + 1, S =>
    if S.free_slots > 0 then
      match S.queue.dequeue with
      | none => none
      | some (none, q2) => some { S with queue := q2 }
      | some (some a, q2) =>
        match alookup a S.timings with
        | none => none
        | some ti =>
          match replaceFirstNone ⟨a, S.current_time + msOf ti.duration⟩ S.running_tasks with
          | none => none
          | some slots2 =>
            scheduleAux f
              { S with queue := q2, running_tasks := slots2,
                       running_tasks_count := S.running_tasks_count + 1,
                       trace := S.trace ++ [(S.current_time, a)] }
    else some S

/-- runner.rs `schedule_new_tasks`. -/
def Runner.schedule_new_tasks (S : Runner) : Option Runner :=
  scheduleAux S.running_tasks.length S

/-- runner.rs `step`. -/
def Runner.step (S : Runner) : Option Runner :=
  S.run_next_task_to_completion.bind Runner.schedule_new_tasks

/-- runner.rs `calculate`, with fuel for the outer `while` loop.  On normal
exit the loop condition gives `busy_slots = 0` (the source `assert_eq!`)
and `current_time` is the makespan in milliseconds. -/
def Runner.calculate : ℕ → Runner → Option Runner
  | 0, _ => none
  | fuel + 1, S =>
    if ¬ S.queue.is_empty ∨ S.busy_slots > 0 then S.step.bind (Runner.calculate fuel)
    else some S

/-- The simulated duration of an artifact in milliseconds: the timing-map
lookup of `schedule_new_tasks`, defaulted to zero (only used in statements;
a scheduled task always has an entry). -/
def dms (tm : AMap TimingInfo) (a : Artifact) : ℕ :=
  ((alookup a tm).map (fun ti => msOf ti.duration)).getD 0

/-- The simulation invariant of `Runner` states reachable from
`Runner.new q0 tm n`: slot bookkeeping, the correspondence between running
tasks and the trace, conservation of the initial dependency structure, and
the running work account. -/
structure RunInv (q0 : DependencyQueue) (tm : AMap TimingInfo) (n : ℕ)
    (S : Runner) : Prop where
  slots_len : S.running_tasks.length = n
  count_eq : S.running_tasks_count = (occupied S.running_tasks).length
  timings_eq : S.timings = tm
  task_trace : ∀ t ∈ occupied S.running_tasks,
    ∃ sp, (sp, t.artifact) ∈ S.trace ∧ sp + dms tm t.artifact = t.end_time
  task_live : ∀ t ∈ occupied S.running_tasks, S.current_time ≤ t.end_time
  keys_sub : ∀ a ∈ S.queue.dep_map.map Prod.fst, a ∈ q0.dep_map.map Prod.fst
  keys_nodup : (S.queue.dep_map.map Prod.fst).Nodup
  cover : ∀ a ∈ q0.dep_map.map Prod.fst,
    a ∈ S.queue.dep_map.map Prod.fst ∨ a ∈ S.trace.map Prod.snd
  trace_sub : ∀ a ∈ S.trace.map Prod.snd, a ∈ q0.dep_map.map Prod.fst
  trace_fresh : ∀ a ∈ S.trace.map Prod.snd, a ∉ S.queue.dep_map.map Prod.fst
  trace_nodup : (S.trace.map Prod.snd).Nodup
  dep_state : ∀ a ds0 ds, alookup a q0.dep_map = some ds0 →
    alookup a S.queue.dep_map = some ds →
    (∀ p ∈ ds, p ∈ ds0) ∧
    (∀ p ∈ ds0, p ∉ ds →
      ∃ sp, (sp, p) ∈ S.trace ∧ sp + dms tm p ≤ S.current_time)
  trace_dep : ∀ e ∈ S.trace, ∀ p ∈ (alookup e.2 q0.dep_map).getD [],
    ∃ sp, (sp, p) ∈ S.trace ∧ sp + dms tm p ≤ e.1
  trace_end : ∀ e ∈ S.trace, e.1 + dms tm e.2 ≤ S.current_time ∨
    ∃ t ∈ occupied S.running_tasks, t.artifact = e.2 ∧
      t.end_time = e.1 + dms tm e.2
  work : (S.trace.map (fun e => dms tm e.2)).sum +
      (occupied S.running_tasks).length * S.current_time ≤
    n * S.current_time + ((occupied S.running_tasks).map Task.end_time).sum

/-! ## Basic lemmas about the container model -/

theorem alookup_aupdate_ne {V : Type} (k s : Artifact) (v : V) (m : AMap V)
    (h : s ≠ k) : alookup s (aupdate k v m) = alookup s m := by
  induction m with
  | nil => rfl
  | cons p rest ih =>
    obtain ⟨k2, v2⟩ := p
    show alookup s ((if k2 = k then (k, v) else (k2, v2)) :: aupdate k v rest) = _
    by_cases hp : k2 = k
    · rw [if_pos hp]
      show (if k = s then some v else alookup s (aupdate k v rest)) = _
      rw [if_neg (Ne.symm h), ih]
      show _ = if k2 = s then some v2 else alookup s rest
      rw [if_neg (hp ▸ Ne.symm h)]
    · rw [if_neg hp]
      show (if k2 = s then some v2 else alookup s (aupdate k v rest)) = _
      show _ = if k2 = s then some v2 else alookup s rest
      by_cases hs : k2 = s
      · rw [if_pos hs, if_pos hs]
      · rw [if_neg hs, if_neg hs, ih]

theorem alookup_aupdate_self {V : Type} (k : Artifact) (v : V) (m : AMap V) :
    alookup k (aupdate k v m) = (alookup k m).map (fun _ => v) := by
  induction m with
  | nil => rfl
  | cons p rest ih =>
    obtain ⟨k2, v2⟩ := p
    show alookup k ((if k2 = k then (k, v) else (k2, v2)) :: aupdate k v rest) =
      (alookup k ((k2, v2) :: rest)).map (fun _ => v)
    by_cases hp : k2 = k
    · rw [if_pos hp]
      show (if k = k then some v else alookup k (aupdate k v rest)) = _
      rw [if_pos rfl]
      show _ = (if k2 = k then some v2 else alookup k rest).map (fun _ => v)
      rw [if_pos hp]
      rfl
    · rw [if_neg hp]
      show (if k2 = k then some v2 else alookup k (aupdate k v rest)) = _
      rw [if_neg hp, ih]
      show _ = (if k2 = k then some v2 else alookup k rest).map (fun _ => v)
      rw [if_neg hp]

theorem alookup_isSome_aupdate {V : Type} (k s : Artifact) (v : V) (m : AMap V) :
    (alookup s (aupdate k v m)).isSome = (alookup s m).isSome := by
  by_cases h : s = k
  · subst h
    rw [alookup_aupdate_self]
    cases alookup s m <;> rfl
  · rw [alookup_aupdate_ne _ _ _ _ h]

/-- A foldl whose step always returns one of its two arguments stays inside
the scanned elements. -/
theorem foldl_choice_mem {α : Type} (f : α → α → α) (hf : ∀ a b, f a b = a ∨ f a b = b)
    (xs : List α) (x : α) : xs.foldl f x ∈ x :: xs := by
  induction xs generalizing x with
  | nil => simp
  | cons y ys ih =>
    simp only [List.foldl_cons]
    have h2 := ih (f x y)
    rcases List.mem_cons.mp h2 with h3 | h3
    · rw [h3]
      rcases hf x y with h | h <;> rw [h] <;> simp
    · exact List.mem_cons.mpr (Or.inr (List.mem_cons.mpr (Or.inr h3)))

theorem maxByLast_mem {α : Type} (le : α → α → Bool) (l : List α) (r : α)
    (h : maxByLast le l = some r) : r ∈ l := by
  cases l with
  | nil => simp [maxByLast] at h
  | cons x xs =>
    simp only [maxByLast, Option.some.injEq] at h
    subst h
    exact foldl_choice_mem _ (fun a b => by by_cases hab : le a b <;> simp [hab]) xs x

theorem minByFirst_mem {α : Type} (lt : α → α → Bool) (l : List α) (r : α)
    (h : minByFirst lt l = some r) : r ∈ l := by
  cases l with
  | nil => simp [minByFirst] at h
  | cons x xs =>
    simp only [minByFirst, Option.some.injEq] at h
    subst h
    exact foldl_choice_mem _ (fun a b => by by_cases hab : lt b a <;> simp [hab]) xs x

theorem foldl_max_le {α : Type} (le : α → α → Bool)
    (htot : ∀ a b, le a b ∨ le b a)
    (htrans : ∀ a b c, le a b → le b c → le a c)
    (xs : List α) :
    ∀ x, ∀ z ∈ x :: xs, le z (xs.foldl (fun acc y => if le acc y then y else acc) x) := by
  have hrefl : ∀ a, le a a = true := fun a => by rcases htot a a with h | h <;> exact h
  induction xs with
  | nil =>
    intro x z hz
    simp only [List.mem_singleton] at hz
    subst hz
    simpa using hrefl z
  | cons y ys ih =>
    intro x z hz
    simp only [List.foldl_cons]
    by_cases hxy : le x y
    · rw [if_pos hxy]
      rcases List.mem_cons.mp hz with rfl | hz2
      · exact htrans _ _ _ hxy (ih y y (List.mem_cons_self _ _))
      · rcases List.mem_cons.mp hz2 with rfl | hz3
        · exact ih z z (List.mem_cons_self _ _)
        · exact ih y z (List.mem_cons.mpr (Or.inr hz3))
    · rw [if_neg hxy]
      rcases List.mem_cons.mp hz with rfl | hz2
      · exact ih z z (List.mem_cons_self _ _)
      · rcases List.mem_cons.mp hz2 with rfl | hz3
        · have hyx : le z x := (htot x z).resolve_left hxy
          exact htrans _ _ _ hyx (ih x x (List.mem_cons_self _ _))
        · exact ih x z (List.mem_cons.mpr (Or.inr hz3))

theorem maxByLast_le {α : Type} (le : α → α → Bool)
    (htot : ∀ a b, le a b ∨ le b a)
    (htrans : ∀ a b c, le a b → le b c → le a c)
    (l : List α) (r : α) (h : maxByLast le l = some r) :
    ∀ z ∈ l, le z r := by
  cases l with
  | nil => simp [maxByLast] at h
  | cons x xs =>
    simp only [maxByLast, Option.some.injEq] at h
    subst h
    intro z hz
    exact foldl_max_le le htot htrans xs x z hz

theorem foldl_min_notlt {α : Type} (lt : α → α → Bool)
    (hasymm : ∀ a b, lt a b → ¬ lt b a)
    (hctrans : ∀ a b c, ¬ lt a b → ¬ lt b c → ¬ lt a c)
    (xs : List α) :
    ∀ x, ∀ z ∈ x :: xs, ¬ lt z (xs.foldl (fun acc y => if lt y acc then y else acc) x) := by
  have hirr : ∀ a, ¬ lt a a = true := fun a ha => hasymm a a ha ha
  induction xs with
  | nil =>
    intro x z hz
    simp only [List.mem_singleton] at hz
    subst hz
    simpa using hirr z
  | cons y ys ih =>
    intro x z hz
    simp only [List.foldl_cons]
    by_cases hyx : lt y x
    · rw [if_pos hyx]
      rcases List.mem_cons.mp hz with rfl | hz2
      · exact hctrans _ _ _ (hasymm _ _ hyx) (ih y y (List.mem_cons_self _ _))
      · rcases List.mem_cons.mp hz2 with rfl | hz3
        · exact ih z z (List.mem_cons_self _ _)
        · exact ih y z (List.mem_cons.mpr (Or.inr hz3))
    · rw [if_neg hyx]
      rcases List.mem_cons.mp hz with rfl | hz2
      · exact ih z z (List.mem_cons_self _ _)
      · rcases List.mem_cons.mp hz2 with rfl | hz3
        · exact hctrans _ _ _ (by simpa using hyx) (ih x x (List.mem_cons_self _ _))
        · exact ih x z (List.mem_cons.mpr (Or.inr hz3))

theorem minByFirst_min {α : Type} (lt : α → α → Bool)
    (hasymm : ∀ a b, lt a b → ¬ lt b a)
    (hctrans : ∀ a b c, ¬ lt a b → ¬ lt b c → ¬ lt a c)
    (l : List α) (r : α) (h : minByFirst lt l = some r) :
    ∀ z ∈ l, ¬ lt z r := by
  cases l with
  | nil => simp [minByFirst] at h
  | cons x xs =>
    simp only [minByFirst, Option.some.injEq] at h
    subst h
    intro z hz
    exact foldl_min_notlt lt hasymm hctrans xs x z hz

/-- Whatever the provider, an artifact it answers with is one of the
candidates it was shown. -/
theorem suggestNextP_mem (h : HintProvider) (c : List Artifact) (a : Artifact)
    (h2 : HintProvider) (hs : suggestNextP h c = some (some a, h2)) : a ∈ c := by
  cases h with
  | cargo priority separate_codegen =>
    simp only [suggestNextP] at hs
    split at hs
    · simp only [Option.some.injEq, Prod.mk.injEq] at hs
      exact maxByLast_mem _ _ _ hs.1
    · exact absurd hs (by simp)
  | nHints n_hints revd tm inner =>
    simp only [suggestNextP] at hs
    split at hs
    next codegen hfind =>
      simp only [Option.some.injEq, Prod.mk.injEq] at hs
      obtain ⟨rfl, -⟩ := hs.1
      exact List.mem_of_find?_eq_some hfind
    next hfind =>
      split at hs
      next direct hdir =>
        simp only [Option.some.injEq, Prod.mk.injEq] at hs
        obtain ⟨rfl, -⟩ := hs.1
        exact (List.mem_filter.mp (maxByLast_mem _ _ _ hdir)).1
      next hdir =>
        split at hs
        · simp only [Option.some.injEq, Prod.mk.injEq] at hs
          exact minByFirst_mem _ _ _ hs.1
        · exact absurd hs (by simp)
  | repeatSchedule schedule =>
    cases schedule with
    | nil => simp [suggestNextP] at hs
    | cons next rest =>
      simp only [suggestNextP] at hs
      split at hs
      · exact absurd hs (by simp)
      next item hfind =>
        simp only [Option.some.injEq, Prod.mk.injEq] at hs
        obtain ⟨rfl, -⟩ := hs.1
        exact List.mem_of_find?_eq_some hfind

/-- Erasing the only occurrence of a present element empties exactly the
singleton list. -/
theorem erase_eq_nil_iff (node : Artifact) (es : List Artifact) (h : node ∈ es) :
    es.erase node = [] ↔ es = [node] := by
  cases es with
  | nil => simp at h
  | cons x rest =>
    cases rest with
    | nil =>
      simp only [List.mem_singleton] at h
      subst h
      simp [List.erase_cons_head]
    | cons y rest2 =>
      constructor
      · intro h2
        by_cases hx : x = node
        · subst hx
          rw [List.erase_cons_head] at h2
          exact absurd h2 (by simp)
        · rw [List.erase_cons_tail (by simpa using fun hh => hx (by simp [hh]))] at h2
          exact absurd h2 (by simp)
      · intro h2
        exact absurd h2 (by simp)

/-! ## C9: ingestion of timing records -/

/-- **C9.** A timing record resolving to `Metadata` is split into a
`(Metadata, pkg)` entry of duration `rmeta_time` and a `(Codegen, pkg)`
entry of duration `duration - rmeta_time`; records of every other kind pass
through with their duration unchanged; a `Metadata`-resolving record
without `rmeta_time` is a fatal error. -/
theorem parse_metadata_split (t : TimingInfo) :
    (∀ r, node_type t.mode t.target = some .Metadata → t.rmeta_time = some r →
      ∃ m, parse [t] = some m ∧
        alookup ⟨.Metadata, t.package_id⟩ m =
          some { t with duration := r, rmeta_time := none } ∧
        alookup ⟨.Codegen, t.package_id⟩ m =
          some { t with duration := t.duration - r, rmeta_time := none } ∧
        m.length = 2) ∧
    (∀ typ, node_type t.mode t.target = some typ → typ ≠ .Metadata →
      parse [t] = some [(⟨typ, t.package_id⟩, t)]) ∧
    (node_type t.mode t.target = some .Metadata → t.rmeta_time = none →
      parse [t] = none) := by
  refine ⟨fun r hnt hr => ?_, fun typ hnt htyp => ?_, fun hnt hr => ?_⟩
  · refine ⟨[(⟨.Metadata, t.package_id⟩, { t with duration := r, rmeta_time := none }),
      (⟨.Codegen, t.package_id⟩, { t with duration := t.duration - r, rmeta_time := none })],
      ?_, ?_, ?_, ?_⟩ <;>
      simp [parse, parseRecord, hnt, hr, alookup, ainsert, Artifact.blt,
        ArtifactType.rank, Artifact.mk.injEq]
  · simp [parse, parseRecord, hnt, htyp, alookup, ainsert]
  · simp [parse, parseRecord, hnt, hr]

/-- **C9 witness.** A concrete `Metadata`-resolving record is split, a
concrete `Link` record passes through, and a concrete `Metadata` record
without `rmeta_time` is fatal. -/
theorem parse_metadata_split_witness :
    (∃ m, parse [⟨.Build, 10, some 4, "t", ⟨"t", [.Lib]⟩⟩] = some m ∧
      alookup ⟨.Metadata, "t"⟩ m = some ⟨.Build, 4, none, "t", ⟨"t", [.Lib]⟩⟩ ∧
      alookup ⟨.Codegen, "t"⟩ m = some ⟨.Build, 6, none, "t", ⟨"t", [.Lib]⟩⟩ ∧
      m.length = 2) ∧
    parse [⟨.Build, 5, none, "t", ⟨"t", [.Bin]⟩⟩] =
      some [(⟨.Link, "t"⟩, ⟨.Build, 5, none, "t", ⟨"t", [.Bin]⟩⟩)] ∧
    parse [⟨.Build, 10, none, "t", ⟨"t", [.Lib]⟩⟩] = none := by
  refine ⟨?_, ?_, ?_⟩
  · obtain ⟨m, h1, h2, h3, h4⟩ :=
      (parse_metadata_split ⟨.Build, 10, some 4, "t", ⟨"t", [.Lib]⟩⟩).1 4
        (by decide) (by decide)
    exact ⟨m, h1, by simpa using h2, by simpa using h3, h4⟩
  · exact (parse_metadata_split ⟨.Build, 5, none, "t", ⟨"t", [.Bin]⟩⟩).2.1 .Link
      (by decide) (by decide)
  · exact (parse_metadata_split ⟨.Build, 10, none, "t", ⟨"t", [.Lib]⟩⟩).2.2
      (by decide) (by decide)

/-! ## C10: finishing an artifact with no recorded successors -/

/-- **C10.** `finish(a)` for an artifact `a` with no entry in
`reverse_dep_map` returns the empty list and leaves the queue unchanged; it
does not fail. -/
theorem finish_unknown_artifact (q : DependencyQueue) (a : Artifact)
    (h : alookup a q.reverse_dep_map = none) : q.finish a = some ([], q) := by
  unfold DependencyQueue.finish
  rw [h]

/-- **C10 witness.** -/
theorem finish_unknown_artifact_witness :
    (DependencyQueue.mk [(⟨.Link, "a"⟩, [])] [] (.repeatSchedule [])).finish
        ⟨.Link, "b"⟩ =
      some ([], DependencyQueue.mk [(⟨.Link, "a"⟩, [])] [] (.repeatSchedule [])) :=
  finish_unknown_artifact _ _ (by decide)

/-! ## C1: dequeue -/

/-- **C1 counterexample.** A live queue whose ready set is the nonempty
`[(Link, "a")]` but whose provider (a drained `RepeatSchedule`, built by
`RepeatSchedule::new`) answers `None`: `dequeue` returns `None` and removes
nothing, instead of falling back to the first ready artifact in key
order. -/
theorem dequeue_counterexample :
    (DependencyQueue.mk [(⟨.Link, "a"⟩, [])] [] (RepeatSchedule.new [])).dequeue =
      some (none, DependencyQueue.mk [(⟨.Link, "a"⟩, [])] [] (RepeatSchedule.new [])) ∧
    (DependencyQueue.mk [(⟨.Link, "a"⟩, [])] []
        (RepeatSchedule.new [])).candidates = [⟨.Link, "a"⟩] := by
  constructor <;> rfl

/-- **C1 (amended).** `dequeue` computes the ready set (the keys of
`dep_map` with empty dependency set, in key order) and passes it to the
hint provider.  If the provider answers with an artifact, that artifact is
one of the ready ones and is removed from `dep_map`; if the provider
answers nothing — as every provider does when the ready set is empty —
`dequeue` returns nothing and removes nothing (there is no fallback to the
first ready artifact). -/
theorem dequeue_spec (q : DependencyQueue) :
    (∀ k q2, q.dequeue = some (some k, q2) →
      k ∈ q.candidates ∧ q2.dep_map = aerase k q.dep_map ∧
      q2.reverse_dep_map = q.reverse_dep_map) ∧
    (∀ q2, q.dequeue = some (none, q2) →
      q2.dep_map = q.dep_map ∧ q2.reverse_dep_map = q.reverse_dep_map) ∧
    (q.candidates = [] → ∀ res, q.dequeue = some res → res.1 = none) := by
  refine ⟨fun k q2 h => ?_, fun q2 h => ?_, fun hc res h => ?_⟩
  · unfold DependencyQueue.dequeue at h
    split at h
    · exact absurd h (by simp)
    · simp at h
    next key hp hs =>
      split at h
      · simp only [Option.some.injEq, Prod.mk.injEq] at h
        obtain ⟨rfl, rfl⟩ := h
        exact ⟨suggestNextP_mem _ _ _ _ hs, rfl, rfl⟩
      · exact absurd h (by simp)
  · unfold DependencyQueue.dequeue at h
    split at h
    · exact absurd h (by simp)
    · simp only [Option.some.injEq, Prod.mk.injEq] at h
      obtain ⟨-, rfl⟩ := h
      exact ⟨rfl, rfl⟩
    · split at h
      · simp at h
      · exact absurd h (by simp)
  · unfold DependencyQueue.dequeue at h
    split at h
    · exact absurd h (by simp)
    · simp only [Option.some.injEq] at h
      rw [← h]
    next key hp hs =>
      exact absurd (hc ▸ suggestNextP_mem _ _ _ _ hs) (by simp)

/-- **C1 (amended) witness.** A concrete dequeue through `CargoHints`
removes the chosen ready artifact. -/
theorem dequeue_spec_witness :
    (⟨.Link, "a"⟩ : Artifact) ∈
      (DependencyQueue.mk [(⟨.Link, "a"⟩, [])] []
        (.cargo [(⟨.Link, "a"⟩, 10)] true)).candidates ∧
    aerase ⟨.Link, "a"⟩ [(⟨.Link, "a"⟩, ([] : ASet))] = [] := by
  have h := (dequeue_spec
    (DependencyQueue.mk [(⟨.Link, "a"⟩, [])] []
      (.cargo [(⟨.Link, "a"⟩, 10)] true))).1
    ⟨.Link, "a"⟩
    (DependencyQueue.mk [] [] (.cargo [(⟨.Link, "a"⟩, 10)] true))
    (by rfl)
  exact ⟨h.1, h.2.1.symm⟩

/-! ## C2: finish -/

theorem finishFold_spec (node : Artifact) (rds : List Artifact) :
    ∀ (acc0 : List Artifact) (dm0 : AMap ASet),
      rds.Nodup →
      (∀ s ∈ rds, ∃ es, alookup s dm0 = some es ∧ node ∈ es) →
      ∃ acc1 dm1,
        rds.foldlM (DependencyQueue.finishStep node) (acc0, dm0) = some (acc1, dm1) ∧
        (∀ s ∈ rds, alookup s dm1 = (alookup s dm0).map (fun es => es.erase node)) ∧
        (∀ s, s ∉ rds → alookup s dm1 = alookup s dm0) ∧
        (∀ s, s ∈ acc1 ↔ s ∈ acc0 ∨ (s ∈ rds ∧ alookup s dm0 = some [node])) := by
  induction rds with
  | nil =>
    intro acc0 dm0 hnd hall
    exact ⟨acc0, dm0, by simp, fun s hs => absurd hs (by simp),
      fun s _ => rfl, fun s => by simp⟩
  | cons d rest ih =>
    intro acc0 dm0 hnd hall
    obtain ⟨es, hles, hmem⟩ := hall d (List.mem_cons_self _ _)
    have hdnotin : d ∉ rest := (List.nodup_cons.mp hnd).1
    have hstep : DependencyQueue.finishStep node (acc0, dm0) d =
        some ((if es.erase node = [] then acc0 ++ [d] else acc0),
          aupdate d (es.erase node) dm0) := by
      unfold DependencyQueue.finishStep
      rw [hles]
      simp [hmem]
    have hall2 : ∀ s ∈ rest,
        ∃ es2, alookup s (aupdate d (es.erase node) dm0) = some es2 ∧ node ∈ es2 := by
      intro s hs
      have hne : s ≠ d := fun h => hdnotin (h ▸ hs)
      rw [alookup_aupdate_ne _ _ _ _ hne]
      exact hall s (List.mem_cons.mpr (Or.inr hs))
    obtain ⟨acc1, dm1, hfold, hin, hout, hacc⟩ :=
      ih (if es.erase node = [] then acc0 ++ [d] else acc0)
        (aupdate d (es.erase node) dm0) (List.nodup_cons.mp hnd).2 hall2
    refine ⟨acc1, dm1, ?_, ?_, ?_, ?_⟩
    · rw [List.foldlM_cons, hstep]
      simpa using hfold
    · intro s hs
      rcases List.mem_cons.mp hs with rfl | hs2
      · rw [hout s hdnotin, alookup_aupdate_self, hles]
        rfl
      · have hne : s ≠ d := fun h => hdnotin (h ▸ hs2)
        rw [hin s hs2, alookup_aupdate_ne _ _ _ _ hne]
    · intro s hs
      have hne : s ≠ d := fun h => hs (h ▸ List.mem_cons_self _ _)
      have hs2 : s ∉ rest := fun h => hs (List.mem_cons.mpr (Or.inr h))
      rw [hout s hs2, alookup_aupdate_ne _ _ _ _ hne]
    · intro s
      rw [hacc s]
      constructor
      · rintro (hs | ⟨hs, hl⟩)
        · by_cases he : es.erase node = []
          · rw [if_pos he] at hs
            rcases List.mem_append.mp hs with h1 | h1
            · exact Or.inl h1
            · simp only [List.mem_singleton] at h1
              subst h1
              refine Or.inr ⟨List.mem_cons_self _ _, ?_⟩
              rw [hles, (erase_eq_nil_iff node es hmem).mp he]
          · rw [if_neg he] at hs
            exact Or.inl hs
        · have hne : s ≠ d := fun h => hdnotin (h ▸ hs)
          rw [alookup_aupdate_ne _ _ _ _ hne] at hl
          exact Or.inr ⟨List.mem_cons.mpr (Or.inr hs), hl⟩
      · rintro (hs | ⟨hs, hl⟩)
        · left
          by_cases he : es.erase node = [] <;> simp [he, hs]
        · rcases List.mem_cons.mp hs with rfl | hs2
          · left
            have hes : es = [node] := Option.some.inj (hles.symm.trans hl)
            rw [if_pos ((erase_eq_nil_iff node es hmem).mpr hes)]
            simp
          · right
            have hne : s ≠ d := fun h => hdnotin (h ▸ hs2)
            rw [alookup_aupdate_ne _ _ _ _ hne]
            exact ⟨hs2, hl⟩

theorem finishFold_fatal (node : Artifact) (rds : List Artifact) :
    ∀ (acc0 : List Artifact) (dm0 : AMap ASet),
      rds.Nodup →
      (∀ s ∈ rds, (alookup s dm0).isSome) →
      (∃ s ∈ rds, ∃ es, alookup s dm0 = some es ∧ node ∉ es) →
      rds.foldlM (DependencyQueue.finishStep node) (acc0, dm0) = none := by
  induction rds with
  | nil =>
    intro _ _ _ _ h
    simp at h
  | cons d rest ih =>
    intro acc0 dm0 hnd hsome hbad
    obtain ⟨s, hs, es, hles, hnm⟩ := hbad
    have hdnotin : d ∉ rest := (List.nodup_cons.mp hnd).1
    rcases List.mem_cons.mp hs with rfl | hs2
    · rw [List.foldlM_cons]
      have hstep : DependencyQueue.finishStep node (acc0, dm0) s = none := by
        unfold DependencyQueue.finishStep
        rw [hles]
        simp [hnm]
      rw [hstep]
      rfl
    · rw [List.foldlM_cons]
      obtain ⟨esd, hlesd⟩ := Option.isSome_iff_exists.mp (hsome d (List.mem_cons_self _ _))
      by_cases hmem : node ∈ esd
      · have hstep : DependencyQueue.finishStep node (acc0, dm0) d =
            some ((if esd.erase node = [] then acc0 ++ [d] else acc0),
              aupdate d (esd.erase node) dm0) := by
          unfold DependencyQueue.finishStep
          rw [hlesd]
          simp [hmem]
        rw [hstep]
        have hne : s ≠ d := fun h => hdnotin (h ▸ hs2)
        have := ih (if esd.erase node = [] then acc0 ++ [d] else acc0)
          (aupdate d (esd.erase node) dm0) (List.nodup_cons.mp hnd).2
          (fun s2 hs2b => by
            rw [alookup_isSome_aupdate]
            exact hsome s2 (List.mem_cons.mpr (Or.inr hs2b)))
          ⟨s, hs2, es, by rw [alookup_aupdate_ne _ _ _ _ hne]; exact hles, hnm⟩
        simpa using this
      · have hstep : DependencyQueue.finishStep node (acc0, dm0) d = none := by
          unfold DependencyQueue.finishStep
          rw [hlesd]
          simp [hmem]
        rw [hstep]
        rfl

/-- **C2.** For an artifact `node` with recorded successors `rds`,
`finish(node)` removes `node` from `dep_map[s]` for each `s ∈ rds`, leaves
every other entry alone, and returns exactly those successors whose
dependency set consisted of `node` alone (i.e. became empty by that
removal); it is a fatal error if `node ∉ dep_map[s]` for some recorded
successor `s`. -/
theorem finish_accounting (q : DependencyQueue) (node : Artifact)
    (rds : List Artifact) (hr : alookup node q.reverse_dep_map = some rds)
    (hnd : rds.Nodup) :
    ((∀ s ∈ rds, ∃ es, alookup s q.dep_map = some es ∧ node ∈ es) →
      ∃ res q2, q.finish node = some (res, q2) ∧
        q2.reverse_dep_map = q.reverse_dep_map ∧
        (∀ s ∈ rds, alookup s q2.dep_map =
          (alookup s q.dep_map).map (fun es => es.erase node)) ∧
        (∀ s, s ∉ rds → alookup s q2.dep_map = alookup s q.dep_map) ∧
        (∀ s, s ∈ res ↔ s ∈ rds ∧ alookup s q.dep_map = some [node])) ∧
    ((∀ s ∈ rds, (alookup s q.dep_map).isSome) →
      (∃ s ∈ rds, ∃ es, alookup s q.dep_map = some es ∧ node ∉ es) →
      q.finish node = none) := by
  constructor
  · intro hall
    obtain ⟨acc1, dm1, hfold, hin, hout, hacc⟩ :=
      finishFold_spec node rds [] q.dep_map hnd hall
    refine ⟨acc1, { q with dep_map := dm1 }, ?_, rfl, hin, hout, ?_⟩
    · unfold DependencyQueue.finish
      rw [hr]
      show (List.foldlM (DependencyQueue.finishStep node) ([], q.dep_map) rds).map
        (fun st => (st.1, { q with dep_map := st.2 })) = _
      rw [hfold]
      rfl
    · intro s
      rw [hacc s]
      simp
  · intro hsome hbad
    unfold DependencyQueue.finish
    rw [hr]
    show (List.foldlM (DependencyQueue.finishStep node) ([], q.dep_map) rds).map
      (fun st => (st.1, { q with dep_map := st.2 })) = _
    rw [finishFold_fatal node rds [] q.dep_map hnd hsome hbad]
    rfl

/-- **C2 witness.** A concrete `finish` removes the finished artifact from
both successors, reports the successor that became empty, and a concrete
queue where the finished artifact is missing from a successor's set is
fatal. -/
theorem finish_accounting_witness :
    (∃ res q2,
      (DependencyQueue.mk
          [(⟨.Link, "s"⟩, [⟨.Link, "n"⟩]), (⟨.Link, "t"⟩, [⟨.Link, "n"⟩, ⟨.Link, "x"⟩])]
          [(⟨.Link, "n"⟩, [⟨.Link, "s"⟩, ⟨.Link, "t"⟩])]
          (.repeatSchedule [])).finish ⟨.Link, "n"⟩ = some (res, q2) ∧
      (⟨.Link, "s"⟩ : Artifact) ∈ res ∧ (⟨.Link, "t"⟩ : Artifact) ∉ res ∧
      alookup ⟨.Link, "t"⟩ q2.dep_map = some [⟨.Link, "x"⟩]) ∧
    (DependencyQueue.mk [(⟨.Link, "s"⟩, [⟨.Link, "x"⟩])]
        [(⟨.Link, "n"⟩, [⟨.Link, "s"⟩])]
        (.repeatSchedule [])).finish ⟨.Link, "n"⟩ = none := by
  constructor
  · obtain ⟨res, q2, h1, h2, h3, h4, h5⟩ :=
      (finish_accounting
        (DependencyQueue.mk
          [(⟨.Link, "s"⟩, [⟨.Link, "n"⟩]), (⟨.Link, "t"⟩, [⟨.Link, "n"⟩, ⟨.Link, "x"⟩])]
          [(⟨.Link, "n"⟩, [⟨.Link, "s"⟩, ⟨.Link, "t"⟩])]
          (.repeatSchedule []))
        ⟨.Link, "n"⟩ [⟨.Link, "s"⟩, ⟨.Link, "t"⟩] (by rfl) (by decide)).1
      (by
        intro s hs
        rcases List.mem_cons.mp hs with rfl | hs2
        · exact ⟨[⟨.Link, "n"⟩], by rfl, by decide⟩
        · simp only [List.mem_singleton] at hs2
          subst hs2
          exact ⟨[⟨.Link, "n"⟩, ⟨.Link, "x"⟩], by rfl, by decide⟩)
    refine ⟨res, q2, h1, ?_, ?_, ?_⟩
    · exact (h5 _).mpr ⟨by decide, by rfl⟩
    · intro hm
      have h6 := ((h5 _).mp hm).2
      revert h6
      decide
    · rw [h3 _ (by decide)]
      rfl
  · exact (finish_accounting
      (DependencyQueue.mk [(⟨.Link, "s"⟩, [⟨.Link, "x"⟩])]
        [(⟨.Link, "n"⟩, [⟨.Link, "s"⟩])]
        (.repeatSchedule []))
      ⟨.Link, "n"⟩ [⟨.Link, "s"⟩] (by rfl) (by decide)).2
      (by decide)
      ⟨⟨.Link, "s"⟩, by decide, [⟨.Link, "x"⟩], by rfl, by decide⟩

/-! ## C4: determinism of the simulation -/

/-- The result of a `calculate` run does not depend on the fuel budget:
whenever two budgets suffice, the final states coincide. -/
theorem calculate_fuel_agnostic :
    ∀ (f1 f2 : ℕ) (S : Runner) (r1 r2 : Runner),
      Runner.calculate f1 S = some r1 → Runner.calculate f2 S = some r2 → r1 = r2 := by
  intro f1
  induction f1 with
  | zero =>
    intro f2 S r1 r2 h1 _
    exact absurd h1 (by simp [Runner.calculate])
  | succ f ih =>
    intro f2 S r1 r2 h1 h2
    cases f2 with
    | zero => exact absurd h2 (by simp [Runner.calculate])
    | succ f2b =>
      simp only [Runner.calculate] at h1 h2
      by_cases hc : ¬ S.queue.is_empty = true ∨ S.busy_slots > 0
      · rw [if_pos hc] at h1 h2
        cases hs : S.step with
        | none =>
          rw [hs] at h1
          exact absurd h1 (by simp)
        | some S2 =>
          rw [hs] at h1 h2
          simp only [Option.some_bind] at h1 h2
          exact ih f2b S2 r1 r2 h1 h2
      · rw [if_neg hc] at h1 h2
        simp only [Option.some.injEq] at h1 h2
        rw [← h1, ← h2]

/-- **C4.** For fixed inputs (dependency queue — i.e. the lowered unit
graph plus a hint-provider seed — timing map and thread count) the
simulation is deterministic: any two completed `calculate` runs from those
inputs return the same makespan and the same trace.  In the embedding the
whole run is a pure function of the inputs, mirroring the source's
exclusive use of ordered containers; the theorem additionally shows the
fuel parameter of the model cannot influence the outcome. -/
theorem calculate_deterministic (q : DependencyQueue) (tm : AMap TimingInfo)
    (n : ℕ) (fuel1 fuel2 : ℕ) (r1 r2 : Runner)
    (h1 : Runner.calculate fuel1 (Runner.new q tm n) = some r1)
    (h2 : Runner.calculate fuel2 (Runner.new q tm n) = some r2) :
    r1.current_time = r2.current_time ∧ r1.trace = r2.trace := by
  have h := calculate_fuel_agnostic fuel1 fuel2 (Runner.new q tm n) r1 r2 h1 h2
  rw [h]
  exact ⟨rfl, rfl⟩

/-- **C4 witness.** Two concrete runs (with different fuel budgets) of a
one-artifact build on one thread give the same makespan and trace. -/
theorem calculate_deterministic_witness :
    ∃ r1 r2 : Runner,
      Runner.calculate 3
        (Runner.new
          (DependencyQueue.mk [(⟨.Link, "a"⟩, [])] [] (.cargo [(⟨.Link, "a"⟩, 10)] true))
          [(⟨.Link, "a"⟩, ⟨.Build, 2, none, "a", ⟨"a", [.Bin]⟩⟩)] 1) = some r1 ∧
      Runner.calculate 5
        (Runner.new
          (DependencyQueue.mk [(⟨.Link, "a"⟩, [])] [] (.cargo [(⟨.Link, "a"⟩, 10)] true))
          [(⟨.Link, "a"⟩, ⟨.Build, 2, none, "a", ⟨"a", [.Bin]⟩⟩)] 1) = some r2 ∧
      r1.current_time = r2.current_time ∧ r1.trace = r2.trace := by
  refine ⟨Runner.mk 2000
      (DependencyQueue.mk [] [] (.cargo [(⟨.Link, "a"⟩, 10)] true))
      [(⟨.Link, "a"⟩, ⟨.Build, 2, none, "a", ⟨"a", [.Bin]⟩⟩)]
      [none] 0 [(0, ⟨.Link, "a"⟩)],
    Runner.mk 2000
      (DependencyQueue.mk [] [] (.cargo [(⟨.Link, "a"⟩, 10)] true))
      [(⟨.Link, "a"⟩, ⟨.Build, 2, none, "a", ⟨"a", [.Bin]⟩⟩)]
      [none] 0 [(0, ⟨.Link, "a"⟩)], rfl, rfl, ?_⟩
  exact calculate_deterministic
    (DependencyQueue.mk [(⟨.Link, "a"⟩, [])] [] (.cargo [(⟨.Link, "a"⟩, 10)] true))
    [(⟨.Link, "a"⟩, ⟨.Build, 2, none, "a", ⟨"a", [.Bin]⟩⟩)] 1 3 5 _ _ rfl rfl

/-! ## The flattened reverse-dependency computation (`depth`)

`depth` is a memoised DFS.  The contracts below say that a successful run
extends the memo map monotonically, keeps in-progress placeholders intact,
and preserves the three structural invariants of completed entries:
reflexivity-with-transitive-closure (`GoodT`), one-step closure under the
edge map (`EqInvMap`), and soundness of every member with respect to
reachability along the edge map (`SoundMap`). -/

/-- The edge relation of a reverse-dependency map: `y` directly depends on
`x`. -/
def edgeRel (map : AMap ASet) (x y : Artifact) : Prop :=
  y ∈ (alookup x map).getD []

/-- Completed entries contain their key, and every member's own completed
set is contained in them. -/
def GoodT (R : AMap ASet) : Prop :=
  ∀ a s, alookup a R = some s → s ≠ [] →
    a ∈ s ∧ ∀ b ∈ s, ∃ sb, alookup b R = some sb ∧ sb ≠ [] ∧ sb ⊆ s

/-- Completed entries contain the completed set of each direct successor. -/
def EqInvMap (map R : AMap ASet) : Prop :=
  ∀ a s, alookup a R = some s → s ≠ [] →
    ∀ d ∈ (alookup a map).getD [], ∃ sd, alookup d R = some sd ∧ sd ≠ [] ∧ sd ⊆ s

/-- Every member of a completed entry is reachable from its key along the
edge map. -/
def SoundMap (map R : AMap ASet) : Prop :=
  ∀ a s, alookup a R = some s → s ≠ [] →
    ∀ b ∈ s, Relation.ReflTransGen (edgeRel map) a b

theorem alookup_ainsert_self {V : Type} (k : Artifact) (v : V) (m : AMap V) :
    alookup k (ainsert k v m) = some v := by
  induction m with
  | nil => simp [ainsert, alookup]
  | cons p rest ih =>
    obtain ⟨k2, v2⟩ := p
    by_cases hk : k = k2
    · simp [ainsert, if_pos hk, alookup]
    · by_cases hb : Artifact.blt k k2
      · simp [ainsert, if_neg hk, if_pos hb, alookup]
      · simp only [ainsert, if_neg hk, if_neg hb]
        show (if k2 = k then some v2 else alookup k (ainsert k v rest)) = some v
        rw [if_neg (fun h => hk h.symm)]
        exact ih

theorem alookup_ainsert_ne {V : Type} (k a : Artifact) (v : V) (m : AMap V)
    (h : a ≠ k) : alookup a (ainsert k v m) = alookup a m := by
  induction m with
  | nil =>
    show (if k = a then some v else alookup a []) = alookup a []
    rw [if_neg (fun hh => h hh.symm)]
  | cons p rest ih =>
    obtain ⟨k2, v2⟩ := p
    by_cases hk : k = k2
    · subst hk
      simp only [ainsert, if_pos rfl]
      show (if k = a then some v else alookup a rest) = if k = a then some v2 else alookup a rest
      rw [if_neg (fun hh => h hh.symm), if_neg (fun hh => h hh.symm)]
    · by_cases hb : Artifact.blt k k2
      · simp only [ainsert, if_neg hk, if_pos hb]
        show (if k = a then some v else alookup a ((k2, v2) :: rest)) = _
        rw [if_neg (fun hh => h hh.symm)]
      · simp only [ainsert, if_neg hk, if_neg hb]
        show (if k2 = a then some v2 else alookup a (ainsert k v rest)) =
          if k2 = a then some v2 else alookup a rest
        by_cases h2 : k2 = a
        · rw [if_pos h2, if_pos h2]
        · rw [if_neg h2, if_neg h2, ih]

theorem mem_sinsert (x k : Artifact) (s : ASet) :
    x ∈ sinsert k s ↔ x = k ∨ x ∈ s := by
  induction s with
  | nil => simp [sinsert]
  | cons k2 rest ih =>
    by_cases hk : k = k2
    · subst hk
      simp only [sinsert, eq_self_iff_true, if_true, List.mem_cons]
      tauto
    · by_cases hb : Artifact.blt k k2
      · simp [sinsert, if_neg hk, if_pos hb]
      · simp only [sinsert, if_neg hk, if_neg hb, List.mem_cons, ih]
        tauto

theorem mem_sunion (x : Artifact) (s t : ASet) :
    x ∈ sunion s t ↔ x ∈ s ∨ x ∈ t := by
  induction t generalizing s with
  | nil => simp [sunion]
  | cons y ys ih =>
    show x ∈ sunion (sinsert y s) ys ↔ _
    rw [ih, mem_sinsert]
    simp only [List.mem_cons]
    tauto

/-- The contract of one (successful) `depth` call, relating the input and
output memo maps. -/
structure DepthContract (map R R2 : AMap ASet) : Prop where
  mono : ∀ a sa, alookup a R = some sa → sa ≠ [] → alookup a R2 = some sa
  persist : ∀ a, alookup a R = some [] → alookup a R2 = some []
  shrink : ∀ a, alookup a R2 = some [] → alookup a R = some []
  goodT : GoodT R → GoodT R2
  eqInv : EqInvMap map R → EqInvMap map R2
  sound : SoundMap map R → SoundMap map R2

theorem DepthContract.id_contract (map R : AMap ASet) : DepthContract map R R :=
  ⟨fun _ _ h _ => h, fun _ h => h, fun _ h => h, id, id, id⟩

theorem DepthContract.comp {map R R1 R2 : AMap ASet}
    (h1 : DepthContract map R R1) (h2 : DepthContract map R1 R2) :
    DepthContract map R R2 where
  mono := fun a sa h hne => h2.mono a sa (h1.mono a sa h hne) hne
  persist := fun a h => h2.persist a (h1.persist a h)
  shrink := fun a h => h1.shrink a (h2.shrink a h)
  goodT := fun h => h2.goodT (h1.goodT h)
  eqInv := fun h => h2.eqInv (h1.eqInv h)
  sound := fun h => h2.sound (h1.sound h)

/-- A complete entry of the map with a fresh placeholder added is a
complete entry of the original map, under a key other than the fresh
one. -/
theorem complete_of_placeholder {R : AMap ASet} {key a : Artifact} {sa : ASet}
    (hfresh : alookup key R = none)
    (h : alookup a (ainsert key [] R) = some sa) (hne : sa ≠ []) :
    alookup a R = some sa ∧ a ≠ key := by
  by_cases hk : a = key
  · subst hk
    rw [alookup_ainsert_self] at h
    exact absurd (Option.some.inj h).symm hne
  · rw [alookup_ainsert_ne _ _ _ _ hk] at h
    exact ⟨h, hk⟩

/-- A complete entry of `R` never mentions a key that is absent from `R`
(when `GoodT R` holds). -/
theorem goodT_not_mem_fresh {R : AMap ASet} {key a : Artifact} {sa : ASet}
    (hg : GoodT R) (hfresh : alookup key R = none)
    (h : alookup a R = some sa) (hne : sa ≠ []) : key ∉ sa := by
  intro hmem
  obtain ⟨sb, hsb, -, -⟩ := (hg a sa h hne).2 key hmem
  rw [hfresh] at hsb
  exact absurd hsb (by simp)

theorem goodT_placeholder {R : AMap ASet} {key : Artifact}
    (hfresh : alookup key R = none) (hg : GoodT R) :
    GoodT (ainsert key [] R) := by
  intro a sa h hne
  obtain ⟨h2, hk⟩ := complete_of_placeholder hfresh h hne
  obtain ⟨hself, hmem⟩ := hg a sa h2 hne
  refine ⟨hself, fun b hb => ?_⟩
  obtain ⟨sb, hsb, hsbne, hsub⟩ := hmem b hb
  have hbk : b ≠ key := fun hh => by
    rw [hh, hfresh] at hsb
    exact absurd hsb (by simp)
  exact ⟨sb, by rw [alookup_ainsert_ne _ _ _ _ hbk]; exact hsb, hsbne, hsub⟩

theorem eqInv_placeholder {map R : AMap ASet} {key : Artifact}
    (hfresh : alookup key R = none) (hg : EqInvMap map R) :
    EqInvMap map (ainsert key [] R) := by
  intro a sa h hne d hd
  obtain ⟨h2, hk⟩ := complete_of_placeholder hfresh h hne
  obtain ⟨sd, hsd, hsdne, hsub⟩ := hg a sa h2 hne d hd
  have hdk : d ≠ key := fun hh => by
    rw [hh, hfresh] at hsd
    exact absurd hsd (by simp)
  exact ⟨sd, by rw [alookup_ainsert_ne _ _ _ _ hdk]; exact hsd, hsdne, hsub⟩

theorem sound_placeholder {map R : AMap ASet} {key : Artifact}
    (hfresh : alookup key R = none) (hg : SoundMap map R) :
    SoundMap map (ainsert key [] R) := by
  intro a sa h hne b hb
  obtain ⟨h2, hk⟩ := complete_of_placeholder hfresh h hne
  exact hg a sa h2 hne b hb

/-- Contract of the dependency fold inside `depth`: the accumulated set only
grows, every processed successor ends up completed with its set contained
in the accumulator, and everything in the final accumulator is either old
or comes from a processed successor's set. -/
theorem depthFold_spec (fuel : ℕ) (map : AMap ASet)
    (IH : ∀ key R R2 s, depth fuel key map R = some (R2, s) →
      DepthContract map R R2 ∧ alookup key R2 = some s ∧ s ≠ []) :
    ∀ (deps : List Artifact) (R : AMap ASet) (acc : ASet) (R2 : AMap ASet) (s2 : ASet),
      deps.foldlM
        (fun (acc2 : AMap ASet × ASet) dep =>
          (depth fuel dep map acc2.1).map (fun r => (r.1, sunion acc2.2 r.2)))
        (R, acc) = some (R2, s2) →
      DepthContract map R R2 ∧
      (∀ x ∈ acc, x ∈ s2) ∧
      (∀ d ∈ deps, ∃ sd, alookup d R2 = some sd ∧ sd ≠ [] ∧ sd ⊆ s2) ∧
      (∀ x ∈ s2, x ∈ acc ∨ ∃ d ∈ deps, ∃ sd, alookup d R2 = some sd ∧ sd ≠ [] ∧ x ∈ sd) := by
  intro deps
  induction deps with
  | nil =>
    intro R acc R2 s2 h
    simp only [List.foldlM_nil, Option.pure_def, Option.some.injEq, Prod.mk.injEq] at h
    obtain ⟨rfl, rfl⟩ := h
    exact ⟨DepthContract.id_contract map R, fun x hx => hx, by simp,
      fun x hx => Or.inl hx⟩
  | cons d rest ih =>
    intro R acc R2 s2 h
    rw [List.foldlM_cons] at h
    cases hd : depth fuel d map R with
    | none =>
      rw [hd] at h
      exact absurd h (by simp)
    | some r1 =>
      obtain ⟨Rd, sd⟩ := r1
      rw [hd] at h
      simp only [Option.map_some', Option.some_bind] at h
      obtain ⟨hCd, hld, hsdne⟩ := IH d R Rd sd hd
      obtain ⟨hCr, haccr, hdepsr, hrevr⟩ := ih Rd (sunion acc sd) R2 s2 h
      refine ⟨hCd.comp hCr, ?_, ?_, ?_⟩
      · intro x hx
        exact haccr x ((mem_sunion x acc sd).mpr (Or.inl hx))
      · intro d2 hd2
        rcases List.mem_cons.mp hd2 with rfl | hd3
        · exact ⟨sd, hCr.mono d2 sd hld hsdne, hsdne,
            fun x hx => haccr x ((mem_sunion x acc sd).mpr (Or.inr hx))⟩
        · exact hdepsr d2 hd3
      · intro x hx
        rcases hrevr x hx with hx2 | ⟨d2, hd2, sd2, h1, h2, h3⟩
        · rcases (mem_sunion x acc sd).mp hx2 with hx3 | hx3
          · exact Or.inl hx3
          · exact Or.inr ⟨d, List.mem_cons_self _ _, sd,
              hCr.mono d sd hld hsdne, hsdne, hx3⟩
        · exact Or.inr ⟨d2, List.mem_cons.mpr (Or.inr hd2), sd2, h1, h2, h3⟩

/-- The main contract of `depth`: a successful call yields a map extension
satisfying `DepthContract`, together with a completed entry for the
requested key. -/
theorem depth_spec :
    ∀ (fuel : ℕ) (key : Artifact) (map R R2 : AMap ASet) (s : ASet),
      depth fuel key map R = some (R2, s) →
      DepthContract map R R2 ∧ alookup key R2 = some s ∧ s ≠ [] := by
  intro fuel
  induction fuel with
  | zero =>
    intro key map R R2 s h
    exact absurd h (by simp [depth])
  | succ f ihf =>
    intro key map R R2 s h
    have IH : ∀ key R R2 s, depth f key map R = some (R2, s) →
        DepthContract map R R2 ∧ alookup key R2 = some s ∧ s ≠ [] :=
      fun k R3 R4 s4 hh => ihf k map R3 R4 s4 hh
    unfold depth at h
    split at h
    next s0 hm =>
      by_cases hs0 : s0 = []
      · rw [if_pos hs0] at h
        exact absurd h (by simp)
      · rw [if_neg hs0] at h
        simp only [Option.some.injEq, Prod.mk.injEq] at h
        obtain ⟨rfl, rfl⟩ := h
        exact ⟨DepthContract.id_contract map R, hm, hs0⟩
    next hm =>
      rw [Option.map_eq_some'] at h
      obtain ⟨⟨Rf, sf⟩, hfold, hback⟩ := h
      simp only [Prod.mk.injEq] at hback
      obtain ⟨hR2, hs⟩ := hback
      subst hs
      obtain ⟨hC, hacc, hdeps, hrev⟩ :=
        depthFold_spec f map IH ((alookup key map).getD []) (ainsert key [] R) [key] Rf sf hfold
      have hkey_pl : alookup key Rf = some [] :=
        hC.persist key (alookup_ainsert_self key [] R)
      have hkey_in : key ∈ sf := hacc key (List.mem_cons_self _ _)
      have hsne : sf ≠ [] := List.ne_nil_of_mem hkey_in
      have hGf : GoodT (ainsert key [] R) → GoodT Rf := hC.goodT
      have hlook3 : alookup key (aupdate key sf Rf) = some sf := by
        rw [alookup_aupdate_self, hkey_pl]
        rfl
      have hne_of_complete : ∀ b sb, alookup b Rf = some sb → sb ≠ [] → b ≠ key := by
        intro b sb hsb hsbne hh
        subst hh
        rw [hkey_pl] at hsb
        exact hsbne (Option.some.inj hsb).symm
      have hsub_of_mem : ∀ d2 sd2, d2 ∈ (alookup key map).getD [] →
          alookup d2 Rf = some sd2 → sd2 ⊆ sf := by
        intro d2 sd2 hd2 h1
        obtain ⟨sd2b, h1b, h2b, hsubf⟩ := hdeps d2 hd2
        rwa [Option.some.inj (h1b.symm.trans h1)] at hsubf
      subst hR2
      refine ⟨?_, hlook3, hsne⟩
      refine ⟨?_, ?_, ?_, ?_, ?_, ?_⟩
      · -- mono
        intro a sa ha hane
        have hak : a ≠ key := fun hh => by
          rw [hh, hm] at ha
          exact absurd ha (by simp)
        rw [alookup_aupdate_ne _ _ _ _ hak]
        exact hC.mono a sa (by rw [alookup_ainsert_ne _ _ _ _ hak]; exact ha) hane
      · -- persist
        intro a ha
        have hak : a ≠ key := fun hh => by
          rw [hh, hm] at ha
          exact absurd ha (by simp)
        rw [alookup_aupdate_ne _ _ _ _ hak]
        exact hC.persist a (by rw [alookup_ainsert_ne _ _ _ _ hak]; exact ha)
      · -- shrink
        intro a ha
        have hak : a ≠ key := by
          intro hh
          subst hh
          rw [hlook3] at ha
          exact hsne (Option.some.inj ha)
        rw [alookup_aupdate_ne _ _ _ _ hak] at ha
        have := hC.shrink a ha
        rwa [alookup_ainsert_ne _ _ _ _ hak] at this
      · -- GoodT
        intro hg
        have hgf : GoodT Rf := hGf (goodT_placeholder hm hg)
        intro a sa ha hane
        by_cases hak : a = key
        · rw [hak] at ha
          rw [hlook3] at ha
          obtain rfl := Option.some.inj ha
          refine ⟨hak.symm ▸ hkey_in, fun b hb => ?_⟩
          rcases hrev b hb with hbk | ⟨d2, hd2, sd2, h1, h2, h3⟩
          · simp only [List.mem_singleton] at hbk
            subst hbk
            exact ⟨sf, hlook3, hane, fun x hx => hx⟩
          · obtain ⟨-, hmem2⟩ := hgf d2 sd2 h1 h2
            obtain ⟨sb, hsb, hsbne, hsub⟩ := hmem2 b h3
            have hbkey : b ≠ key := hne_of_complete b sb hsb hsbne
            refine ⟨sb, by rw [alookup_aupdate_ne _ _ _ _ hbkey]; exact hsb, hsbne, ?_⟩
            exact fun x hx => hsub_of_mem d2 sd2 hd2 h1 (hsub hx)
        · rw [alookup_aupdate_ne _ _ _ _ hak] at ha
          obtain ⟨hself, hmem⟩ := hgf a sa ha hane
          refine ⟨hself, fun b hb => ?_⟩
          obtain ⟨sb, hsb, hsbne, hsub⟩ := hmem b hb
          have hbkey : b ≠ key := hne_of_complete b sb hsb hsbne
          exact ⟨sb, by rw [alookup_aupdate_ne _ _ _ _ hbkey]; exact hsb, hsbne, hsub⟩
      · -- EqInvMap
        intro hg
        have hgf : EqInvMap map Rf := hC.eqInv (eqInv_placeholder hm hg)
        intro a sa ha hane d hd
        by_cases hak : a = key
        · rw [hak] at ha hd
          rw [hlook3] at ha
          obtain rfl := Option.some.inj ha
          obtain ⟨sd, h1, h2, hsub⟩ := hdeps d hd
          have hdkey : d ≠ key := hne_of_complete d sd h1 h2
          exact ⟨sd, by rw [alookup_aupdate_ne _ _ _ _ hdkey]; exact h1, h2, hsub⟩
        · rw [alookup_aupdate_ne _ _ _ _ hak] at ha
          obtain ⟨sd, h1, h2, hsub⟩ := hgf a sa ha hane d hd
          have hdkey : d ≠ key := hne_of_complete d sd h1 h2
          exact ⟨sd, by rw [alookup_aupdate_ne _ _ _ _ hdkey]; exact h1, h2, hsub⟩
      · -- SoundMap
        intro hg
        have hgf : SoundMap map Rf := hC.sound (sound_placeholder hm hg)
        intro a sa ha hane b hb
        by_cases hak : a = key
        · rw [hak] at ha ⊢
          rw [hlook3] at ha
          obtain rfl := Option.some.inj ha
          rcases hrev b hb with hbk | ⟨d2, hd2, sd2, h1, h2, h3⟩
          · simp only [List.mem_singleton] at hbk
            subst hbk
            exact Relation.ReflTransGen.refl
          · exact Relation.ReflTransGen.head hd2 (hgf d2 sd2 h1 h2 b h3)
        · rw [alookup_aupdate_ne _ _ _ _ hak] at ha
          exact hgf a sa ha hane b hb

theorem revdepFold_spec (fuel : ℕ) (rdm : AMap ASet) :
    ∀ (entries : List (Artifact × ASet)) (out0 out : AMap ASet),
      entries.foldlM (fun acc (p : Artifact × ASet) =>
        (depth fuel p.1 rdm acc).map Prod.fst) out0 = some out →
      DepthContract rdm out0 out ∧
      (∀ p ∈ entries, ∃ s, alookup p.1 out = some s ∧ s ≠ []) := by
  intro entries
  induction entries with
  | nil =>
    intro out0 out h
    simp only [List.foldlM_nil, Option.pure_def, Option.some.injEq] at h
    subst h
    exact ⟨DepthContract.id_contract rdm out0, by simp⟩
  | cons p rest ih =>
    intro out0 out h
    rw [List.foldlM_cons] at h
    cases hd : depth fuel p.1 rdm out0 with
    | none =>
      rw [hd] at h
      exact absurd h (by simp)
    | some r1 =>
      obtain ⟨R1, s1⟩ := r1
      rw [hd] at h
      simp only [Option.map_some', Option.some_bind] at h
      obtain ⟨hC1, hl1, hne1⟩ := depth_spec fuel p.1 rdm out0 R1 s1 hd
      obtain ⟨hCr, hrest⟩ := ih R1 out h
      refine ⟨hC1.comp hCr, fun p2 hp2 => ?_⟩
      rcases List.mem_cons.mp hp2 with rfl | hp3
      · exact ⟨s1, hCr.mono p2.1 s1 hl1 hne1, hne1⟩
      · exact hrest p2 hp3

/-- The spec of `reverse_dependencies`: on success every key of the builder
has a nonempty closure set, and the resulting map satisfies the three
structural invariants. -/
theorem reverse_dependencies_spec (fuel : ℕ) (deps : DependencyQueueBuilder)
    (out : AMap ASet) (h : reverse_dependencies fuel deps = some out) :
    GoodT out ∧ EqInvMap deps.reverse_dep_map out ∧
    SoundMap deps.reverse_dep_map out ∧
    (∀ p ∈ deps.dep_map, ∃ s, alookup p.1 out = some s ∧ s ≠ []) := by
  obtain ⟨hC, hkeys⟩ := revdepFold_spec fuel deps.reverse_dep_map deps.dep_map [] out h
  have hGoodNil : GoodT [] := fun a s hh => absurd hh (by simp [alookup])
  have hEqNil : EqInvMap deps.reverse_dep_map [] := fun a s hh => absurd hh (by simp [alookup])
  have hSoundNil : SoundMap deps.reverse_dep_map [] := fun a s hh => absurd hh (by simp [alookup])
  exact ⟨hC.goodT hGoodNil, hC.eqInv hEqNil, hC.sound hSoundNil, hkeys⟩

/-- In the computed reverse-dependency map a completed entry contains
exactly the artifacts reachable from its key along the reverse-dependency
edges. -/
theorem complete_entries_closure (map R : AMap ASet) (hG : GoodT R)
    (hE : EqInvMap map R) (hS : SoundMap map R) (a : Artifact) (s : ASet)
    (hl : alookup a R = some s) (hne : s ≠ []) :
    ∀ b, b ∈ s ↔ Relation.ReflTransGen (edgeRel map) a b := by
  intro b
  have hback : ∀ a2, Relation.ReflTransGen (edgeRel map) a2 b →
      ∀ s2, alookup a2 R = some s2 → s2 ≠ [] → b ∈ s2 := by
    intro a2 hr
    induction hr using Relation.ReflTransGen.head_induction_on with
    | refl =>
      intro s2 hl2 hne2
      exact (hG b s2 hl2 hne2).1
    | head hstep htail ihstep =>
      intro s2 hl2 hne2
      obtain ⟨sc, hlc, hnec, hsub⟩ := hE _ s2 hl2 hne2 _ hstep
      exact hsub (ihstep sc hlc hnec)
  exact ⟨hS a s hl hne b, fun hr => hback a hr s hl hne⟩

/-- `boolNatLe` is total. -/
theorem boolNatLe_total (x y : Bool × ℕ) : boolNatLe x y ∨ boolNatLe y x := by
  obtain ⟨b1, n1⟩ := x
  obtain ⟨b2, n2⟩ := y
  cases b1 <;> cases b2 <;> simp [boolNatLe] <;> omega

/-- `boolNatLe` is transitive. -/
theorem boolNatLe_trans (x y z : Bool × ℕ) (h1 : boolNatLe x y) (h2 : boolNatLe y z) :
    boolNatLe x z := by
  obtain ⟨b1, n1⟩ := x
  obtain ⟨b2, n2⟩ := y
  obtain ⟨b3, n3⟩ := z
  cases b1 <;> cases b2 <;> cases b3 <;> simp [boolNatLe] at * <;> omega

theorem alookup_map_keyed {V W : Type} (g : Artifact × V → W) (m : AMap V)
    (a : Artifact) (v : V) (h : alookup a m = some v) :
    alookup a (m.map (fun p => (p.1, g p))) = some (g (a, v)) := by
  induction m with
  | nil => exact absurd h (by simp [alookup])
  | cons p rest ih =>
    obtain ⟨k2, v2⟩ := p
    show (if k2 = a then some (g (k2, v2)) else _) = _
    by_cases hk : k2 = a
    · rw [if_pos hk]
      rw [show alookup a ((k2, v2) :: rest) = if k2 = a then some v2 else alookup a rest
        from rfl, if_pos hk] at h
      obtain rfl := Option.some.inj h
      rw [hk]
    · rw [if_neg hk]
      rw [show alookup a ((k2, v2) :: rest) = if k2 = a then some v2 else alookup a rest
        from rfl, if_neg hk] at h
      exact ih h

/-! ## C8: the Cargo-priority provider -/

/-- **C8.** `CargoHints::new` precomputes, for every artifact `a` of the
queue, `priority(a) = cost(a) + Σ cost(d)` over `d` in the (reflexive)
transitive reverse-dependency closure of `a`, with
`cost(kind) = 0 if kind = Codegen else 10`; its `suggest_next` returns a
candidate maximising the lexicographic key
`(separate_codegen ∨ kind = Codegen, priority)`. -/
theorem cargo_hints_spec (fuel : ℕ) (deps : DependencyQueueBuilder) (sep : Bool)
    (hp : HintProvider) (h : CargoHints.new fuel deps sep = some hp) :
    ∃ prio out, hp = .cargo prio sep ∧
      reverse_dependencies fuel deps = some out ∧
      (∀ a s, alookup a out = some s →
        alookup a prio =
          some (dependent_cost a.typ + (s.map (fun d => dependent_cost d.typ)).sum) ∧
        (∀ b, b ∈ s ↔ Relation.ReflTransGen (edgeRel deps.reverse_dep_map) a b)) ∧
      (∀ p ∈ deps.dep_map, (alookup p.1 out).isSome) ∧
      (∀ (cands : List Artifact) (r : Artifact) (h2 : HintProvider),
        suggestNextP hp cands = some (some r, h2) →
        r ∈ cands ∧
          ∀ c ∈ cands, boolNatLe (cargoKey prio sep c) (cargoKey prio sep r)) := by
  unfold CargoHints.new at h
  rw [Option.map_eq_some'] at h
  obtain ⟨out, hout, hback⟩ := h
  obtain ⟨hG, hE, hS, hkeys⟩ := reverse_dependencies_spec fuel deps out hout
  have hnoplaceholder : ∀ a s, alookup a out = some s → s ≠ [] := by
    intro a s hl hne
    subst hne
    obtain ⟨hC, -⟩ := revdepFold_spec fuel deps.reverse_dep_map deps.dep_map [] out hout
    exact absurd (hC.shrink a hl) (by simp [alookup])
  refine ⟨_, out, hback.symm, hout, ?_, ?_, ?_⟩
  · intro a s hl
    constructor
    · exact alookup_map_keyed
        (fun p => dependent_cost p.1.typ + (p.2.map (fun d => dependent_cost d.typ)).sum)
        out a s hl
    · exact complete_entries_closure deps.reverse_dep_map out hG hE hS a s hl
        (hnoplaceholder a s hl)
  · intro p hp2
    obtain ⟨s, hl, -⟩ := hkeys p hp2
    rw [hl]
    rfl
  · intro cands r h2 hs
    rw [← hback] at hs
    simp only [suggestNextP] at hs
    split at hs
    · simp only [Option.some.injEq, Prod.mk.injEq] at hs
      obtain ⟨hmax, -⟩ := hs
      refine ⟨maxByLast_mem _ _ _ hmax, ?_⟩
      intro c hc
      refine maxByLast_le _ ?_ ?_ cands r hmax c hc
      · exact fun x y => boolNatLe_total _ _
      · exact fun x y z hxy hyz => boolNatLe_trans _ _ _ hxy hyz
    · exact absurd hs (by simp)

/-- **C8 witness.** A three-crate builder (`a` depends on `c`; `b` free):
the priority of `c` is `cost(c) + cost(a) + cost(c) = 30`, and `a` is in
the transitive reverse-dependency closure of `c`. -/
theorem cargo_hints_spec_witness :
    ∃ prio out,
      CargoHints.new 100
        ((((DependencyQueueBuilder.new).queue ⟨.Link, "a"⟩ [⟨.Link, "c"⟩]).queue
            ⟨.Link, "b"⟩ []).queue ⟨.Link, "c"⟩ []) true = some (.cargo prio true) ∧
      reverse_dependencies 100
        ((((DependencyQueueBuilder.new).queue ⟨.Link, "a"⟩ [⟨.Link, "c"⟩]).queue
            ⟨.Link, "b"⟩ []).queue ⟨.Link, "c"⟩ []) = some out ∧
      alookup ⟨.Link, "c"⟩ prio = some 30 ∧
      Relation.ReflTransGen
        (edgeRel ((((DependencyQueueBuilder.new).queue ⟨.Link, "a"⟩ [⟨.Link, "c"⟩]).queue
            ⟨.Link, "b"⟩ []).queue ⟨.Link, "c"⟩ []).reverse_dep_map)
        ⟨.Link, "c"⟩ ⟨.Link, "a"⟩ := by
  obtain ⟨prio, out, hhp, hout, hmain, -, -⟩ :=
    cargo_hints_spec 100
      ((((DependencyQueueBuilder.new).queue ⟨.Link, "a"⟩ [⟨.Link, "c"⟩]).queue
          ⟨.Link, "b"⟩ []).queue ⟨.Link, "c"⟩ []) true
      (.cargo [(⟨.Link, "a"⟩, 20), (⟨.Link, "b"⟩, 20), (⟨.Link, "c"⟩, 30)] true) rfl
  rw [HintProvider.cargo.injEq] at hhp
  obtain ⟨rfl, -⟩ := hhp
  have houtlit : reverse_dependencies 100
      ((((DependencyQueueBuilder.new).queue ⟨.Link, "a"⟩ [⟨.Link, "c"⟩]).queue
          ⟨.Link, "b"⟩ []).queue ⟨.Link, "c"⟩ []) =
      some [(⟨.Link, "a"⟩, [⟨.Link, "a"⟩]), (⟨.Link, "b"⟩, [⟨.Link, "b"⟩]),
        (⟨.Link, "c"⟩, [⟨.Link, "a"⟩, ⟨.Link, "c"⟩])] := rfl
  obtain rfl := Option.some.inj (houtlit.symm.trans hout)
  refine ⟨_, _, rfl, houtlit, by decide, ?_⟩
  exact ((hmain ⟨.Link, "c"⟩ [⟨.Link, "a"⟩, ⟨.Link, "c"⟩] (by rfl)).2 ⟨.Link, "a"⟩).mp
    (by decide)

/-! ## C7: topological order of the `n_hints` list -/

theorem findIdxPanic_some {α : Type} (f : α → Option Bool) :
    ∀ (l : List α) (i : ℕ), findIdxPanic f l = some (some i) →
      ∃ hi : i < l.length, f (l.get ⟨i, hi⟩) = some true ∧
        ∀ j (hj : j < l.length), j < i → f (l.get ⟨j, hj⟩) = some false := by
  intro l
  induction l with
  | nil =>
    intro i h
    exact absurd h (by simp [findIdxPanic])
  | cons x xs ih =>
    intro i h
    unfold findIdxPanic at h
    cases hx : f x with
    | none =>
      rw [hx] at h
      exact absurd h (by simp)
    | some b =>
      rw [hx] at h
      cases b with
      | true =>
        simp only [Option.some.injEq] at h
        obtain rfl := h.symm
        exact ⟨by simp, by simpa using hx, fun j hj hji => absurd hji (by omega)⟩
      | false =>
        rw [Option.map_eq_some'] at h
        obtain ⟨o, ho, hback⟩ := h
        cases o with
        | none => exact absurd hback (by simp)
        | some i2 =>
          simp only [Option.map_some', Option.some.injEq] at hback
          obtain rfl := hback.symm
          obtain ⟨hi2, htrue, hfalse⟩ := ih i2 ho
          refine ⟨by simpa using Nat.succ_lt_succ hi2, by simpa using htrue, ?_⟩
          intro j hj hji
          cases j with
          | zero => simpa using hx
          | succ j2 =>
            have hj2 : j2 < xs.length := by simpa using hj
            simpa using hfalse j2 hj2 (by omega)

theorem findIdxPanic_none {α : Type} (f : α → Option Bool) :
    ∀ (l : List α), findIdxPanic f l = some none → ∀ x ∈ l, f x = some false := by
  intro l
  induction l with
  | nil => simp
  | cons x xs ih =>
    intro h y hy
    unfold findIdxPanic at h
    cases hx : f x with
    | none =>
      rw [hx] at h
      exact absurd h (by simp)
    | some b =>
      rw [hx] at h
      cases b with
      | true => simp at h
      | false =>
        rw [Option.map_eq_some'] at h
        obtain ⟨o, ho, hback⟩ := h
        cases o with
        | some i2 => exact absurd hback (by simp)
        | none =>
          rcases List.mem_cons.mp hy with rfl | hy2
          · exact hx
          · exact ih ho y hy2

theorem rposLastDependency_some (revd : AMap ASet) (item : Artifact)
    (l : List Artifact) (ld : ℕ)
    (h : rposLastDependency revd item l = some (some ld)) :
    ∃ hld : ld < l.length,
      (∃ s, alookup (l.get ⟨ld, hld⟩) revd = some s ∧ item ∈ s) ∧
      ∀ j (hj : j < l.length), ld < j →
        ∃ s, alookup (l.get ⟨j, hj⟩) revd = some s ∧ item ∉ s := by
  unfold rposLastDependency at h
  rw [Option.map_eq_some'] at h
  obtain ⟨o, ho, hback⟩ := h
  cases o with
  | none => exact absurd hback (by simp)
  | some i =>
    simp only [Option.map_some', Option.some.injEq] at hback
    obtain rfl := hback.symm
    obtain ⟨hi, htrue, hfalse⟩ := findIdxPanic_some _ _ _ ho
    have hilen : i < l.length := by simpa using hi
    have hldlen : l.length - 1 - i < l.length := by omega
    refine ⟨hldlen, ?_, ?_⟩
    · have hrev : l.reverse.get ⟨i, hi⟩ = l.get ⟨l.length - 1 - i, hldlen⟩ := by
        simp [List.get_eq_getElem, List.getElem_reverse]
      rw [hrev] at htrue
      rw [Option.map_eq_some'] at htrue
      obtain ⟨s, hs, hdec⟩ := htrue
      exact ⟨s, hs, by simpa using hdec⟩
    · intro j hj hgt
      have hrj : l.length - 1 - j < l.reverse.length := by simp; omega
      have hlt : l.length - 1 - j < i := by omega
      have := hfalse (l.length - 1 - j) hrj hlt
      have hrev : l.reverse.get ⟨l.length - 1 - j, hrj⟩ = l.get ⟨j, hj⟩ := by
        simp only [List.get_eq_getElem, List.getElem_reverse]
        congr 1
        omega
      rw [hrev] at this
      rw [Option.map_eq_some'] at this
      obtain ⟨s, hs, hdec⟩ := this
      exact ⟨s, hs, by simpa using hdec⟩

theorem rposLastDependency_none (revd : AMap ASet) (item : Artifact)
    (l : List Artifact) (h : rposLastDependency revd item l = some none) :
    ∀ x ∈ l, ∃ s, alookup x revd = some s ∧ item ∉ s := by
  unfold rposLastDependency at h
  rw [Option.map_eq_some'] at h
  obtain ⟨o, ho, hback⟩ := h
  cases o with
  | some i => exact absurd hback (by simp)
  | none =>
    intro x hx
    have := findIdxPanic_none _ _ ho x (by simpa using hx)
    rw [Option.map_eq_some'] at this
    obtain ⟨s, hs, hdec⟩ := this
    exact ⟨s, hs, by simpa using hdec⟩

theorem nhWindowIndex_bounds (tm2 : AMap TimingInfo) (st : ℤ) (l : List Artifact)
    (lo hi idx : ℕ) (hlo : lo ≤ hi)
    (h : nhWindowIndex tm2 st l lo hi = some idx) : lo ≤ idx ∧ idx ≤ hi := by
  unfold nhWindowIndex at h
  rw [Option.map_eq_some'] at h
  obtain ⟨o, ho, hback⟩ := h
  cases o with
  | none =>
    simp only [Option.map_none', Option.getD_none] at hback
    omega
  | some p =>
    simp only [Option.map_some', Option.getD_some] at hback
    obtain ⟨hp, -, -⟩ := findIdxPanic_some _ _ _ ho
    have hplen : p < ((l.drop lo).take (hi - lo)).length := hp
    have : p < hi - lo := by
      have := List.length_take_le (hi - lo) (l.drop lo)
      omega
    omega

/-- The index chosen by the insertion closure lies after every element whose
flattened reverse-dependency set contains `item` (the ancestors of `item`
in the list), and before every element of `my_dependants`. -/
theorem nhInsertionIndex_bounds (revd : AMap ASet) (tm2 : AMap TimingInfo)
    (st : ℤ) (md : ASet) (l : List Artifact) (item : Artifact) (idx : ℕ)
    (h : nhInsertionIndex revd tm2 st md l item = some idx) :
    idx ≤ l.length ∧
    (∀ j (hj : j < l.length), idx ≤ j →
      ∃ s, alookup (l.get ⟨j, hj⟩) revd = some s ∧ item ∉ s) ∧
    (∀ i (hi : i < l.length), i < idx → l.get ⟨i, hi⟩ ∉ md) := by
  unfold nhInsertionIndex at h
  by_cases hnil : l = []
  · rw [if_pos hnil] at h
    obtain rfl := Option.some.inj h
    subst hnil
    exact ⟨by simp, fun j hj => absurd hj (by simp), fun i hi => absurd hi (by simp)⟩
  · rw [if_neg hnil] at h
    cases hr : rposLastDependency revd item l with
    | none =>
      rw [hr] at h
      exact absurd h (by simp)
    | some mld =>
      rw [hr] at h
      have hfd_lt : ∀ fd, l.findIdx? (fun e => decide (e ∈ md)) = some fd →
          fd < l.length ∧ (∀ i (hi : i < l.length), i < fd → l.get ⟨i, hi⟩ ∉ md) := by
        intro fd hfd
        obtain ⟨hlt, hidx⟩ := List.findIdx?_eq_some_iff_findIdx_eq.mp hfd
        refine ⟨hlt, fun i hi hilt => ?_⟩
        have := @List.not_of_lt_findIdx _ (fun e => decide (e ∈ md)) l i (by omega)
        simpa using this
      have hfd_none : l.findIdx? (fun e => decide (e ∈ md)) = none →
          ∀ x ∈ l, x ∉ md := by
        intro hfd x hx
        have := List.findIdx?_eq_none_iff.mp hfd x hx
        simpa using this
      cases mld with
      | some ld =>
        obtain ⟨hldlen, -, hafter⟩ := rposLastDependency_some revd item l ld hr
        cases hfd : l.findIdx? (fun e => decide (e ∈ md)) with
        | some fd =>
          rw [hfd] at h
          have h2 : (if ld < fd then
              if ld + 1 = fd then some fd else nhWindowIndex tm2 st l (ld + 1) fd
            else none) = some idx := h
          obtain ⟨hfdlen, hbefore⟩ := hfd_lt fd hfd
          by_cases hldfd : ld < fd
          · rw [if_pos hldfd] at h2
            by_cases heq : ld + 1 = fd
            · rw [if_pos heq] at h2
              obtain rfl := Option.some.inj h2
              exact ⟨by omega, fun j hj hge => hafter j hj (by omega),
                fun i hi hlt => hbefore i hi (by omega)⟩
            · rw [if_neg heq] at h2
              obtain ⟨hb1, hb2⟩ := nhWindowIndex_bounds tm2 st l (ld + 1) fd idx
                (by omega) h2
              exact ⟨by omega, fun j hj hge => hafter j hj (by omega),
                fun i hi hlt => hbefore i hi (by omega)⟩
          · rw [if_neg hldfd] at h2
            exact absurd h2 (by simp)
        | none =>
          rw [hfd] at h
          have h2 : nhWindowIndex tm2 st l (ld + 1) l.length = some idx := h
          obtain ⟨hb1, hb2⟩ := nhWindowIndex_bounds tm2 st l (ld + 1) l.length idx
            (by omega) h2
          exact ⟨hb2, fun j hj hge => hafter j hj (by omega),
            fun i hi hlt => hfd_none hfd _ (List.get_mem l _ _)⟩
      | none =>
        have hall := rposLastDependency_none revd item l hr
        cases hfd : l.findIdx? (fun e => decide (e ∈ md)) with
        | some fd =>
          rw [hfd] at h
          have h2 : nhWindowIndex tm2 st l 0 fd = some idx := h
          obtain ⟨hfdlen, hbefore⟩ := hfd_lt fd hfd
          obtain ⟨hb1, hb2⟩ := nhWindowIndex_bounds tm2 st l 0 fd idx (by omega) h2
          exact ⟨by omega, fun j hj hge => hall _ (List.get_mem l _ _),
            fun i hi hlt => hbefore i hi (by omega)⟩
        | none =>
          rw [hfd] at h
          have h2 : nhWindowIndex tm2 st l 0 l.length = some idx := h
          obtain ⟨hb1, hb2⟩ := nhWindowIndex_bounds tm2 st l 0 l.length idx
            (by omega) h2
          exact ⟨hb2, fun j hj hge => hall _ (List.get_mem l _ _),
            fun i hi hlt => hfd_none hfd _ (List.get_mem l _ _)⟩

/-- The topological-consistency property of a list with respect to a
reverse-dependency edge map: no element precedes a strict ancestor (an
artifact it transitively depends on). -/
def TopoOkR (rdm : AMap ASet) (l : List Artifact) : Prop :=
  ∀ i j (hi : i < l.length) (hj : j < l.length), i < j →
    ¬ (l.get ⟨j, hj⟩ ≠ l.get ⟨i, hi⟩ ∧
       Relation.ReflTransGen (edgeRel rdm) (l.get ⟨j, hj⟩) (l.get ⟨i, hi⟩))

/-- Inserting `item` after all its ancestors in the list and before all its
descendants preserves topological consistency. -/
theorem topo_insert (rdm : AMap ASet) (l : List Artifact) (item : Artifact)
    (idx : ℕ) (hidx : idx ≤ l.length)
    (hA : ∀ j (hj : j < l.length), idx ≤ j →
      ¬ Relation.ReflTransGen (edgeRel rdm) (l.get ⟨j, hj⟩) item)
    (hB : ∀ i (hi : i < l.length), i < idx →
      ¬ Relation.ReflTransGen (edgeRel rdm) item (l.get ⟨i, hi⟩))
    (hT : TopoOkR rdm l) : TopoOkR rdm (l.insertIdx idx item) := by
  have hlen : (l.insertIdx idx item).length = l.length + 1 :=
    List.length_insertIdx idx l hidx
  have hget_lt : ∀ (k : ℕ) (hk : k < (l.insertIdx idx item).length)
      (hlt : k < idx) (hk2 : k < l.length),
      (l.insertIdx idx item).get ⟨k, hk⟩ = l.get ⟨k, hk2⟩ :=
    fun k hk hlt hk2 => List.get_insertIdx_of_lt l item idx k hlt hk2 hk
  have hget_self : ∀ (hk : idx < (l.insertIdx idx item).length),
      (l.insertIdx idx item).get ⟨idx, hk⟩ = item :=
    fun hk => List.get_insertIdx_self l item idx hidx hk
  have hget_gt : ∀ (k : ℕ) (hk : k < (l.insertIdx idx item).length)
      (hgt : idx < k) (hk2 : k - 1 < l.length),
      (l.insertIdx idx item).get ⟨k, hk⟩ = l.get ⟨k - 1, hk2⟩ := by
    intro k hk hgt hk2
    have h3 : idx + (k - idx - 1) < l.length := by omega
    have h4 := List.getElem_insertIdx_add_succ l item idx (k - idx - 1) h3
      (by rw [hlen]; omega)
    simp only [List.get_eq_getElem]
    convert h4 using 2 <;> omega
  intro i j hi hj hij hpair
  obtain ⟨hne, hrtg⟩ := hpair
  by_cases hjlt : j < idx
  · rw [hget_lt i hi (by omega) (by omega), hget_lt j hj hjlt (by omega)]
      at hne hrtg
    exact hT i j (by omega) (by omega) hij ⟨hne, hrtg⟩
  · by_cases hjeq : j = idx
    · subst hjeq
      rw [hget_self hj] at hne hrtg
      rw [hget_lt i hi (by omega) (by omega)] at hne hrtg
      exact hB i (by omega) (by omega) hrtg
    · have hjgt : idx < j := by omega
      have hj1 : j - 1 < l.length := by rw [hlen] at hj; omega
      rw [hget_gt j hj hjgt hj1] at hne hrtg
      by_cases hieq : i = idx
      · subst hieq
        rw [hget_self hi] at hne hrtg
        exact hA (j - 1) hj1 (by omega) hrtg
      · by_cases hilt : i < idx
        · rw [hget_lt i hi hilt (by omega)] at hne hrtg
          exact hT i (j - 1) (by omega) hj1 (by omega) ⟨hne, hrtg⟩
        · have higt : idx < i := by omega
          have hi1 : i - 1 < l.length := by rw [hlen] at hi; omega
          rw [hget_gt i hi higt hi1] at hne hrtg
          exact hT (i - 1) (j - 1) hi1 hj1 (by omega) ⟨hne, hrtg⟩

/-- A successful `reverse_dependencies` run leaves no in-progress
placeholder in its result. -/
theorem reverse_dependencies_no_placeholder (fuel : ℕ)
    (deps : DependencyQueueBuilder) (out : AMap ASet)
    (h : reverse_dependencies fuel deps = some out) :
    ∀ a s, alookup a out = some s → s ≠ [] := by
  intro a s hl hne
  subst hne
  obtain ⟨hC, -⟩ := revdepFold_spec fuel deps.reverse_dep_map deps.dep_map [] out h
  exact absurd (hC.shrink a hl) (by simp [alookup])

/-- One step of the `n_hints` build loop preserves topological
consistency. -/
theorem nhInsertStep_topo (deps : DependencyQueueBuilder) (fuel : ℕ)
    (revd : AMap ASet) (hrevd : reverse_dependencies fuel deps = some revd)
    (tm2 : AMap TimingInfo) (l l2 : List Artifact) (item : Artifact)
    (h : nhInsertStep revd tm2 l item = some l2)
    (hT : TopoOkR deps.reverse_dep_map l) : TopoOkR deps.reverse_dep_map l2 := by
  obtain ⟨hG, hE, hS, -⟩ := reverse_dependencies_spec fuel deps revd hrevd
  have hnp := reverse_dependencies_no_placeholder fuel deps revd hrevd
  unfold nhInsertStep at h
  split at h
  next ti md hti hmd =>
    rw [Option.map_eq_some'] at h
    obtain ⟨idx, hIdx, hl2⟩ := h
    obtain ⟨hle, hAraw, hBraw⟩ :=
      nhInsertionIndex_bounds revd tm2 ti.duration md l item idx hIdx
    have hA : ∀ j (hj : j < l.length), idx ≤ j →
        ¬ Relation.ReflTransGen (edgeRel deps.reverse_dep_map) (l.get ⟨j, hj⟩) item := by
      intro j hj hge hrtg
      obtain ⟨s, hs, hnotin⟩ := hAraw j hj hge
      exact hnotin
        ((complete_entries_closure deps.reverse_dep_map revd hG hE hS _ s hs
          (hnp _ s hs) item).mpr hrtg)
    have hB : ∀ i (hi : i < l.length), i < idx →
        ¬ Relation.ReflTransGen (edgeRel deps.reverse_dep_map) item (l.get ⟨i, hi⟩) := by
      intro i hi hlt hrtg
      exact hBraw i hi hlt
        ((complete_entries_closure deps.reverse_dep_map revd hG hE hS item md hmd
          (hnp _ md hmd) _).mpr hrtg)
    rw [← hl2]
    exact topo_insert deps.reverse_dep_map l item idx hle hA hB hT
  next =>
    exact absurd h (by simp)

theorem nhFold_topo (deps : DependencyQueueBuilder) (fuel : ℕ)
    (revd : AMap ASet) (hrevd : reverse_dependencies fuel deps = some revd)
    (tm2 : AMap TimingInfo) :
    ∀ (items : List Artifact) (l0 l1 : List Artifact),
      TopoOkR deps.reverse_dep_map l0 →
      items.foldlM (nhInsertStep revd tm2) l0 = some l1 →
      TopoOkR deps.reverse_dep_map l1 := by
  intro items
  induction items with
  | nil =>
    intro l0 l1 h0 h
    simp only [List.foldlM_nil, Option.pure_def, Option.some.injEq] at h
    exact h ▸ h0
  | cons item rest ih =>
    intro l0 l1 h0 h
    rw [List.foldlM_cons] at h
    cases hstep : nhInsertStep revd tm2 l0 item with
    | none =>
      rw [hstep] at h
      exact absurd h (by simp)
    | some lmid =>
      rw [hstep] at h
      have h2 : rest.foldlM (nhInsertStep revd tm2) lmid = some l1 := h
      exact ih lmid l1 (nhInsertStep_topo deps fuel revd hrevd tm2 l0 lmid item hstep h0) h2

/-- **C7.** After every insertion step of the N-hints construction, and in
the final provider, the `n_hints` list is topologically consistent with
the DAG: no element of the list precedes a strict ancestor of it (an
artifact it transitively depends on) that is also in the list. -/
theorem nhints_topological (fuel : ℕ) (deps : DependencyQueueBuilder)
    (tm : AMap TimingInfo) (p : HintProvider)
    (h : NHintsProvider.new fuel deps tm = some p) :
    ∃ n_hints revd inner,
      p = .nHints n_hints revd (nhFoldedTimings tm) inner ∧
      TopoOkR deps.reverse_dep_map n_hints ∧
      ∀ pre suf, nhTopN deps (nhFoldedTimings tm) = pre ++ suf →
        ∀ l, pre.foldlM (nhInsertStep revd (nhFoldedTimings tm)) [] = some l →
          TopoOkR deps.reverse_dep_map l := by
  have h2 : (match reverse_dependencies fuel deps with
    | none => none
    | some revd =>
      match (nhTopN deps (nhFoldedTimings tm)).foldlM
          (nhInsertStep revd (nhFoldedTimings tm)) [] with
      | none => none
      | some n_hints =>
        match CargoHints.new fuel deps false with
        | none => none
        | some inner =>
          some (HintProvider.nHints n_hints revd (nhFoldedTimings tm) inner)) = some p := h
  clear h
  cases hrd : reverse_dependencies fuel deps with
  | none =>
    rw [hrd] at h2
    have h3 : (none : Option HintProvider) = some p := h2
    exact absurd h3 (by simp)
  | some revd =>
    rw [hrd] at h2
    have h2b : (match (nhTopN deps (nhFoldedTimings tm)).foldlM
        (nhInsertStep revd (nhFoldedTimings tm)) [] with
      | none => none
      | some n_hints =>
        match CargoHints.new fuel deps false with
        | none => none
        | some inner =>
          some (HintProvider.nHints n_hints revd (nhFoldedTimings tm) inner)) = some p := h2
    clear h2
    cases hfold : (nhTopN deps (nhFoldedTimings tm)).foldlM
        (nhInsertStep revd (nhFoldedTimings tm)) [] with
    | none =>
      rw [hfold] at h2b
      have h3 : (none : Option HintProvider) = some p := h2b
      exact absurd h3 (by simp)
    | some n_hints =>
      rw [hfold] at h2b
      have h3 : (match CargoHints.new fuel deps false with
        | none => none
        | some inner =>
          some (HintProvider.nHints n_hints revd (nhFoldedTimings tm) inner)) = some p := h2b
      cases hc : CargoHints.new fuel deps false with
      | none =>
        rw [hc] at h3
        have h4 : (none : Option HintProvider) = some p := h3
        exact absurd h4 (by simp)
      | some inner =>
        rw [hc] at h3
        simp only [Option.some.injEq] at h3
        have hTnil : TopoOkR deps.reverse_dep_map [] := by
          intro i j hi hj hij
          exact absurd hi (by simp)
        refine ⟨n_hints, revd, inner, h3.symm,
          nhFold_topo deps fuel revd hrd (nhFoldedTimings tm) _ [] n_hints hTnil hfold,
          ?_⟩
        intro pre suf hsplit l hl
        exact nhFold_topo deps fuel revd hrd (nhFoldedTimings tm) pre [] l hTnil hl

/-- **C7 witness.** For the three-crate builder (`a` depends on `c`; `b`
free, durations 10/5/1) the construction succeeds and the resulting list
`[c, a, b]` is topologically consistent. -/
theorem nhints_topological_witness :
    TopoOkR
      ((((DependencyQueueBuilder.new).queue ⟨.Link, "a"⟩ [⟨.Link, "c"⟩]).queue
          ⟨.Link, "b"⟩ []).queue ⟨.Link, "c"⟩ []).reverse_dep_map
      [⟨.Link, "c"⟩, ⟨.Link, "a"⟩, ⟨.Link, "b"⟩] := by
  obtain ⟨n_hints, revd, inner, hp, hT, -⟩ :=
    nhints_topological 100
      ((((DependencyQueueBuilder.new).queue ⟨.Link, "a"⟩ [⟨.Link, "c"⟩]).queue
          ⟨.Link, "b"⟩ []).queue ⟨.Link, "c"⟩ [])
      [(⟨.Link, "a"⟩, ⟨.Build, 10, none, "x", ⟨"x", [.Bin]⟩⟩),
       (⟨.Link, "b"⟩, ⟨.Build, 5, none, "x", ⟨"x", [.Bin]⟩⟩),
       (⟨.Link, "c"⟩, ⟨.Build, 1, none, "x", ⟨"x", [.Bin]⟩⟩)]
      (HintProvider.nHints [⟨.Link, "c"⟩, ⟨.Link, "a"⟩, ⟨.Link, "b"⟩]
        [(⟨.Link, "a"⟩, [⟨.Link, "a"⟩]), (⟨.Link, "b"⟩, [⟨.Link, "b"⟩]),
         (⟨.Link, "c"⟩, [⟨.Link, "a"⟩, ⟨.Link, "c"⟩])]
        [(⟨.Link, "a"⟩, ⟨.Build, 10, none, "x", ⟨"x", [.Bin]⟩⟩),
         (⟨.Link, "b"⟩, ⟨.Build, 5, none, "x", ⟨"x", [.Bin]⟩⟩),
         (⟨.Link, "c"⟩, ⟨.Build, 1, none, "x", ⟨"x", [.Bin]⟩⟩)]
        (.cargo [(⟨.Link, "a"⟩, 20), (⟨.Link, "b"⟩, 20), (⟨.Link, "c"⟩, 30)] false))
      (by decide)
  rw [HintProvider.nHints.injEq] at hp
  obtain ⟨h1, -, -, -⟩ := hp
  rw [← h1] at hT
  exact hT

/-- **C5 (counterexample).** The provider built by `NHintsProvider::new` on
the three-crate builder (`a` depends on `c`, durations 10/5/1, giving
`n_hints = [c, a, b]`), handed the candidate list `[b, c]` — which
contains no `Codegen` artifact — returns `b`, even though
`pos(c) = 0 < 2 = pos(b)`.  The code's direct-hit branch picks the
candidate that appears in `n_hints` of greatest stored duration before any
position comparison, so the claimed minimum-`pos` rule (with Cargo-priority
tie-breaking) is not what `suggest_next` computes. -/
theorem nhints_suggest_counterexample :
    NHintsProvider.new 100
        ((((DependencyQueueBuilder.new).queue ⟨.Link, "a"⟩ [⟨.Link, "c"⟩]).queue
            ⟨.Link, "b"⟩ []).queue ⟨.Link, "c"⟩ [])
        [(⟨.Link, "a"⟩, ⟨.Build, 10, none, "x", ⟨"x", [.Bin]⟩⟩),
         (⟨.Link, "b"⟩, ⟨.Build, 5, none, "x", ⟨"x", [.Bin]⟩⟩),
         (⟨.Link, "c"⟩, ⟨.Build, 1, none, "x", ⟨"x", [.Bin]⟩⟩)] =
      some (HintProvider.nHints [⟨.Link, "c"⟩, ⟨.Link, "a"⟩, ⟨.Link, "b"⟩]
        [(⟨.Link, "a"⟩, [⟨.Link, "a"⟩]), (⟨.Link, "b"⟩, [⟨.Link, "b"⟩]),
         (⟨.Link, "c"⟩, [⟨.Link, "a"⟩, ⟨.Link, "c"⟩])]
        [(⟨.Link, "a"⟩, ⟨.Build, 10, none, "x", ⟨"x", [.Bin]⟩⟩),
         (⟨.Link, "b"⟩, ⟨.Build, 5, none, "x", ⟨"x", [.Bin]⟩⟩),
         (⟨.Link, "c"⟩, ⟨.Build, 1, none, "x", ⟨"x", [.Bin]⟩⟩)]
        (.cargo [(⟨.Link, "a"⟩, 20), (⟨.Link, "b"⟩, 20), (⟨.Link, "c"⟩, 30)] false)) ∧
    (suggestNextP
        (HintProvider.nHints [⟨.Link, "c"⟩, ⟨.Link, "a"⟩, ⟨.Link, "b"⟩]
          [(⟨.Link, "a"⟩, [⟨.Link, "a"⟩]), (⟨.Link, "b"⟩, [⟨.Link, "b"⟩]),
           (⟨.Link, "c"⟩, [⟨.Link, "a"⟩, ⟨.Link, "c"⟩])]
          [(⟨.Link, "a"⟩, ⟨.Build, 10, none, "x", ⟨"x", [.Bin]⟩⟩),
           (⟨.Link, "b"⟩, ⟨.Build, 5, none, "x", ⟨"x", [.Bin]⟩⟩),
           (⟨.Link, "c"⟩, ⟨.Build, 1, none, "x", ⟨"x", [.Bin]⟩⟩)]
          (.cargo [(⟨.Link, "a"⟩, 20), (⟨.Link, "b"⟩, 20), (⟨.Link, "c"⟩, 30)] false))
        [⟨.Link, "b"⟩, ⟨.Link, "c"⟩]).map Prod.fst =
      some (some ⟨.Link, "b"⟩) ∧
    nhPos [⟨.Link, "c"⟩, ⟨.Link, "a"⟩, ⟨.Link, "b"⟩]
      [(⟨.Link, "a"⟩, [⟨.Link, "a"⟩]), (⟨.Link, "b"⟩, [⟨.Link, "b"⟩]),
       (⟨.Link, "c"⟩, [⟨.Link, "a"⟩, ⟨.Link, "c"⟩])] ⟨.Link, "c"⟩ = 0 ∧
    nhPos [⟨.Link, "c"⟩, ⟨.Link, "a"⟩, ⟨.Link, "b"⟩]
      [(⟨.Link, "a"⟩, [⟨.Link, "a"⟩]), (⟨.Link, "b"⟩, [⟨.Link, "b"⟩]),
       (⟨.Link, "c"⟩, [⟨.Link, "a"⟩, ⟨.Link, "c"⟩])] ⟨.Link, "b"⟩ = 2 ∧
    ∀ t ∈ ([⟨.Link, "b"⟩, ⟨.Link, "c"⟩] : List Artifact),
      t.typ ≠ ArtifactType.Codegen := by
  decide

/-- **C5 (amended).** What `NHintsProvider::suggest_next` really computes:
the result is a candidate and the provider state is unchanged; the inner
Cargo provider is never consulted (the same answer comes out whatever the
inner provider is); if any candidate has kind `Codegen` one is returned;
otherwise, if some candidate occurs in `n_hints`, the result is such a
*direct hit* of maximum stored duration; only when no candidate occurs in
`n_hints` is a candidate of minimum `pos` returned, where
`pos(c)` is the first index of `n_hints` holding a member of `c`'s
flattened reverse-dependency set. -/
theorem nhints_suggest_spec (n_hints : List Artifact) (revd : AMap ASet)
    (tm : AMap TimingInfo) (inner : HintProvider) (cands : List Artifact)
    (r : Artifact) (h2 : HintProvider)
    (hs : suggestNextP (.nHints n_hints revd tm inner) cands = some (some r, h2)) :
    r ∈ cands ∧
    h2 = .nHints n_hints revd tm inner ∧
    (∀ inner2 : HintProvider,
      suggestNextP (.nHints n_hints revd tm inner2) cands =
        some (some r, .nHints n_hints revd tm inner2)) ∧
    ((∃ c ∈ cands, c.typ = ArtifactType.Codegen) → r.typ = ArtifactType.Codegen) ∧
    ((∀ c ∈ cands, c.typ ≠ ArtifactType.Codegen) → (∃ c ∈ cands, c ∈ n_hints) →
      r ∈ n_hints ∧ ∀ c ∈ cands, c ∈ n_hints → nhDurKey tm c ≤ nhDurKey tm r) ∧
    ((∀ c ∈ cands, c.typ ≠ ArtifactType.Codegen) → (∀ c ∈ cands, c ∉ n_hints) →
      ∀ c ∈ cands, nhPos n_hints revd r ≤ nhPos n_hints revd c) := by
  refine ⟨suggestNextP_mem _ _ _ _ hs, ?_⟩
  simp only [suggestNextP] at hs
  split at hs
  · rename_i codegen hfind
    simp only [Option.some.injEq, Prod.mk.injEq] at hs
    obtain ⟨hdr, hh⟩ := hs
    subst hdr
    refine ⟨hh.symm, ?_, ?_, ?_, ?_⟩
    · intro inner2
      simp only [suggestNextP]
      rw [hfind]
    · intro _
      have := List.find?_some hfind
      simpa using this
    · intro hnc _
      have hcmem := List.mem_of_find?_eq_some hfind
      have hct : codegen.typ = ArtifactType.Codegen := by
        have := List.find?_some hfind
        simpa using this
      exact absurd hct (hnc _ hcmem)
    · intro hnc _
      have hcmem := List.mem_of_find?_eq_some hfind
      have hct : codegen.typ = ArtifactType.Codegen := by
        have := List.find?_some hfind
        simpa using this
      exact absurd hct (hnc _ hcmem)
  · rename_i hfind
    split at hs
    · rename_i direct_hit hdir
      simp only [Option.some.injEq, Prod.mk.injEq] at hs
      obtain ⟨hdr, hh⟩ := hs
      subst hdr
      have hrmem := maxByLast_mem _ _ _ hdir
      rw [List.mem_filter] at hrmem
      refine ⟨hh.symm, ?_, ?_, ?_, ?_⟩
      · intro inner2
        simp only [suggestNextP]
        rw [hfind, hdir]
      · rintro ⟨c, hc, hct⟩
        have := List.find?_eq_none.mp hfind c hc
        simp [hct] at this
      · intro _ _
        refine ⟨by simpa using hrmem.2, ?_⟩
        intro c hc hcn
        have hle := maxByLast_le (fun a b => decide (nhDurKey tm a ≤ nhDurKey tm b))
            (fun a b => by
              rcases Int.le_total (nhDurKey tm a) (nhDurKey tm b) with h | h
              · exact Or.inl (by simpa using h)
              · exact Or.inr (by simpa using h))
            (fun a b c hab hbc => by
              simp only [decide_eq_true_eq] at *
              omega)
            _ _ hdir c (by rw [List.mem_filter]; exact ⟨hc, by simpa using hcn⟩)
        simpa using hle
      · intro _ hnone
        exact absurd (by simpa using hrmem.2) (hnone _ hrmem.1)
    · rename_i hdir
      split at hs
      · rename_i hall
        simp only [Option.some.injEq, Prod.mk.injEq] at hs
        obtain ⟨hmin, hh⟩ := hs
        refine ⟨hh.symm, ?_, ?_, ?_, ?_⟩
        · intro inner2
          simp only [suggestNextP]
          rw [hfind, hdir, if_pos hall, hmin]
        · rintro ⟨c, hc, hct⟩
          have := List.find?_eq_none.mp hfind c hc
          simp [hct] at this
        · rintro hnc ⟨c, hc, hcn⟩
          have hmem : c ∈ cands.filter (fun a => n_hints.contains a) := by
            rw [List.mem_filter]
            exact ⟨hc, by simpa using hcn⟩
          cases hfl : cands.filter (fun a => n_hints.contains a) with
          | nil =>
            rw [hfl] at hmem
            exact absurd hmem (by simp)
          | cons x xs =>
            rw [hfl] at hdir
            exact absurd hdir (by simp [maxByLast])
        · intro _ _ c hc
          have hnot := minByFirst_min
              (fun a b => decide (nhPos n_hints revd a < nhPos n_hints revd b))
              (fun a b hab => by
                simp only [decide_eq_true_eq] at *
                omega)
              (fun a b c hab hbc => by
                simp only [decide_eq_true_eq] at *
                omega)
              cands r hmin c hc
          simp only [decide_eq_true_eq] at hnot
          omega
      · exact absurd hs (by simp)

/-- **C5 witness.** For the one-crate provider whose `n_hints` is `[a]`
and the candidate list `[a]`, `suggest_next` returns `a`, a member of the
candidate list of maximum stored duration among the direct hits. -/
theorem nhints_suggest_spec_witness :
    (⟨ArtifactType.Link, "a"⟩ : Artifact) ∈ ([⟨.Link, "a"⟩] : List Artifact) ∧
    ∀ c ∈ ([⟨.Link, "a"⟩] : List Artifact),
      c ∈ ([⟨.Link, "a"⟩] : List Artifact) →
      nhDurKey [(⟨.Link, "a"⟩, ⟨.Build, 5, none, "a", ⟨"t", [.Lib]⟩⟩)] c ≤
        nhDurKey [(⟨.Link, "a"⟩, ⟨.Build, 5, none, "a", ⟨"t", [.Lib]⟩⟩)]
          ⟨.Link, "a"⟩ := by
  obtain ⟨h1, -, -, -, h5, -⟩ :=
    nhints_suggest_spec [⟨.Link, "a"⟩] [(⟨.Link, "a"⟩, [⟨.Link, "a"⟩])]
      [(⟨.Link, "a"⟩, ⟨.Build, 5, none, "a", ⟨"t", [.Lib]⟩⟩)] (.repeatSchedule [])
      [⟨.Link, "a"⟩] ⟨.Link, "a"⟩
      (.nHints [⟨.Link, "a"⟩] [(⟨.Link, "a"⟩, [⟨.Link, "a"⟩])]
        [(⟨.Link, "a"⟩, ⟨.Build, 5, none, "a", ⟨"t", [.Lib]⟩⟩)] (.repeatSchedule []))
      (by decide)
  exact ⟨h1, (h5 (by decide) (by decide)).2⟩

/-- Looking a key up after a key-preserving value map. -/
theorem alookup_map_keyval {V W : Type} (g : Artifact → V → W) (m : AMap V) (a : Artifact) :
    alookup a (m.map (fun p => (p.1, g p.1 p.2))) = (alookup a m).map (g a) := by
  induction m with
  | nil => simp [alookup]
  | cons p rest ih =>
    obtain ⟨k2, v2⟩ := p
    simp only [List.map_cons, alookup]
    by_cases hk : k2 = a
    · subst hk
      simp
    · rw [if_neg hk, if_neg hk, ih]

/-- Looking a key up after the `Codegen`-dropping `retain` filter. -/
theorem alookup_drop_codegen (m : AMap TimingInfo) (a : Artifact) :
    alookup a (m.filter (fun p => p.1.typ ≠ ArtifactType.Codegen)) =
      if a.typ = ArtifactType.Codegen then none else alookup a m := by
  induction m with
  | nil => simp [alookup]
  | cons p rest ih =>
    obtain ⟨k2, v2⟩ := p
    rw [List.filter_cons]
    by_cases hk2 : k2.typ = ArtifactType.Codegen
    · rw [if_neg (by simpa using hk2)]
      by_cases hk : k2 = a
      · subst hk
        rw [ih, if_pos hk2]
        simp [alookup, hk2]
      · simp only [alookup, if_neg hk]
        exact ih
    · rw [if_pos (by simpa using hk2)]
      by_cases hk : k2 = a
      · subst hk
        simp [alookup, hk2]
      · simp only [alookup, if_neg hk]
        exact ih

/-- One lookup through the whole folded-timings pipeline: `Codegen` entries
are gone and every other entry has been transformed by `nhFoldVal` twice. -/
theorem alookup_nhFoldedTimings (tm : AMap TimingInfo) (a : Artifact) :
    alookup a (nhFoldedTimings tm) =
      if a.typ = ArtifactType.Codegen then none
      else (alookup a tm).map (fun v => nhFoldVal tm a (nhFoldVal tm a v)) := by
  have h1 : alookup a (nhFoldedTimings tm) =
      if a.typ = ArtifactType.Codegen then none
      else alookup a (nhFoldPass tm (nhFoldPass tm tm)) :=
    alookup_drop_codegen (nhFoldPass tm (nhFoldPass tm tm)) a
  rw [h1]
  by_cases ha : a.typ = ArtifactType.Codegen
  · rw [if_pos ha, if_pos ha]
  · rw [if_neg ha, if_neg ha]
    have h2 : alookup a (nhFoldPass tm (nhFoldPass tm tm)) =
        (alookup a (nhFoldPass tm tm)).map (nhFoldVal tm a) :=
      alookup_map_keyval (nhFoldVal tm) (nhFoldPass tm tm) a
    have h3 : alookup a (nhFoldPass tm tm) = (alookup a tm).map (nhFoldVal tm a) :=
      alookup_map_keyval (nhFoldVal tm) tm a
    rw [h2, h3, Option.map_map]
    rfl

/-- The fold passes keep the key list unchanged. -/
theorem keys_nhFoldPass (old m : AMap TimingInfo) :
    (nhFoldPass old m).map Prod.fst = m.map Prod.fst := by
  show ((m.map fun p => (p.1, nhFoldVal old p.1 p.2)).map Prod.fst) = _
  rw [List.map_map]
  rfl

/-- The folded timing map has no duplicate keys if the input has none. -/
theorem keys_nhFoldedTimings_nodup (tm : AMap TimingInfo)
    (h : (tm.map Prod.fst).Nodup) : ((nhFoldedTimings tm).map Prod.fst).Nodup := by
  have hsub : ((nhFoldedTimings tm).map Prod.fst).Sublist
      ((nhFoldPass tm (nhFoldPass tm tm)).map Prod.fst) :=
    List.Sublist.map Prod.fst (List.filter_sublist _)
  rw [keys_nhFoldPass, keys_nhFoldPass] at hsub
  exact List.Nodup.sublist hsub h

/-- In a map without duplicate keys, every stored pair is found by lookup. -/
theorem alookup_of_mem_nodup {V : Type} (m : AMap V) (k : Artifact) (v : V) :
    (k, v) ∈ m → (m.map Prod.fst).Nodup → alookup k m = some v := by
  induction m with
  | nil =>
    intro hmem _
    simp at hmem
  | cons p rest ih =>
    intro hmem hnd
    obtain ⟨k2, v2⟩ := p
    simp only [List.map_cons, List.nodup_cons] at hnd
    rcases List.mem_cons.mp hmem with heq | htail
    · rw [Prod.mk.injEq] at heq
      obtain ⟨hk, hv⟩ := heq
      subst hk
      subst hv
      simp [alookup]
    · have hk2 : k2 ≠ k := by
        intro h
        refine hnd.1 ?_
        rw [h]
        exact List.mem_map.mpr ⟨(k, v), htail, rfl⟩
      simp only [alookup, if_neg hk2]
      exact ih htail hnd.2

/-- In a list sorted in descending key order, every element left behind by
`take n` has a key no greater than any taken element. -/
theorem take_greatest {α : Type} (key : α → ℤ) (l : List α) (n : ℕ)
    (hpw : l.Pairwise (fun a b => key b ≤ key a)) :
    ∀ a ∈ l.take n, ∀ b ∈ l, b ∉ l.take n → key b ≤ key a := by
  intro a ha b hb hbn
  have hsplit := List.take_append_drop n l
  rw [← hsplit] at hpw
  rw [List.pairwise_append] at hpw
  have hbd : b ∈ l.drop n := by
    rw [← hsplit] at hb
    rcases List.mem_append.mp hb with h | h
    · exact absurd h hbn
    · exact h
  exact hpw.2.2 a ha b hbd

/-- The candidate list of `NHintsProvider::new` holds (at most 75) artifacts
of maximal folded duration: every key left out has a duration no greater
than any candidate. -/
theorem nhCandidates_greatest (tm2 : AMap TimingInfo)
    (hnd : (tm2.map Prod.fst).Nodup) :
    ∀ a ∈ nhCandidates tm2, ∀ b ∈ tm2.map Prod.fst, b ∉ nhCandidates tm2 →
      nhDurKey tm2 b ≤ nhDurKey tm2 a := by
  have hperm := List.perm_insertionSort
      (fun a b : TimingInfo × Artifact => a.1.duration ≤ b.1.duration)
      (tm2.map (fun p => (p.2, p.1)))
  haveI : IsTotal (TimingInfo × Artifact) (fun a b => a.1.duration ≤ b.1.duration) :=
    ⟨fun a b => Int.le_total _ _⟩
  haveI : IsTrans (TimingInfo × Artifact) (fun a b => a.1.duration ≤ b.1.duration) :=
    ⟨fun a b c hab hbc => le_trans hab hbc⟩
  have hsorted := List.sorted_insertionSort
      (fun a b : TimingInfo × Artifact => a.1.duration ≤ b.1.duration)
      (tm2.map (fun p => (p.2, p.1)))
  have hpair : ∀ q ∈ tm2.map (fun p : Artifact × TimingInfo => (p.2, p.1)),
      nhDurKey tm2 q.2 = q.1.duration := by
    intro q hq
    rw [List.mem_map] at hq
    obtain ⟨p, hp, rfl⟩ := hq
    have hl := alookup_of_mem_nodup tm2 p.1 p.2 (by simpa using hp) hnd
    simp [nhDurKey, hl]
  have hpw : (List.insertionSort (fun a b : TimingInfo × Artifact => a.1.duration ≤ b.1.duration)
      (tm2.map (fun p => (p.2, p.1)))).Pairwise
      (fun q q' => nhDurKey tm2 q.2 ≤ nhDurKey tm2 q'.2) := by
    refine List.Pairwise.imp_of_mem (fun hq hq' hle => ?_) hsorted
    rename_i q q'
    rw [hpair q (hperm.subset hq), hpair q' (hperm.subset hq')]
    exact hle
  have hpw2 : ((List.insertionSort (fun a b : TimingInfo × Artifact => a.1.duration ≤ b.1.duration)
      (tm2.map (fun p => (p.2, p.1)))).map Prod.snd).Pairwise
      (fun a b : Artifact => nhDurKey tm2 a ≤ nhDurKey tm2 b) := List.pairwise_map.mpr hpw
  have hpw3 : (((List.insertionSort (fun a b : TimingInfo × Artifact => a.1.duration ≤ b.1.duration)
      (tm2.map (fun p => (p.2, p.1)))).map Prod.snd).reverse).Pairwise
      (fun a b : Artifact => nhDurKey tm2 b ≤ nhDurKey tm2 a) := List.pairwise_reverse.mpr hpw2
  have hpermb : ((((List.insertionSort
      (fun a b : TimingInfo × Artifact => a.1.duration ≤ b.1.duration)
      (tm2.map (fun p => (p.2, p.1)))).map Prod.snd).reverse)).Perm (tm2.map Prod.fst) := by
    refine (List.reverse_perm _).trans ?_
    have h2 := hperm.map Prod.snd
    rw [List.map_map] at h2
    exact h2
  intro a ha b hb hbn
  exact take_greatest (nhDurKey tm2) _ 75 hpw3 a ha b (hpermb.mem_iff.mpr hb) hbn

/-- **C6 (counterexample).** With timings `Metadata a ↦ 2`, `Codegen a ↦ 3`,
`Link x ↦ 5` and a builder in which only `Codegen a` depends on
`Metadata a`: the folded duration of `Metadata a` is `2 + 3 + 3 = 8` — the
`Codegen` sibling duration is added twice (once in the `iter_mut` pass and
once more inside the `retain` closure), not exactly once — and the
insertion order is `[x, Metadata a]`, ascending by direct
reverse-dependency count, although descending-duration order would put
`Metadata a` (duration 8) before `x` (duration 5). -/
theorem nhints_construction_counterexample :
    (alookup ⟨ArtifactType.Metadata, "a"⟩ (nhFoldedTimings
        [(⟨.Metadata, "a"⟩, ⟨.Build, 2, none, "a", ⟨"t", [.Lib]⟩⟩),
         (⟨.Codegen, "a"⟩, ⟨.Build, 3, none, "a", ⟨"t", [.Lib]⟩⟩),
         (⟨.Link, "x"⟩, ⟨.Build, 5, none, "x", ⟨"x", [.Bin]⟩⟩)])).map TimingInfo.duration =
      some 8 ∧
    nhTopN
        ((((DependencyQueueBuilder.new).queue ⟨.Metadata, "a"⟩ []).queue
            ⟨.Codegen, "a"⟩ [⟨.Metadata, "a"⟩]).queue ⟨.Link, "x"⟩ [])
        (nhFoldedTimings
          [(⟨.Metadata, "a"⟩, ⟨.Build, 2, none, "a", ⟨"t", [.Lib]⟩⟩),
           (⟨.Codegen, "a"⟩, ⟨.Build, 3, none, "a", ⟨"t", [.Lib]⟩⟩),
           (⟨.Link, "x"⟩, ⟨.Build, 5, none, "x", ⟨"x", [.Bin]⟩⟩)]) =
      [⟨.Link, "x"⟩, ⟨.Metadata, "a"⟩] ∧
    nhDurKey
        (nhFoldedTimings
          [(⟨.Metadata, "a"⟩, ⟨.Build, 2, none, "a", ⟨"t", [.Lib]⟩⟩),
           (⟨.Codegen, "a"⟩, ⟨.Build, 3, none, "a", ⟨"t", [.Lib]⟩⟩),
           (⟨.Link, "x"⟩, ⟨.Build, 5, none, "x", ⟨"x", [.Bin]⟩⟩)]) ⟨.Link, "x"⟩ <
      nhDurKey
        (nhFoldedTimings
          [(⟨.Metadata, "a"⟩, ⟨.Build, 2, none, "a", ⟨"t", [.Lib]⟩⟩),
           (⟨.Codegen, "a"⟩, ⟨.Build, 3, none, "a", ⟨"t", [.Lib]⟩⟩),
           (⟨.Link, "x"⟩, ⟨.Build, 5, none, "x", ⟨"x", [.Bin]⟩⟩)]) ⟨.Metadata, "a"⟩ := by
  decide

/-- **C6 (amended).** What the construction of the N-Hints provider really
does (there is no `separate_codegen` flag on this provider): every `Codegen`
sibling duration is added to its `Metadata` entry **twice** (once in the
`iter_mut` pass and once more inside the `retain` closure) and the `Codegen`
entries are then dropped; the candidate list holds at most 75 artifacts and
every key left out has a folded duration no greater than any candidate's;
the candidates are then inserted one at a time in **ascending** order of
direct reverse-dependency count (stably re-sorted), not in
descending-duration order. -/
theorem nhints_construction_spec (tm : AMap TimingInfo) (deps : DependencyQueueBuilder)
    (hnd : (tm.map Prod.fst).Nodup) :
    (∀ k v c, k.typ = ArtifactType.Metadata → alookup k tm = some v →
      alookup ⟨ArtifactType.Codegen, k.package_id⟩ tm = some c →
      alookup k (nhFoldedTimings tm) =
        some { v with duration := v.duration + c.duration + c.duration }) ∧
    (∀ k, k.typ = ArtifactType.Codegen → alookup k (nhFoldedTimings tm) = none) ∧
    (∀ k v, k.typ ≠ ArtifactType.Metadata → k.typ ≠ ArtifactType.Codegen →
      alookup k tm = some v → alookup k (nhFoldedTimings tm) = some v) ∧
    (nhCandidates (nhFoldedTimings tm)).length ≤ 75 ∧
    (∀ a ∈ nhCandidates (nhFoldedTimings tm),
      ∀ b ∈ (nhFoldedTimings tm).map Prod.fst, b ∉ nhCandidates (nhFoldedTimings tm) →
        nhDurKey (nhFoldedTimings tm) b ≤ nhDurKey (nhFoldedTimings tm) a) ∧
    (nhTopN deps (nhFoldedTimings tm)).Perm (nhCandidates (nhFoldedTimings tm)) ∧
    (nhTopN deps (nhFoldedTimings tm)).Pairwise
      (fun a b => nhRevDepCount deps a ≤ nhRevDepCount deps b) := by
  refine ⟨?_, ?_, ?_, ?_, ?_, ?_, ?_⟩
  · intro k v c hk hv hc
    rw [alookup_nhFoldedTimings, if_neg (by simp [hk]), hv]
    simp only [Option.map_some']
    have h1 : nhFoldVal tm k v = { v with duration := v.duration + c.duration } := by
      simp [nhFoldVal, hk, hc]
    rw [h1]
    have h2 : nhFoldVal tm k { v with duration := v.duration + c.duration } =
        { v with duration := v.duration + c.duration + c.duration } := by
      simp [nhFoldVal, hk, hc]
    rw [h2]
  · intro k hk
    rw [alookup_nhFoldedTimings, if_pos hk]
  · intro k v hk1 hk2 hv
    rw [alookup_nhFoldedTimings, if_neg hk2, hv]
    simp [nhFoldVal, hk1]
  · simp only [nhCandidates]
    rw [List.length_take]
    exact min_le_left _ _
  · exact nhCandidates_greatest _ (keys_nhFoldedTimings_nodup tm hnd)
  · exact List.perm_insertionSort _ _
  · haveI : IsTotal Artifact (fun a b => nhRevDepCount deps a ≤ nhRevDepCount deps b) :=
      ⟨fun a b => Nat.le_total _ _⟩
    haveI : IsTrans Artifact (fun a b => nhRevDepCount deps a ≤ nhRevDepCount deps b) :=
      ⟨fun a b c hab hbc => le_trans hab hbc⟩
    exact List.sorted_insertionSort _ _

/-- **C6 witness.** At the concrete three-entry timing map the double fold
yields a folded duration of `8` for `Metadata a`, and the insertion order of
the construction is sorted by ascending direct reverse-dependency count. -/
theorem nhints_construction_spec_witness :
    (alookup ⟨ArtifactType.Metadata, "a"⟩ (nhFoldedTimings
        [(⟨.Metadata, "a"⟩, ⟨.Build, 2, none, "a", ⟨"t", [.Lib]⟩⟩),
         (⟨.Codegen, "a"⟩, ⟨.Build, 3, none, "a", ⟨"t", [.Lib]⟩⟩),
         (⟨.Link, "x"⟩, ⟨.Build, 5, none, "x", ⟨"x", [.Bin]⟩⟩)])).map TimingInfo.duration =
      some 8 ∧
    (nhTopN
        ((((DependencyQueueBuilder.new).queue ⟨.Metadata, "a"⟩ []).queue
            ⟨.Codegen, "a"⟩ [⟨.Metadata, "a"⟩]).queue ⟨.Link, "x"⟩ [])
        (nhFoldedTimings
          [(⟨.Metadata, "a"⟩, ⟨.Build, 2, none, "a", ⟨"t", [.Lib]⟩⟩),
           (⟨.Codegen, "a"⟩, ⟨.Build, 3, none, "a", ⟨"t", [.Lib]⟩⟩),
           (⟨.Link, "x"⟩, ⟨.Build, 5, none, "x", ⟨"x", [.Bin]⟩⟩)])).Pairwise
      (fun a b =>
        nhRevDepCount ((((DependencyQueueBuilder.new).queue ⟨.Metadata, "a"⟩ []).queue
            ⟨.Codegen, "a"⟩ [⟨.Metadata, "a"⟩]).queue ⟨.Link, "x"⟩ []) a ≤
          nhRevDepCount ((((DependencyQueueBuilder.new).queue ⟨.Metadata, "a"⟩ []).queue
            ⟨.Codegen, "a"⟩ [⟨.Metadata, "a"⟩]).queue ⟨.Link, "x"⟩ []) b) := by
  obtain ⟨h1, -, -, -, -, -, h7⟩ :=
    nhints_construction_spec
      [(⟨.Metadata, "a"⟩, ⟨.Build, 2, none, "a", ⟨"t", [.Lib]⟩⟩),
       (⟨.Codegen, "a"⟩, ⟨.Build, 3, none, "a", ⟨"t", [.Lib]⟩⟩),
       (⟨.Link, "x"⟩, ⟨.Build, 5, none, "x", ⟨"x", [.Bin]⟩⟩)]
      ((((DependencyQueueBuilder.new).queue ⟨.Metadata, "a"⟩ []).queue
          ⟨.Codegen, "a"⟩ [⟨.Metadata, "a"⟩]).queue ⟨.Link, "x"⟩ [])
      (by decide)
  refine ⟨?_, h7⟩
  rw [h1 ⟨.Metadata, "a"⟩ ⟨.Build, 2, none, "a", ⟨"t", [.Lib]⟩⟩
      ⟨.Build, 3, none, "a", ⟨"t", [.Lib]⟩⟩ (by decide) (by decide) (by decide)]
  decide

/-! ## Runner makespan bounds: container and slot-list lemmas -/

theorem alookup_aerase_self {V : Type} (k : Artifact) (m : AMap V) :
    alookup k (aerase k m) = none := by
  induction m with
  | nil => rfl
  | cons p rest ih =>
    obtain ⟨k2, v2⟩ := p
    rw [aerase, List.filter_cons]
    by_cases hk : k2 = k
    · rw [if_neg (by simpa using hk)]
      exact ih
    · rw [if_pos (by simpa using hk)]
      simp only [alookup, if_neg hk]
      exact ih

theorem alookup_aerase_ne {V : Type} (k s : Artifact) (m : AMap V) (h : s ≠ k) :
    alookup s (aerase k m) = alookup s m := by
  induction m with
  | nil => rfl
  | cons p rest ih =>
    obtain ⟨k2, v2⟩ := p
    have ih2 : alookup s (List.filter (fun p => decide (p.1 ≠ k)) rest) = alookup s rest := ih
    rw [aerase, List.filter_cons]
    by_cases hk : k2 = k
    · rw [if_neg (by simpa using hk), ih2]
      show _ = if k2 = s then some v2 else alookup s rest
      rw [if_neg (fun he : k2 = s => h (he ▸ hk))]
    · rw [if_pos (by simpa using hk)]
      show (if k2 = s then some v2 else alookup s (List.filter (fun p => decide (p.1 ≠ k)) rest)) =
        (if k2 = s then some v2 else alookup s rest)
      by_cases hs : k2 = s
      · rw [if_pos hs, if_pos hs]
      · rw [if_neg hs, if_neg hs]
        exact ih2

theorem mem_keys_aerase {V : Type} (k a : Artifact) (m : AMap V) :
    a ∈ (aerase k m).map Prod.fst ↔ a ∈ m.map Prod.fst ∧ a ≠ k := by
  rw [aerase]
  constructor
  · intro h
    rw [List.mem_map] at h
    obtain ⟨p, hp, rfl⟩ := h
    rw [List.mem_filter] at hp
    exact ⟨List.mem_map.mpr ⟨p, hp.1, rfl⟩, by simpa using hp.2⟩
  · rintro ⟨h1, h2⟩
    rw [List.mem_map] at h1
    obtain ⟨p, hp, rfl⟩ := h1
    exact List.mem_map.mpr ⟨p, List.mem_filter.mpr ⟨hp, by simpa using h2⟩, rfl⟩

theorem keys_aerase_nodup {V : Type} (k : Artifact) (m : AMap V)
    (h : (m.map Prod.fst).Nodup) : ((aerase k m).map Prod.fst).Nodup :=
  List.Nodup.sublist (List.Sublist.map Prod.fst (List.filter_sublist m)) h

theorem mem_keys_isSome {V : Type} (a : Artifact) (m : AMap V) :
    a ∈ m.map Prod.fst ↔ (alookup a m).isSome := by
  induction m with
  | nil => simp [alookup]
  | cons p rest ih =>
    obtain ⟨k2, v2⟩ := p
    simp only [List.map_cons, List.mem_cons, alookup]
    by_cases hk : k2 = a
    · subst hk
      simp
    · rw [if_neg hk]
      simp only [ih]
      constructor
      · rintro (h | h)
        · exact absurd h.symm hk
        · exact h
      · exact Or.inr

/-- Filling the first empty slot keeps the slot count. -/
theorem replaceFirstNone_len (t : Task) :
    ∀ (slots slots2 : List (Option Task)), replaceFirstNone t slots = some slots2 →
      slots2.length = slots.length := by
  intro slots
  induction slots with
  | nil =>
    intro slots2 h
    exact absurd h (by simp [replaceFirstNone])
  | cons s rest ih =>
    intro slots2 h
    cases s with
    | none =>
      rw [replaceFirstNone] at h
      obtain rfl := Option.some.inj h
      simp
    | some u =>
      rw [replaceFirstNone] at h
      cases hr : replaceFirstNone t rest with
      | none =>
        rw [hr] at h
        exact absurd h (by simp)
      | some r =>
        rw [hr] at h
        obtain rfl := Option.some.inj h
        simp [ih r hr]

/-- Filling the first empty slot adds exactly the new task to the running
set. -/
theorem replaceFirstNone_occupied (t : Task) :
    ∀ (slots slots2 : List (Option Task)), replaceFirstNone t slots = some slots2 →
      (occupied slots2).Perm (t :: occupied slots) := by
  intro slots
  induction slots with
  | nil =>
    intro slots2 h
    exact absurd h (by simp [replaceFirstNone])
  | cons s rest ih =>
    intro slots2 h
    cases s with
    | none =>
      rw [replaceFirstNone] at h
      obtain rfl := Option.some.inj h
      simp [occupied]
    | some u =>
      rw [replaceFirstNone] at h
      cases hr : replaceFirstNone t rest with
      | none =>
        rw [hr] at h
        exact absurd h (by simp)
      | some r =>
        rw [hr] at h
        obtain rfl := Option.some.inj h
        have h2 := ih r hr
        show (u :: occupied r).Perm (t :: u :: occupied rest)
        exact (h2.cons u).trans (List.Perm.swap t u (occupied rest))

/-- A ready candidate has an empty remaining dependency set. -/
theorem candidates_alookup (q : DependencyQueue) (a : Artifact)
    (hnd : (q.dep_map.map Prod.fst).Nodup) (h : a ∈ q.candidates) :
    alookup a q.dep_map = some [] := by
  rw [DependencyQueue.candidates, List.mem_filterMap] at h
  obtain ⟨p, hp, hpa⟩ := h
  by_cases he : p.2 = []
  · rw [if_pos he] at hpa
    obtain rfl := Option.some.inj hpa
    have : (p.1, p.2) ∈ q.dep_map := hp
    rw [he] at this
    exact alookup_of_mem_nodup _ _ _ this hnd
  · rw [if_neg he] at hpa
    exact absurd hpa (by simp)

/-- A `dequeue` that returns no artifact changes only the hint state. -/
theorem dequeue_none_effect (q q2 : DependencyQueue)
    (h : q.dequeue = some (none, q2)) : q2.dep_map = q.dep_map := by
  rw [DependencyQueue.dequeue] at h
  cases hs : suggestNextP q.hints q.candidates with
  | none =>
    rw [hs] at h
    exact absurd h (by simp)
  | some pr =>
    rw [hs] at h
    obtain ⟨oa, hp⟩ := pr
    cases oa with
    | none =>
      have h2 : (some (none, { q with hints := hp }) :
          Option (Option Artifact × DependencyQueue)) = some (none, q2) := h
      simp only [Option.some.injEq, Prod.mk.injEq] at h2
      rw [← h2.2]
    | some key =>
      by_cases hks : (alookup key q.dep_map).isSome
      · have h2 : (some (some key, { q with dep_map := aerase key q.dep_map, hints := hp }) :
            Option (Option Artifact × DependencyQueue)) = some (none, q2) := by
          rw [← h]
          show _ = if (alookup key q.dep_map).isSome then _ else none
          rw [if_pos hks]
        simp at h2
      · have h2 : (if (alookup key q.dep_map).isSome then
            some (some key, { q with dep_map := aerase key q.dep_map, hints := hp })
          else none) = some (none, q2) := h
        rw [if_neg (by simpa using hks)] at h2
        exact absurd h2 (by simp)

/-- A `dequeue` that returns an artifact returns a ready one and erases its
entry. -/
theorem dequeue_some_effect (q q2 : DependencyQueue) (a : Artifact)
    (h : q.dequeue = some (some a, q2)) :
    a ∈ q.candidates ∧ q2.dep_map = aerase a q.dep_map := by
  rw [DependencyQueue.dequeue] at h
  cases hs : suggestNextP q.hints q.candidates with
  | none =>
    rw [hs] at h
    exact absurd h (by simp)
  | some pr =>
    rw [hs] at h
    obtain ⟨oa, hp⟩ := pr
    cases oa with
    | none =>
      have h2 : (some (none, { q with hints := hp }) :
          Option (Option Artifact × DependencyQueue)) = some (some a, q2) := h
      simp at h2
    | some key =>
      have h2 : (if (alookup key q.dep_map).isSome then
          some (some key, { q with dep_map := aerase key q.dep_map, hints := hp })
        else none) = some (some a, q2) := h
      by_cases hks : (alookup key q.dep_map).isSome
      · rw [if_pos hks] at h2
        simp only [Option.some.injEq, Prod.mk.injEq] at h2
        obtain ⟨hka, hq⟩ := h2
        subst hka
        exact ⟨suggestNextP_mem _ _ _ _ hs, by rw [← hq]⟩
      · rw [if_neg (by simpa using hks)] at h2
        exact absurd h2 (by simp)

theorem keys_aupdate {V : Type} (k : Artifact) (v : V) (m : AMap V) :
    (aupdate k v m).map Prod.fst = m.map Prod.fst := by
  induction m with
  | nil => rfl
  | cons p rest ih =>
    obtain ⟨k2, v2⟩ := p
    show ((if k2 = k then (k, v) else (k2, v2)) :: aupdate k v rest).map Prod.fst = _
    by_cases hk : k2 = k
    · rw [if_pos hk]
      simp only [List.map_cons, ih]
      rw [hk]
    · rw [if_neg hk]
      simp only [List.map_cons, ih]

/-- One `finishStep` keeps the key set and either leaves an entry alone or
erases `node` from it. -/
theorem finishStep_effect (node : Artifact) (st st' : List Artifact × AMap ASet)
    (dep : Artifact) (h : DependencyQueue.finishStep node st dep = some st') :
    st'.2.map Prod.fst = st.2.map Prod.fst ∧
    ∀ s ds, alookup s st.2 = some ds →
      ∃ ds', alookup s st'.2 = some ds' ∧ (∀ p ∈ ds', p ∈ ds) ∧
        ∀ p ∈ ds, p ∉ ds' → p = node := by
  rw [DependencyQueue.finishStep] at h
  cases he : alookup dep st.2 with
  | none =>
    rw [he] at h
    exact absurd h (by simp)
  | some edges =>
    rw [he] at h
    have h2 : (if node ∈ edges then
        some (if edges.erase node = [] then st.1 ++ [dep] else st.1,
          aupdate dep (edges.erase node) st.2)
      else none) = some st' := h
    clear h
    by_cases hn : node ∈ edges
    · rw [if_pos hn] at h2
      obtain rfl := Option.some.inj h2
      refine ⟨keys_aupdate dep (edges.erase node) st.2, ?_⟩
      intro s ds hds
      by_cases hsd : s = dep
      · subst hsd
        rw [he] at hds
        obtain rfl := Option.some.inj hds
        refine ⟨edges.erase node, ?_, fun p hp => List.mem_of_mem_erase hp, ?_⟩
        · show alookup s (aupdate s (edges.erase node) st.2) = _
          rw [alookup_aupdate_self, he]
          rfl
        · intro p hp hpn
          by_contra hne
          exact hpn ((List.mem_erase_of_ne hne).mpr hp)
      · refine ⟨ds, ?_, fun p hp => hp, fun p hp hpn => absurd hp hpn⟩
        show alookup s (aupdate dep (edges.erase node) st.2) = some ds
        rw [alookup_aupdate_ne _ _ _ _ hsd]
        exact hds
    · rw [if_neg hn] at h2
      exact absurd h2 (by simp)

/-- The whole `finishStep` fold, membership-wise. -/
theorem finishFold_effect (node : Artifact) :
    ∀ (l : List Artifact) (st out : List Artifact × AMap ASet),
      List.foldlM (DependencyQueue.finishStep node) st l = some out →
      out.2.map Prod.fst = st.2.map Prod.fst ∧
      ∀ s ds, alookup s st.2 = some ds →
        ∃ ds', alookup s out.2 = some ds' ∧ (∀ p ∈ ds', p ∈ ds) ∧
          ∀ p ∈ ds, p ∉ ds' → p = node := by
  intro l
  induction l with
  | nil =>
    intro st out h
    simp only [List.foldlM_nil, Option.pure_def, Option.some.injEq] at h
    subst h
    exact ⟨rfl, fun s ds hds => ⟨ds, hds, fun p hp => hp, fun p hp hpn => absurd hp hpn⟩⟩
  | cons dep rest ih =>
    intro st out h
    rw [List.foldlM_cons] at h
    cases hstep : DependencyQueue.finishStep node st dep with
    | none =>
      rw [hstep] at h
      exact absurd h (by simp)
    | some mid =>
      rw [hstep] at h
      have h2 : rest.foldlM (DependencyQueue.finishStep node) mid = some out := h
      obtain ⟨hk1, hrel1⟩ := finishStep_effect node st mid dep hstep
      obtain ⟨hk2, hrel2⟩ := ih mid out h2
      refine ⟨hk2.trans hk1, ?_⟩
      intro s ds hds
      obtain ⟨ds1, hds1, hsub1, hrem1⟩ := hrel1 s ds hds
      obtain ⟨ds2, hds2, hsub2, hrem2⟩ := hrel2 s ds1 hds1
      refine ⟨ds2, hds2, fun p hp => hsub1 p (hsub2 p hp), ?_⟩
      intro p hp hpn
      by_cases hp1 : p ∈ ds1
      · exact hrem2 p hp1 hpn
      · exact hrem1 p hp hp1

/-- `DependencyQueue::finish` only shrinks dependency sets, removing only
the finished node, and keeps keys, reverse map and hints. -/
theorem finish_effect (q : DependencyQueue) (node : Artifact)
    (ready : List Artifact) (q2 : DependencyQueue)
    (h : q.finish node = some (ready, q2)) :
    q2.reverse_dep_map = q.reverse_dep_map ∧ q2.hints = q.hints ∧
    q2.dep_map.map Prod.fst = q.dep_map.map Prod.fst ∧
    ∀ s ds, alookup s q.dep_map = some ds →
      ∃ ds', alookup s q2.dep_map = some ds' ∧ (∀ p ∈ ds', p ∈ ds) ∧
        ∀ p ∈ ds, p ∉ ds' → p = node := by
  rw [DependencyQueue.finish] at h
  cases hrd : alookup node q.reverse_dep_map with
  | none =>
    rw [hrd] at h
    have h2 : (some ([], q) : Option (List Artifact × DependencyQueue)) = some (ready, q2) := h
    simp only [Option.some.injEq, Prod.mk.injEq] at h2
    obtain ⟨-, hq⟩ := h2
    subst hq
    exact ⟨rfl, rfl, rfl,
      fun s ds hds => ⟨ds, hds, fun p hp => hp, fun p hp hpn => absurd hp hpn⟩⟩
  | some rds =>
    rw [hrd] at h
    have hb : (rds.foldlM (DependencyQueue.finishStep node) ([], q.dep_map)).map
        (fun st => (st.1, { q with dep_map := st.2 })) = some (ready, q2) := h
    clear h
    cases hfold : rds.foldlM (DependencyQueue.finishStep node) ([], q.dep_map) with
    | none =>
      rw [hfold] at hb
      exact absurd hb (by simp)
    | some st =>
      rw [hfold] at hb
      have h2 : (some (st.1, { q with dep_map := st.2 }) :
          Option (List Artifact × DependencyQueue)) = some (ready, q2) := hb
      simp only [Option.some.injEq, Prod.mk.injEq] at h2
      obtain ⟨-, hq⟩ := h2
      subst hq
      obtain ⟨hk, hrel⟩ := finishFold_effect node rds ([], q.dep_map) st hfold
      exact ⟨rfl, rfl, hk, hrel⟩

/-- The `retain_mut` round: the removed tasks all end at `endT`, slots and
keys are preserved, the counter decreases by the number of removals, and
dependency sets only lose finished artifacts. -/
theorem finishRound_spec (endT : ℕ) :
    ∀ (slots : List (Option Task)) (q : DependencyQueue) (cnt : ℕ)
      (out : List (Option Task) × DependencyQueue × ℕ),
      finishRound endT slots q cnt = some out →
      ∃ rem : List Task,
        out.1.length = slots.length ∧
        (occupied slots).Perm (occupied out.1 ++ rem) ∧
        (∀ t ∈ rem, t.end_time = endT ∧ t ∈ occupied slots) ∧
        out.2.2 = cnt - rem.length ∧
        out.2.1.reverse_dep_map = q.reverse_dep_map ∧
        out.2.1.hints = q.hints ∧
        out.2.1.dep_map.map Prod.fst = q.dep_map.map Prod.fst ∧
        ∀ s ds, alookup s q.dep_map = some ds →
          ∃ ds', alookup s out.2.1.dep_map = some ds' ∧ (∀ p ∈ ds', p ∈ ds) ∧
            ∀ p ∈ ds, p ∉ ds' → ∃ t ∈ rem, t.artifact = p := by
  intro slots
  induction slots with
  | nil =>
    intro q cnt out h
    rw [finishRound] at h
    obtain rfl := Option.some.inj h
    exact ⟨[], rfl, by simp [occupied], by simp, by simp, rfl, rfl, rfl,
      fun s ds hds => ⟨ds, hds, fun p hp => hp, fun p hp hpn => absurd hp hpn⟩⟩
  | cons slot rest ih =>
    intro q cnt out h
    cases slot with
    | none =>
      rw [finishRound] at h
      cases hr : finishRound endT rest q cnt with
      | none =>
        rw [hr] at h
        exact absurd h (by simp)
      | some r =>
        rw [hr] at h
        have h2 : (some (none :: r.1, r.2) :
            Option (List (Option Task) × DependencyQueue × ℕ)) = some out := h
        obtain rfl := Option.some.inj h2
        obtain ⟨rem, hlen, hperm, hrem, hcnt, hrd, hh, hkeys, hrel⟩ := ih q cnt r hr
        refine ⟨rem, by simpa using hlen, ?_, ?_, hcnt, hrd, hh, hkeys, hrel⟩
        · show (occupied (none :: rest)).Perm (occupied (none :: r.1) ++ rem)
          simpa [occupied] using hperm
        · intro t ht
          obtain ⟨h1b, h2b⟩ := hrem t ht
          exact ⟨h1b, by simpa [occupied] using h2b⟩
    | some t =>
      rw [finishRound] at h
      by_cases hend : t.end_time = endT
      · rw [if_pos hend] at h
        cases hfin : q.finish t.artifact with
        | none =>
          rw [hfin] at h
          exact absurd h (by simp)
        | some pr =>
          rw [hfin] at h
          obtain ⟨rdy, q2⟩ := pr
          have h2 : (finishRound endT rest q2 (cnt - 1)).map
              (fun r => (none :: r.1, r.2)) = some out := h
          cases hr : finishRound endT rest q2 (cnt - 1) with
          | none =>
            rw [hr] at h2
            exact absurd h2 (by simp)
          | some r =>
            rw [hr] at h2
            have h3 : (some (none :: r.1, r.2) :
                Option (List (Option Task) × DependencyQueue × ℕ)) = some out := h2
            obtain rfl := Option.some.inj h3
            obtain ⟨rem', hlen, hperm, hrem, hcnt, hrd, hh, hkeys, hrel⟩ :=
              ih q2 (cnt - 1) r hr
            obtain ⟨hrd2, hh2, hkeys2, hrel2⟩ := finish_effect q t.artifact rdy q2 hfin
            refine ⟨t :: rem', by simpa using hlen, ?_, ?_, ?_,
              hrd.trans hrd2, hh.trans hh2, hkeys.trans hkeys2, ?_⟩
            · show (t :: occupied rest).Perm (occupied r.1 ++ t :: rem')
              exact (hperm.cons t).trans List.perm_middle.symm
            · intro u hu
              rcases List.mem_cons.mp hu with rfl | hu2
              · exact ⟨hend, by simp [occupied]⟩
              · obtain ⟨h1b, h2b⟩ := hrem u hu2
                exact ⟨h1b, List.mem_cons_of_mem t h2b⟩
            · show r.2.2 = cnt - (t :: rem').length
              rw [hcnt]
              simp only [List.length_cons]
              omega
            · intro s ds hds
              obtain ⟨ds1, hds1, hsub1, hrem1⟩ := hrel2 s ds hds
              obtain ⟨ds2, hds2, hsub2, hrem2⟩ := hrel s ds1 hds1
              refine ⟨ds2, hds2, fun p hp => hsub1 p (hsub2 p hp), ?_⟩
              intro p hp hpn
              by_cases hp1 : p ∈ ds1
              · obtain ⟨u, hu, hupa⟩ := hrem2 p hp1 hpn
                exact ⟨u, List.mem_cons_of_mem t hu, hupa⟩
              · exact ⟨t, List.mem_cons_self t rem', (hrem1 p hp hp1).symm⟩
      · rw [if_neg hend] at h
        cases hr : finishRound endT rest q cnt with
        | none =>
          rw [hr] at h
          exact absurd h (by simp)
        | some r =>
          rw [hr] at h
          have h2 : (some (some t :: r.1, r.2) :
              Option (List (Option Task) × DependencyQueue × ℕ)) = some out := h
          obtain rfl := Option.some.inj h2
          obtain ⟨rem, hlen, hperm, hrem, hcnt, hrd, hh, hkeys, hrel⟩ := ih q cnt r hr
          refine ⟨rem, by simpa using hlen, ?_, ?_, hcnt, hrd, hh, hkeys, hrel⟩
          · show (t :: occupied rest).Perm ((t :: occupied r.1) ++ rem)
            exact hperm.cons t
          · intro u hu
            obtain ⟨h1b, h2b⟩ := hrem u hu
            exact ⟨h1b, List.mem_cons_of_mem t h2b⟩

theorem sum_end_const (endT : ℕ) :
    ∀ rem : List Task, (∀ t ∈ rem, t.end_time = endT) →
      (rem.map Task.end_time).sum = rem.length * endT := by
  intro rem
  induction rem with
  | nil => simp
  | cons t rest ih =>
    intro h
    simp only [List.map_cons, List.sum_cons, List.length_cons]
    rw [h t (by simp), ih (fun u hu => h u (List.mem_cons_of_mem t hu))]
    ring

theorem occupied_len_le (slots : List (Option Task)) :
    (occupied slots).length ≤ slots.length := by
  induction slots with
  | nil => simp [occupied]
  | cons s rest ih =>
    cases s with
    | none =>
      show (occupied rest).length ≤ rest.length + 1
      omega
    | some t =>
      show (t :: occupied rest).length ≤ rest.length + 1
      simp only [List.length_cons]
      omega

/-- `run_next_task_to_completion` preserves the invariant and never moves
time backwards. -/
theorem run_next_inv (q0 : DependencyQueue) (tm : AMap TimingInfo) (n : ℕ)
    (S S' : Runner) (hI : RunInv q0 tm n S)
    (h : S.run_next_task_to_completion = some S') :
    RunInv q0 tm n S' ∧ S.current_time ≤ S'.current_time := by
  rw [Runner.run_next_task_to_completion] at h
  cases hmin : minByFirst (fun t u => decide (t.end_time < u.end_time))
      (occupied S.running_tasks) with
  | none =>
    rw [hmin] at h
    obtain rfl := Option.some.inj h
    exact ⟨hI, le_refl _⟩
  | some t0 =>
    rw [hmin] at h
    have hb : (finishRound t0.end_time S.running_tasks S.queue S.running_tasks_count).map
        (fun r =>
          { S with running_tasks := r.1, queue := r.2.1, running_tasks_count := r.2.2,
                   current_time := t0.end_time }) = some S' := h
    clear h
    cases hfr : finishRound t0.end_time S.running_tasks S.queue S.running_tasks_count with
    | none =>
      rw [hfr] at hb
      exact absurd hb (by simp)
    | some r =>
      rw [hfr] at hb
      have h2 : (some
          { S with running_tasks := r.1, queue := r.2.1, running_tasks_count := r.2.2,
                   current_time := t0.end_time } :
        Option Runner) = some S' := hb
      obtain rfl := Option.some.inj h2
      obtain ⟨rem, hlen, hperm, hrem, hcnt, hrd, hh, hkeys, hrel⟩ :=
        finishRound_spec t0.end_time S.running_tasks S.queue S.running_tasks_count r hfr
      have hminle : ∀ z ∈ occupied S.running_tasks, t0.end_time ≤ z.end_time := by
        intro z hz
        have := minByFirst_min (fun t u => decide (t.end_time < u.end_time))
          (fun a b hab => by
            simp only [decide_eq_true_eq] at *
            omega)
          (fun a b c hab hbc => by
            simp only [decide_eq_true_eq] at *
            omega)
          _ _ hmin z hz
        simp only [decide_eq_true_eq] at this
        omega
      have hct_le : S.current_time ≤ t0.end_time :=
        hI.task_live t0 (minByFirst_mem _ _ _ hmin)
      have hocc_sub : ∀ u ∈ occupied r.1, u ∈ occupied S.running_tasks := by
        intro u hu
        exact hperm.symm.subset (List.mem_append_left rem hu)
      have hlenocc : (occupied S.running_tasks).length =
          (occupied r.1).length + rem.length := by
        have := hperm.length_eq
        simpa using this
      refine ⟨?_, hct_le⟩
      refine
        { slots_len := ?_, count_eq := ?_, timings_eq := hI.timings_eq,
          task_trace := ?_, task_live := ?_, keys_sub := ?_, keys_nodup := ?_,
          cover := ?_, trace_sub := hI.trace_sub, trace_fresh := ?_,
          trace_nodup := hI.trace_nodup, dep_state := ?_, trace_dep := hI.trace_dep,
          trace_end := ?_, work := ?_ }
      · show r.1.length = n
        rw [hlen]
        exact hI.slots_len
      · show r.2.2 = (occupied r.1).length
        rw [hcnt, hI.count_eq, hlenocc]
        omega
      · intro t ht
        exact hI.task_trace t (hocc_sub t ht)
      · intro t ht
        exact hminle t (hocc_sub t ht)
      · intro a ha
        refine hI.keys_sub a ?_
        show a ∈ S.queue.dep_map.map Prod.fst
        rw [← hkeys]
        exact ha
      · show (r.2.1.dep_map.map Prod.fst).Nodup
        rw [hkeys]
        exact hI.keys_nodup
      · intro a ha
        rcases hI.cover a ha with hc | hc
        · left
          show a ∈ r.2.1.dep_map.map Prod.fst
          rw [hkeys]
          exact hc
        · right
          exact hc
      · intro a ha
        have := hI.trace_fresh a ha
        show a ∉ r.2.1.dep_map.map Prod.fst
        rw [hkeys]
        exact this
      · intro a ds0 ds hds0 hds
        have hmem : a ∈ S.queue.dep_map.map Prod.fst := by
          rw [← hkeys]
          exact (mem_keys_isSome a _).mpr (by rw [hds]; rfl)
        obtain ⟨dsS, hdsS⟩ := Option.isSome_iff_exists.mp ((mem_keys_isSome a _).mp hmem)
        obtain ⟨hsubS, hremS⟩ := hI.dep_state a ds0 dsS hds0 hdsS
        obtain ⟨ds', hds', hsub', hrem'⟩ := hrel a dsS hdsS
        rw [hds] at hds'
        obtain rfl := Option.some.inj hds'
        refine ⟨fun p hp => hsubS p (hsub' p hp), ?_⟩
        intro p hp0 hpn
        by_cases hpS : p ∈ dsS
        · obtain ⟨t, htrem, hta⟩ := hrem' p hpS hpn
          obtain ⟨hte, hto⟩ := hrem t htrem
          obtain ⟨sp, hsp, hspe⟩ := hI.task_trace t hto
          rw [hta] at hsp hspe
          exact ⟨sp, hsp, by rw [hspe, hte]⟩
        · obtain ⟨sp, hsp, hsple⟩ := hremS p hp0 hpS
          exact ⟨sp, hsp, le_trans hsple hct_le⟩
      · intro e he
        rcases hI.trace_end e he with hc | ⟨t, hto, hta, hte⟩
        · left
          exact le_trans hc hct_le
        · rcases List.mem_append.mp (hperm.subset hto) with h1 | h1
          · right
            exact ⟨t, h1, hta, hte⟩
          · left
            rw [← hte, (hrem t h1).1]
      · show (S.trace.map (fun e => dms tm e.2)).sum +
            (occupied r.1).length * t0.end_time ≤
          n * t0.end_time + ((occupied r.1).map Task.end_time).sum
        have hsum : ((occupied S.running_tasks).map Task.end_time).sum =
            ((occupied r.1).map Task.end_time).sum + rem.length * t0.end_time := by
          rw [(hperm.map Task.end_time).sum_eq]
          rw [List.map_append, List.sum_append,
            sum_end_const t0.end_time rem (fun t ht => (hrem t ht).1)]
        have hbefore := hI.work
        rw [hlenocc, hsum] at hbefore
        have hAB : (occupied r.1).length + rem.length ≤ n := by
          rw [← hlenocc, ← hI.slots_len]
          exact occupied_len_le _
        have hx : t0.end_time = S.current_time + (t0.end_time - S.current_time) := by
          omega
        have e1 : n * t0.end_time =
            n * S.current_time + n * (t0.end_time - S.current_time) := by
          nth_rewrite 1 [hx]
          ring
        have e2 : (occupied r.1).length * t0.end_time =
            (occupied r.1).length * S.current_time +
              (occupied r.1).length * (t0.end_time - S.current_time) := by
          nth_rewrite 1 [hx]
          ring
        have e3 : rem.length * t0.end_time =
            rem.length * S.current_time +
              rem.length * (t0.end_time - S.current_time) := by
          nth_rewrite 1 [hx]
          ring
        have e4 : ((occupied r.1).length + rem.length) * S.current_time =
            (occupied r.1).length * S.current_time +
              rem.length * S.current_time := by
          ring
        have e5 : (occupied r.1).length * (t0.end_time - S.current_time) +
            rem.length * (t0.end_time - S.current_time) ≤
              n * (t0.end_time - S.current_time) := by
          calc (occupied r.1).length * (t0.end_time - S.current_time) +
              rem.length * (t0.end_time - S.current_time) =
                ((occupied r.1).length + rem.length) *
                  (t0.end_time - S.current_time) := by ring
            _ ≤ n * (t0.end_time - S.current_time) :=
                Nat.mul_le_mul_right _ hAB
        omega

/-- The scheduling loop preserves the invariant and keeps the clock. -/
theorem scheduleAux_inv (q0 : DependencyQueue) (tm : AMap TimingInfo) (n : ℕ) :
    ∀ (f : ℕ) (S S' : Runner), RunInv q0 tm n S → scheduleAux f S = some S' →
      RunInv q0 tm n S' ∧ S'.current_time = S.current_time := by
  intro f
  induction f with
  | zero =>
    intro S S' hI h
    obtain rfl := Option.some.inj h
    exact ⟨hI, rfl⟩
  | succ f ih =>
    intro S S' hI h
    rw [scheduleAux] at h
    by_cases hfree : S.free_slots > 0
    · rw [if_pos hfree] at h
      cases hdq : S.queue.dequeue with
      | none =>
        rw [hdq] at h
        exact absurd h (by simp)
      | some pr =>
        rw [hdq] at h
        obtain ⟨oa, q2⟩ := pr
        cases oa with
        | none =>
          have h2 : (some { S with queue := q2 } : Option Runner) = some S' := h
          obtain rfl := Option.some.inj h2
          have hdm := dequeue_none_effect _ _ hdq
          refine ⟨?_, rfl⟩
          refine
            { slots_len := hI.slots_len, count_eq := hI.count_eq,
              timings_eq := hI.timings_eq, task_trace := hI.task_trace,
              task_live := hI.task_live, keys_sub := ?_, keys_nodup := ?_,
              cover := ?_, trace_sub := hI.trace_sub, trace_fresh := ?_,
              trace_nodup := hI.trace_nodup, dep_state := ?_,
              trace_dep := hI.trace_dep, trace_end := hI.trace_end,
              work := hI.work }
          · intro b hb
            refine hI.keys_sub b ?_
            show b ∈ S.queue.dep_map.map Prod.fst
            rw [← hdm]
            exact hb
          · show (q2.dep_map.map Prod.fst).Nodup
            rw [hdm]
            exact hI.keys_nodup
          · intro b hb
            rcases hI.cover b hb with hc | hc
            · left
              show b ∈ q2.dep_map.map Prod.fst
              rw [hdm]
              exact hc
            · right
              exact hc
          · intro b hb
            have := hI.trace_fresh b hb
            show b ∉ q2.dep_map.map Prod.fst
            rw [hdm]
            exact this
          · intro b ds0 ds hds0 hds
            refine hI.dep_state b ds0 ds hds0 ?_
            show alookup b S.queue.dep_map = some ds
            rw [← hdm]
            exact hds
        | some a =>
          have h2 : (match alookup a S.timings with
            | none => none
            | some ti =>
              match replaceFirstNone ⟨a, S.current_time + msOf ti.duration⟩
                  S.running_tasks with
              | none => none
              | some slots2 =>
                scheduleAux f
                  { S with queue := q2, running_tasks := slots2,
                           running_tasks_count := S.running_tasks_count + 1,
                           trace := S.trace ++ [(S.current_time, a)] }) = some S' := h
          clear h
          obtain ⟨hcand, hq2⟩ := dequeue_some_effect _ _ _ hdq
          cases hti : alookup a S.timings with
          | none =>
            rw [hti] at h2
            exact absurd h2 (by simp)
          | some ti =>
            rw [hti] at h2
            have h3 : (match replaceFirstNone ⟨a, S.current_time + msOf ti.duration⟩
                S.running_tasks with
              | none => none
              | some slots2 =>
                scheduleAux f
                  { S with queue := q2, running_tasks := slots2,
                           running_tasks_count := S.running_tasks_count + 1,
                           trace := S.trace ++ [(S.current_time, a)] }) = some S' := h2
            clear h2
            cases hrf : replaceFirstNone ⟨a, S.current_time + msOf ti.duration⟩
                S.running_tasks with
            | none =>
              rw [hrf] at h3
              exact absurd h3 (by simp)
            | some slots2 =>
              rw [hrf] at h3
              have hmid : scheduleAux f
                  { S with queue := q2, running_tasks := slots2,
                           running_tasks_count := S.running_tasks_count + 1,
                           trace := S.trace ++ [(S.current_time, a)] } = some S' := h3
              have halk : alookup a S.queue.dep_map = some [] :=
                candidates_alookup _ _ hI.keys_nodup hcand
              have htm : alookup a tm = some ti := by
                rw [← hI.timings_eq]
                exact hti
              have hdms : dms tm a = msOf ti.duration := by
                rw [dms, htm]
                rfl
              have hamem : a ∈ S.queue.dep_map.map Prod.fst :=
                (mem_keys_isSome a _).mpr (by rw [halk]; rfl)
              have haq0 : a ∈ q0.dep_map.map Prod.fst := hI.keys_sub a hamem
              have hanotr : a ∉ S.trace.map Prod.snd :=
                fun hc => hI.trace_fresh a hc hamem
              have hperm2 := replaceFirstNone_occupied _ _ _ hrf
              have hlen2 := replaceFirstNone_len _ _ _ hrf
              have hImid : RunInv q0 tm n
                  { S with queue := q2, running_tasks := slots2,
                           running_tasks_count := S.running_tasks_count + 1,
                           trace := S.trace ++ [(S.current_time, a)] } := by
                refine
                  { slots_len := ?_, count_eq := ?_, timings_eq := hI.timings_eq,
                    task_trace := ?_, task_live := ?_, keys_sub := ?_,
                    keys_nodup := ?_, cover := ?_, trace_sub := ?_,
                    trace_fresh := ?_, trace_nodup := ?_, dep_state := ?_,
                    trace_dep := ?_, trace_end := ?_, work := ?_ }
                · show slots2.length = n
                  rw [hlen2]
                  exact hI.slots_len
                · show S.running_tasks_count + 1 = (occupied slots2).length
                  rw [hI.count_eq, hperm2.length_eq]
                  simp
                · intro t ht
                  rcases List.mem_cons.mp (hperm2.subset ht) with rfl | hto
                  · refine ⟨S.current_time, ?_, ?_⟩
                    · exact List.mem_append_right _ (by simp)
                    · show S.current_time + dms tm a = S.current_time + msOf ti.duration
                      rw [hdms]
                  · obtain ⟨sp, hsp, hspe⟩ := hI.task_trace t hto
                    exact ⟨sp, List.mem_append_left _ hsp, hspe⟩
                · intro t ht
                  rcases List.mem_cons.mp (hperm2.subset ht) with rfl | hto
                  · show S.current_time ≤ S.current_time + msOf ti.duration
                    exact Nat.le_add_right _ _
                  · exact hI.task_live t hto
                · intro b hb
                  show b ∈ q0.dep_map.map Prod.fst
                  rw [hq2] at hb
                  exact hI.keys_sub b ((mem_keys_aerase a b _).mp hb).1
                · show (q2.dep_map.map Prod.fst).Nodup
                  rw [hq2]
                  exact keys_aerase_nodup a _ hI.keys_nodup
                · intro b hb
                  by_cases hba : b = a
                  · right
                    subst hba
                    simp
                  · rcases hI.cover b hb with hc | hc
                    · left
                      show b ∈ q2.dep_map.map Prod.fst
                      rw [hq2]
                      exact (mem_keys_aerase a b _).mpr ⟨hc, hba⟩
                    · right
                      show b ∈ (S.trace ++ [(S.current_time, a)]).map Prod.snd
                      rw [List.map_append]
                      exact List.mem_append_left _ hc
                · intro b hb
                  show b ∈ q0.dep_map.map Prod.fst
                  rw [List.map_append] at hb
                  rcases List.mem_append.mp hb with hc | hc
                  · exact hI.trace_sub b hc
                  · simp only [List.map_cons, List.map_nil, List.mem_singleton] at hc
                    rw [hc]
                    exact haq0
                · intro b hb
                  show b ∉ q2.dep_map.map Prod.fst
                  rw [hq2]
                  intro hmem
                  obtain ⟨hbk, hbne⟩ := (mem_keys_aerase a b _).mp hmem
                  rw [List.map_append] at hb
                  rcases List.mem_append.mp hb with hc | hc
                  · exact hI.trace_fresh b hc hbk
                  · simp only [List.map_cons, List.map_nil, List.mem_singleton] at hc
                    exact hbne hc
                · show ((S.trace ++ [(S.current_time, a)]).map Prod.snd).Nodup
                  rw [List.map_append]
                  refine List.Nodup.append hI.trace_nodup (by simp) ?_
                  intro x hx hx2
                  simp only [List.map_cons, List.map_nil, List.mem_singleton] at hx2
                  rw [hx2] at hx
                  exact hanotr hx
                · intro b ds0 ds hds0 hds
                  have hbne : b ≠ a := by
                    intro hba
                    rw [hba] at hds
                    show False
                    have : alookup a q2.dep_map = none := by
                      rw [hq2]
                      exact alookup_aerase_self a _
                    rw [this] at hds
                    exact absurd hds (by simp)
                  have hdsS : alookup b S.queue.dep_map = some ds := by
                    rw [← alookup_aerase_ne a b _ hbne, ← hq2]
                    exact hds
                  obtain ⟨hsub, hremv⟩ := hI.dep_state b ds0 ds hds0 hdsS
                  refine ⟨hsub, ?_⟩
                  intro p hp hpn
                  obtain ⟨sp, hsp, hsple⟩ := hremv p hp hpn
                  exact ⟨sp, List.mem_append_left _ hsp, hsple⟩
                · intro e he
                  rcases List.mem_append.mp he with hc | hc
                  · intro p hp
                    obtain ⟨sp, hsp, hsple⟩ := hI.trace_dep e hc p hp
                    exact ⟨sp, List.mem_append_left _ hsp, hsple⟩
                  · simp only [List.mem_singleton] at hc
                    subst hc
                    intro p hp
                    obtain ⟨ds0, hds0⟩ :=
                      Option.isSome_iff_exists.mp ((mem_keys_isSome a _).mp haq0)
                    rw [hds0] at hp
                    obtain ⟨-, hremv⟩ := hI.dep_state a ds0 [] hds0 halk
                    obtain ⟨sp, hsp, hsple⟩ := hremv p hp (by simp)
                    exact ⟨sp, List.mem_append_left _ hsp, hsple⟩
                · intro e he
                  rcases List.mem_append.mp he with hc | hc
                  · rcases hI.trace_end e hc with hle | ⟨t, hto, hta, hte⟩
                    · left
                      exact hle
                    · right
                      exact ⟨t, hperm2.symm.subset (List.mem_cons_of_mem _ hto),
                        hta, hte⟩
                  · simp only [List.mem_singleton] at hc
                    subst hc
                    right
                    refine ⟨⟨a, S.current_time + msOf ti.duration⟩,
                      hperm2.symm.subset (List.mem_cons_self _ _), rfl, ?_⟩
                    show S.current_time + msOf ti.duration =
                      S.current_time + dms tm a
                    rw [hdms]
                · show ((S.trace ++ [(S.current_time, a)]).map
                      (fun e => dms tm e.2)).sum +
                      (occupied slots2).length * S.current_time ≤
                    n * S.current_time +
                      ((occupied slots2).map Task.end_time).sum
                  have hT : ((S.trace ++ [(S.current_time, a)]).map
                      (fun e => dms tm e.2)).sum =
                      (S.trace.map (fun e => dms tm e.2)).sum + dms tm a := by
                    rw [List.map_append, List.sum_append]
                    simp
                  have hL : (occupied slots2).length =
                      (occupied S.running_tasks).length + 1 := by
                    rw [hperm2.length_eq]
                    simp
                  have hE : ((occupied slots2).map Task.end_time).sum =
                      (S.current_time + msOf ti.duration) +
                        ((occupied S.running_tasks).map Task.end_time).sum := by
                    rw [(hperm2.map Task.end_time).sum_eq]
                    simp
                  have hW := hI.work
                  have e0 : ((occupied S.running_tasks).length + 1) *
                      S.current_time =
                      (occupied S.running_tasks).length * S.current_time +
                        S.current_time := by
                    ring
                  rw [hT, hL, hE, e0]
                  rw [hdms]
                  omega
              obtain ⟨hI', hct'⟩ := ih _ _ hImid hmid
              exact ⟨hI', hct'⟩
    · rw [if_neg hfree] at h
      obtain rfl := Option.some.inj h
      exact ⟨hI, rfl⟩

/-- One `step` preserves the invariant. -/
theorem step_inv (q0 : DependencyQueue) (tm : AMap TimingInfo) (n : ℕ)
    (S S' : Runner) (hI : RunInv q0 tm n S) (h : S.step = some S') :
    RunInv q0 tm n S' := by
  rw [Runner.step] at h
  cases hr : S.run_next_task_to_completion with
  | none =>
    rw [hr] at h
    exact absurd h (by simp)
  | some Smid =>
    rw [hr] at h
    have h2 : scheduleAux Smid.running_tasks.length Smid = some S' := h
    obtain ⟨hImid, -⟩ := run_next_inv q0 tm n S Smid hI hr
    exact (scheduleAux_inv q0 tm n Smid.running_tasks.length Smid S' hImid h2).1

/-- The main loop preserves the invariant, and on normal exit the queue is
drained and no task is running. -/
theorem calculate_inv (q0 : DependencyQueue) (tm : AMap TimingInfo) (n : ℕ) :
    ∀ (fuel : ℕ) (S S' : Runner), RunInv q0 tm n S →
      Runner.calculate fuel S = some S' →
      RunInv q0 tm n S' ∧ S'.queue.dep_map = [] ∧
        occupied S'.running_tasks = [] := by
  intro fuel
  induction fuel with
  | zero =>
    intro S S' hI h
    exact absurd h (by simp [Runner.calculate])
  | succ fuel ih =>
    intro S S' hI h
    rw [Runner.calculate] at h
    by_cases hc : ¬ S.queue.is_empty ∨ S.busy_slots > 0
    · rw [if_pos hc] at h
      cases hs : S.step with
      | none =>
        rw [hs] at h
        exact absurd h (by simp)
      | some Smid =>
        rw [hs] at h
        have h2 : Runner.calculate fuel Smid = some S' := h
        exact ih Smid S' (step_inv q0 tm n S Smid hI hs) h2
    · rw [if_neg hc] at h
      obtain rfl := Option.some.inj h
      have hie : S.queue.is_empty = true := by
        by_contra hne
        exact hc (Or.inl hne)
      have hbz : ¬ S.busy_slots > 0 := fun hgt => hc (Or.inr hgt)
      refine ⟨hI, ?_, ?_⟩
      · have h2 : S.queue.dep_map.isEmpty = true := hie
        cases hdmv : S.queue.dep_map with
        | nil => rfl
        | cons p rest =>
          rw [hdmv] at h2
          simp at h2
      · have hb0 : S.running_tasks_count = 0 := by
          rw [Runner.busy_slots] at hbz
          omega
        have h2 := hI.count_eq
        rw [hb0] at h2
        exact List.length_eq_zero.mp h2.symm

/-- The invariant holds at the initial state. -/
theorem init_inv (q0 : DependencyQueue) (tm : AMap TimingInfo) (n : ℕ)
    (hnd : (q0.dep_map.map Prod.fst).Nodup) :
    RunInv q0 tm n (Runner.new q0 tm n) := by
  have hocc : occupied (List.replicate n (none : Option Task)) = [] := by
    induction n with
    | zero => rfl
    | succ k ih =>
      show occupied (List.replicate k none) = []
      exact ih
  refine
    { slots_len := by simp [Runner.new], count_eq := ?_, timings_eq := rfl,
      task_trace := ?_, task_live := ?_, keys_sub := fun a ha => ha,
      keys_nodup := hnd, cover := fun a ha => Or.inl ha,
      trace_sub := ?_, trace_fresh := ?_, trace_nodup := ?_,
      dep_state := ?_, trace_dep := ?_, trace_end := ?_, work := ?_ }
  · show 0 = (occupied (List.replicate n none)).length
    rw [hocc]
    rfl
  · intro t ht
    rw [show (Runner.new q0 tm n).running_tasks = List.replicate n none from rfl,
      hocc] at ht
    exact absurd ht (by simp)
  · intro t ht
    rw [show (Runner.new q0 tm n).running_tasks = List.replicate n none from rfl,
      hocc] at ht
    exact absurd ht (by simp)
  · intro a ha
    exact absurd ha (by simp [Runner.new])
  · intro a ha
    exact absurd ha (by simp [Runner.new])
  · show (([] : List (ℕ × Artifact)).map Prod.snd).Nodup
    simp
  · intro a ds0 ds hds0 hds
    have hds2 : alookup a q0.dep_map = some ds := hds
    rw [hds0] at hds2
    obtain rfl := Option.some.inj hds2
    exact ⟨fun p hp => hp, fun p hp hpn => absurd hp hpn⟩
  · intro e he
    exact absurd he (by simp [Runner.new])
  · intro e he
    exact absurd he (by simp [Runner.new])
  · show (([] : List (ℕ × Artifact)).map (fun e => dms tm e.2)).sum +
        (occupied (List.replicate n none)).length * 0 ≤
      n * 0 + ((occupied (List.replicate n none)).map Task.end_time).sum
    rw [hocc]
    simp

/-- Along a dependency chain, the sum of durations is bounded by the head
task's completion time. -/
theorem chain_sum_le (q0 : DependencyQueue) (tm : AMap TimingInfo)
    (trace : List (ℕ × Artifact))
    (hdep : ∀ e ∈ trace, ∀ p ∈ (alookup e.2 q0.dep_map).getD [],
      ∃ sp, (sp, p) ∈ trace ∧ sp + dms tm p ≤ e.1) :
    ∀ (l : List Artifact) (c : Artifact) (s : ℕ),
      List.Chain' (fun x y => y ∈ (alookup x q0.dep_map).getD []) (c :: l) →
      (s, c) ∈ trace → ((c :: l).map (dms tm)).sum ≤ s + dms tm c := by
  intro l
  induction l with
  | nil =>
    intro c s hch hmem
    simp only [List.map_cons, List.map_nil, List.sum_cons, List.sum_nil]
    omega
  | cons d rest ih =>
    intro c s hch hmem
    have hcd : d ∈ (alookup c q0.dep_map).getD [] := (List.chain'_cons.mp hch).1
    have hch2 := (List.chain'_cons.mp hch).2
    obtain ⟨sp, hsp, hsple⟩ := hdep (s, c) hmem d hcd
    have hih := ih d sp hch2 hsp
    simp only [List.map_cons, List.sum_cons] at hih ⊢
    omega

theorem perm_of_sub_sub {α : Type} [DecidableEq α] (l1 l2 : List α)
    (h1 : l1.Nodup) (h2 : l2.Nodup) (s1 : ∀ a ∈ l1, a ∈ l2)
    (s2 : ∀ a ∈ l2, a ∈ l1) : l1.Perm l2 :=
  (List.subperm_of_subset h1 s1).antisymm (List.subperm_of_subset h2 s2)

/-- **C3.** For every input queue with duplicate-free keys and every timing
map, a completed run of `Runner::calculate` has a makespan at least the sum
of simulated durations along any dependency chain starting at a key
(critical-path lower bound), and at least the sum of all keys' simulated
durations divided by the thread count (stated multiplied out:
`Σ ≤ num_threads · makespan`). -/
theorem calculate_makespan_bounds (q0 : DependencyQueue) (tm : AMap TimingInfo)
    (n fuel : ℕ) (final : Runner)
    (hnd : (q0.dep_map.map Prod.fst).Nodup)
    (hrun : Runner.calculate fuel (Runner.new q0 tm n) = some final) :
    (∀ (c : Artifact) (l : List Artifact),
      List.Chain' (fun x y => y ∈ (alookup x q0.dep_map).getD []) (c :: l) →
      c ∈ q0.dep_map.map Prod.fst →
      ((c :: l).map (dms tm)).sum ≤ final.current_time) ∧
    (q0.dep_map.map (fun p => dms tm p.1)).sum ≤ n * final.current_time := by
  obtain ⟨hI, hdm, hocc⟩ :=
    calculate_inv q0 tm n fuel _ final (init_inv q0 tm n hnd) hrun
  have hends : ∀ e ∈ final.trace, e.1 + dms tm e.2 ≤ final.current_time := by
    intro e he
    rcases hI.trace_end e he with h | ⟨t, ht, -⟩
    · exact h
    · rw [hocc] at ht
      exact absurd ht (by simp)
  have hcov : ∀ a ∈ q0.dep_map.map Prod.fst, a ∈ final.trace.map Prod.snd := by
    intro a ha
    rcases hI.cover a ha with hc | hc
    · rw [hdm] at hc
      exact absurd hc (by simp)
    · exact hc
  constructor
  · intro c l hch hc
    obtain ⟨e, he, hea⟩ := List.mem_map.mp (hcov c hc)
    have hmem : (e.1, c) ∈ final.trace := by
      rw [← hea]
      exact he
    have hchain := chain_sum_le q0 tm final.trace hI.trace_dep l c e.1 hch hmem
    have hend := hends e he
    rw [hea] at hend
    exact le_trans hchain hend
  · have hperm : (q0.dep_map.map Prod.fst).Perm (final.trace.map Prod.snd) :=
      perm_of_sub_sub _ _ hnd hI.trace_nodup hcov hI.trace_sub
    have hw := hI.work
    rw [hocc] at hw
    simp only [List.length_nil, Nat.zero_mul, Nat.add_zero, List.map_nil,
      List.sum_nil] at hw
    calc (q0.dep_map.map (fun p => dms tm p.1)).sum
        = ((q0.dep_map.map Prod.fst).map (dms tm)).sum := by
          rw [List.map_map]
          rfl
      _ = ((final.trace.map Prod.snd).map (dms tm)).sum :=
          (hperm.map (dms tm)).sum_eq
      _ = (final.trace.map (fun e => dms tm e.2)).sum := by
          rw [List.map_map]
          rfl
      _ ≤ n * final.current_time := hw

/-- **C3 witness.** A one-crate, one-thread run (duration 2 s) finishes at
2000 ms; the single chain `[a]` sums to 2000 ≤ 2000 and the total work
2000 ≤ 1 · 2000. -/
theorem calculate_makespan_bounds_witness :
    (([⟨ArtifactType.Link, "a"⟩] : List Artifact).map
        (dms [(⟨.Link, "a"⟩, ⟨.Build, 2, none, "a", ⟨"a", [.Bin]⟩⟩)])).sum ≤ 2000 ∧
    (([(⟨ArtifactType.Link, "a"⟩, ([] : ASet))] : AMap ASet).map
        (fun p => dms [(⟨.Link, "a"⟩, ⟨.Build, 2, none, "a", ⟨"a", [.Bin]⟩⟩)] p.1)).sum ≤
      1 * 2000 := by
  obtain ⟨h1, h2⟩ := calculate_makespan_bounds
    (DependencyQueue.mk [(⟨.Link, "a"⟩, [])] [] (.cargo [(⟨.Link, "a"⟩, 10)] true))
    [(⟨.Link, "a"⟩, ⟨.Build, 2, none, "a", ⟨"a", [.Bin]⟩⟩)] 1 3
    (Runner.mk 2000
      (DependencyQueue.mk [] [] (.cargo [(⟨.Link, "a"⟩, 10)] true))
      [(⟨.Link, "a"⟩, ⟨.Build, 2, none, "a", ⟨"a", [.Bin]⟩⟩)]
      [none] 0 [(0, ⟨.Link, "a"⟩)])
    (by decide) (by decide)
  exact ⟨h1 ⟨.Link, "a"⟩ [] (by simp) (by decide), h2⟩

end DiceBox
